import Mathlib

/-!
Block-template assembly and the mining-candidate registry.

A shallow embedding of `src/mining/legacy.cpp` (the legacy block assembler) and
`src/mining/candidates.cpp` (the candidate registry), followed by theorems about them.

Conventions of the embedding

* `uint64_t` quantities are naturals reduced modulo `2^64` after every addition,
  subtraction and multiplication; `int64_t` quantities and `Amount` are integers (signed
  overflow is undefined behaviour in the source and is not modelled).
* A pool iterator `CTxMemPool::txiter` is a natural number; the order of the naturals
  stands for `CompareIteratorByHash`, so a `setEntries` is a list in that iteration order.
* The two `while` loops are iterated by a fuel counter; a run that uses up its fuel reports
  `Status.outOfFuel` together with the state reached so far.
* Functions of the pool, the chain state and the configuration that are declared outside
  the embedded files are fields of `CTxMemPool` and `Config`.
-/

namespace Mining

/-! ## Machine arithmetic -/

/-- The modulus of `uint64_t` arithmetic, `2^64`. -/
abbrev UINT64_MOD : Nat := 18446744073709551616

/-- Addition of two `uint64_t` values. -/
def u64add (a b : Nat) : Nat := (a + b) % UINT64_MOD

/-- Subtraction of two `uint64_t` values (wraps below zero). -/
def u64sub (a b : Nat) : Nat := (a + (UINT64_MOD - b % UINT64_MOD)) % UINT64_MOD

/-- Multiplication of two `uint64_t` values. -/
def u64mul (a b : Nat) : Nat := (a * b) % UINT64_MOD

/-- The sum `a + b` of a `uint64_t` and an `int64_t`: the signed operand is converted to
`uint64_t` and the sum wraps. -/
def u64addInt (a : Nat) (b : Int) : Nat := (((a : Int) + b) % (UINT64_MOD : Int)).toNat

/-! ## The transaction pool (external collaborator) -/

/-- A pool iterator, `CTxMemPool::txiter`. -/
abbrev TxIter := Nat

/-- The fields of a `CTxMemPoolEntry` read by the assembler. -/
structure CTxMemPoolEntry where
  /-- The value of `::GetSerializeSize(it->GetTx(), SER_NETWORK, PROTOCOL_VERSION)`. -/
  serializeSize : Nat
  /-- The value of `GetTxSize()`. -/
  nTxSize : Nat
  /-- The value of `GetFee()`. -/
  nFee : Int
  /-- The value of `GetModifiedFee()`. -/
  modifiedFee : Int
  /-- The value of `GetSigOpCount()`. -/
  sigOpCount : Int
  /-- The value of `GetCountWithAncestors()`. -/
  nCountWithAncestors : Nat
  /-- The value of `GetSizeWithAncestors()`. -/
  nSizeWithAncestors : Nat
  /-- The value of `GetModFeesWithAncestors()`. -/
  nModFeesWithAncestors : Int
  /-- The value of `GetSigOpCountWithAncestors()`. -/
  nSigOpCountWithAncestors : Int
  deriving DecidableEq, Repr, Inhabited

/-- The view of `CTxMemPool` used by the assembler. -/
structure CTxMemPool where
  /-- Iteration over `mempool.mapTx` (primary index). -/
  mapTx : List TxIter
  /-- Iteration over the ancestor-score index of `mapTx`, from `begin()` to `end()`. -/
  ancestorScore : List TxIter
  /-- Dereferencing an iterator. -/
  entry : TxIter → CTxMemPoolEntry
  /-- The set returned by `GetMemPoolParents`. -/
  GetMemPoolParents : TxIter → List TxIter
  /-- The set returned by `GetMemPoolChildren`. -/
  GetMemPoolChildren : TxIter → List TxIter
  /-- The set filled by `CalculateMemPoolAncestors` with no limits. -/
  CalculateMemPoolAncestors : TxIter → List TxIter
  /-- The set filled by `CalculateDescendants`, which contains the entry itself. -/
  CalculateDescendants : TxIter → List TxIter
  /-- The priority `GetPriority(nHeight)` after `ApplyDeltas`; a `double` in the source,
  of which only the order (through `pricomparer`) and `AllowFree` are observed. -/
  dPriority : TxIter → Int

/-- An entry of `indexed_modified_transaction_set`. -/
structure CTxMemPoolModifiedEntry where
  iter : TxIter
  nSizeWithAncestors : Nat
  nModFeesWithAncestors : Int
  nSigOpCountWithAncestors : Int
  deriving DecidableEq, Repr, Inhabited

/-- The constructor `CTxMemPoolModifiedEntry(entry)`: a copy of the pool's aggregates. -/
def CTxMemPoolModifiedEntry.ofEntry (pool : CTxMemPool) (it : TxIter) :
    CTxMemPoolModifiedEntry :=
  { iter := it
    nSizeWithAncestors := (pool.entry it).nSizeWithAncestors
    nModFeesWithAncestors := (pool.entry it).nModFeesWithAncestors
    nSigOpCountWithAncestors := (pool.entry it).nSigOpCountWithAncestors }

/-- A slot of `pblock->vtx`. -/
inductive CTransactionRef where
  /-- The empty reference pushed by `vtx.emplace_back()`. -/
  | null
  /-- The coinbase transaction created by `FillBlockHeader`. -/
  | coinbase
  /-- The shared transaction `iter->GetSharedTx()` of a pool entry. -/
  | pooled (it : TxIter)
  deriving DecidableEq, Repr, Inhabited

/-- Configuration, chain state and the external functions called by the assembler. -/
structure Config where
  /-- The value of `ComputeMaxGeneratedBlockSize(chainActive.Tip())`. -/
  nMaxGeneratedBlockSize : Nat
  /-- The consensus function `GetMaxBlockSigOpsCount`. -/
  GetMaxBlockSigOpsCount : Nat → Nat
  /-- The function `blockMinFeeRate.GetFee`. -/
  blockMinFeeRateGetFee : Nat → Int
  /-- The value of `mConfig.GetBlockPriorityPercentage()`. -/
  GetBlockPriorityPercentage : Nat
  /-- The result of `ContextualCheckTransaction` at the build's height and cutoff. -/
  ContextualCheckTransaction : TxIter → Bool
  /-- The policy function `AllowFree`. -/
  AllowFree : Int → Bool
  /-- The heap order `TxCoinAgePriorityCompare` (a strict order, `a` below `b`). -/
  pricomparer : Int × TxIter → Int × TxIter → Bool
  /-- The overlay order `CompareModifiedEntry` (`a` scores strictly better than `b`). -/
  CompareModifiedEntry : CTxMemPoolModifiedEntry → CTxMemPoolModifiedEntry → Bool
  /-- The value of `mConfig.GetTestBlockCandidateValidity()`. -/
  GetTestBlockCandidateValidity : Bool
  /-- The result of `TestBlockValidity` on the block's transactions, with the text of
  `FormatStateMessage(state)`. -/
  TestBlockValidity : List CTransactionRef → Bool × String
  /-- The value of `GetSigOpCountWithoutP2SH(*pblock->vtx[0])`. -/
  coinbaseSigOps : Int

/-! ## The assembler's state -/

/-- The per-build state of `LegacyBlockAssembler` together with the three arrays of the
block template under construction. -/
structure LegacyBlockAssembler where
  vtx : List CTransactionRef
  vTxFees : List Int
  vTxSigOpsCount : List Int
  inBlock : List TxIter
  nBlockSize : Nat
  nBlockSigOps : Nat
  nBlockTx : Nat
  mBlockFees : Int
  lastFewTxs : Nat
  blockFinished : Bool
  deriving DecidableEq, Repr, Inhabited

/-- Insertion into a `setEntries`. -/
def setInsert (x : TxIter) (s : List TxIter) : List TxIter :=
  if x ∈ s then s else List.orderedInsert (fun a b => a ≤ b) x s

/-- `LegacyBlockAssembler::resetBlock`. -/
def resetBlock (a : LegacyBlockAssembler) : LegacyBlockAssembler :=
  { a with
    inBlock := []
    nBlockSize := 1000
    nBlockSigOps := 100
    nBlockTx := 0
    mBlockFees := 0
    lastFewTxs := 0
    blockFinished := false }

/-- `LegacyBlockAssembler::isStillDependent`. -/
def isStillDependent (pool : CTxMemPool) (a : LegacyBlockAssembler) (iter : TxIter) : Bool :=
  (pool.GetMemPoolParents iter).any (fun parent => decide (parent ∉ a.inBlock))

/-- `LegacyBlockAssembler::onlyUnconfirmed`. -/
def onlyUnconfirmed (a : LegacyBlockAssembler) (testSet : List TxIter) : List TxIter :=
  testSet.filter (fun it => decide (it ∉ a.inBlock))

/-- `LegacyBlockAssembler::TestPackage`. -/
def TestPackage (cfg : Config) (a : LegacyBlockAssembler) (packageSize : Nat)
    (packageSigOps : Int) : Bool :=
  let blockSizeWithPackage := u64add a.nBlockSize packageSize
  if blockSizeWithPackage ≥ cfg.nMaxGeneratedBlockSize then false
  else if u64addInt a.nBlockSigOps packageSigOps ≥
      cfg.GetMaxBlockSigOpsCount blockSizeWithPackage then false
  else true

/-- The loop of `TestPackageTransactions`, started with `nPotentialBlockSize`. -/
def TestPackageTransactionsFrom (cfg : Config) (pool : CTxMemPool) :
    Nat → List TxIter → Bool
  | _, [] => true
  | nPotentialBlockSize, it :: rest =>
    if !cfg.ContextualCheckTransaction it then false
    else if u64add nPotentialBlockSize (pool.entry it).serializeSize ≥
        cfg.nMaxGeneratedBlockSize then false
    else TestPackageTransactionsFrom cfg pool
      (u64add nPotentialBlockSize (pool.entry it).serializeSize) rest

/-- `LegacyBlockAssembler::TestPackageTransactions`. -/
def TestPackageTransactions (cfg : Config) (pool : CTxMemPool) (a : LegacyBlockAssembler)
    (package : List TxIter) : Bool :=
  TestPackageTransactionsFrom cfg pool a.nBlockSize package

/-- `LegacyBlockAssembler::TestForBlock`: the result and the assembler afterwards. -/
def TestForBlock (cfg : Config) (pool : CTxMemPool) (a : LegacyBlockAssembler)
    (it : TxIter) : Bool × LegacyBlockAssembler :=
  let blockSizeWithTx := u64add a.nBlockSize (pool.entry it).serializeSize
  if blockSizeWithTx ≥ cfg.nMaxGeneratedBlockSize then
    if a.nBlockSize > u64sub cfg.nMaxGeneratedBlockSize 100 ∨ a.lastFewTxs > 50 then
      (false, { a with blockFinished := true })
    else if a.nBlockSize > u64sub cfg.nMaxGeneratedBlockSize 1000 then
      (false, { a with lastFewTxs := a.lastFewTxs + 1 })
    else (false, a)
  else
    let maxBlockSigOps := cfg.GetMaxBlockSigOpsCount blockSizeWithTx
    if u64addInt a.nBlockSigOps (pool.entry it).sigOpCount ≥ maxBlockSigOps then
      if a.nBlockSigOps > u64sub maxBlockSigOps 2 then
        (false, { a with blockFinished := true })
      else (false, a)
    else if !cfg.ContextualCheckTransaction it then (false, a)
    else (true, a)

/-- `LegacyBlockAssembler::AddToBlock` (the priority print-out is omitted). -/
def AddToBlock (pool : CTxMemPool) (a : LegacyBlockAssembler) (iter : TxIter) :
    LegacyBlockAssembler :=
  { a with
    vtx := a.vtx ++ [CTransactionRef.pooled iter]
    vTxFees := a.vTxFees ++ [(pool.entry iter).nFee]
    vTxSigOpsCount := a.vTxSigOpsCount ++ [(pool.entry iter).sigOpCount]
    nBlockSize := u64add a.nBlockSize (pool.entry iter).nTxSize
    nBlockTx := u64add a.nBlockTx 1
    nBlockSigOps := u64addInt a.nBlockSigOps (pool.entry iter).sigOpCount
    mBlockFees := a.mBlockFees + (pool.entry iter).nFee
    inBlock := setInsert iter a.inBlock }

/-! ## The overlay `mapModifiedTx` -/

/-- The lookup `mapModifiedTx.find(it)`. -/
def modFind (m : List CTxMemPoolModifiedEntry) (it : TxIter) :
    Option CTxMemPoolModifiedEntry :=
  m.find? (fun e => decide (e.iter = it))

/-- The removal of the record of `it` from `mapModifiedTx`, by key or by iterator. -/
def modErase (m : List CTxMemPoolModifiedEntry) (it : TxIter) :
    List CTxMemPoolModifiedEntry :=
  m.filter (fun e => decide (e.iter ≠ it))

/-- Modelled from the spec: the functor `update_for_parent_inclusion`, declared outside
the embedded files, subtracts the included ancestor's size, fee and sigop contribution. -/
def update_for_parent_inclusion (pool : CTxMemPool) (it : TxIter)
    (e : CTxMemPoolModifiedEntry) : CTxMemPoolModifiedEntry :=
  { e with
    nSizeWithAncestors := u64sub e.nSizeWithAncestors (pool.entry it).nTxSize
    nModFeesWithAncestors := e.nModFeesWithAncestors - (pool.entry it).modifiedFee
    nSigOpCountWithAncestors := e.nSigOpCountWithAncestors - (pool.entry it).sigOpCount }

/-- The body of the inner loop of `UpdatePackagesForAdded` for the added entry `it` and
its descendant `desc`. -/
def updateDescendant (pool : CTxMemPool) (alreadyAdded : List TxIter) (it : TxIter)
    (acc : Int × List CTxMemPoolModifiedEntry) (desc : TxIter) :
    Int × List CTxMemPoolModifiedEntry :=
  if desc ∈ alreadyAdded then acc
  else
    match modFind acc.2 desc with
    | none =>
      let modEntry := CTxMemPoolModifiedEntry.ofEntry pool desc
      (acc.1 + 1, acc.2 ++
        [{ modEntry with
           nSizeWithAncestors := u64sub modEntry.nSizeWithAncestors (pool.entry it).nTxSize
           nModFeesWithAncestors :=
             modEntry.nModFeesWithAncestors - (pool.entry it).modifiedFee
           nSigOpCountWithAncestors :=
             modEntry.nSigOpCountWithAncestors - (pool.entry it).sigOpCount }])
    | some _ =>
      (acc.1 + 1, acc.2.map (fun e =>
        if e.iter = desc then update_for_parent_inclusion pool it e else e))

/-- `LegacyBlockAssembler::UpdatePackagesForAdded`: the count `nDescendantsUpdated` and
the overlay afterwards. -/
def UpdatePackagesForAdded (pool : CTxMemPool) (alreadyAdded : List TxIter)
    (mapModifiedTx : List CTxMemPoolModifiedEntry) :
    Int × List CTxMemPoolModifiedEntry :=
  alreadyAdded.foldl
    (fun acc it => (pool.CalculateDescendants it).foldl
      (updateDescendant pool alreadyAdded it) acc)
    (0, mapModifiedTx)

/-- `LegacyBlockAssembler::SkipMapTxEntry`; its assertion `it != mempool.mapTx.end()` holds
at the only call, which is made with the cursor before `end()`. -/
def SkipMapTxEntry (a : LegacyBlockAssembler) (it : TxIter)
    (mapModifiedTx : List CTxMemPoolModifiedEntry) (failedTx : List TxIter) : Bool :=
  (modFind mapModifiedTx it).isSome || decide (it ∈ a.inBlock) || decide (it ∈ failedTx)

/-- Modelled from the spec: the comparator `CompareTxIterByAncestorCount`, declared
outside the embedded files, orders by ancestor count; equal counts are ordered by
`CompareIteratorByHash`. -/
def CompareTxIterByAncestorCount (pool : CTxMemPool) (a b : TxIter) : Prop :=
  (pool.entry a).nCountWithAncestors < (pool.entry b).nCountWithAncestors ∨
  ((pool.entry a).nCountWithAncestors = (pool.entry b).nCountWithAncestors ∧ a ≤ b)

instance (pool : CTxMemPool) : DecidableRel (CompareTxIterByAncestorCount pool) :=
  fun _ _ => by unfold CompareTxIterByAncestorCount; infer_instance

/-- `LegacyBlockAssembler::SortForBlock`: the sorted vector `sortedEntries`. -/
def SortForBlock (pool : CTxMemPool) (package : List TxIter) : List TxIter :=
  List.insertionSort (CompareTxIterByAncestorCount pool) package

/-- The first element of the score index of the overlay,
`mapModifiedTx.get<ancestor_score>().begin()`: an entry than which none scores better. -/
def bestModified (cmp : CTxMemPoolModifiedEntry → CTxMemPoolModifiedEntry → Bool) :
    List CTxMemPoolModifiedEntry → Option CTxMemPoolModifiedEntry
  | [] => none
  | x :: xs => some (xs.foldl (fun best y => if cmp y best then y else best) x)

/-! ## The package phase -/

/-- The result of one pass through a loop body. -/
inductive LoopStep (σ : Type) where
  /-- The body ended or hit `continue`. -/
  | next (s : σ)
  /-- The body hit `break` or `return`. -/
  | stop (s : σ)
  /-- An `assert` failed. -/
  | assertFailed (s : σ)

/-- How a loop run ended. -/
inductive Status where
  | finished
  | assertFailed
  | outOfFuel
  deriving DecidableEq, Repr, Inhabited

/-- The local variables of `addPackageTxs` together with the assembler. -/
structure PackageState where
  blk : LegacyBlockAssembler
  /-- The part of the ancestor-score index from the cursor `mi` to `end()`. -/
  mi : List TxIter
  mapModifiedTx : List CTxMemPoolModifiedEntry
  failedTx : List TxIter
  nConsecutiveFailed : Nat
  nPackagesSelected : Int
  nDescendantsUpdated : Int
  deriving DecidableEq, Repr, Inhabited

/-- The package picked by the choice step of `addPackageTxs`. -/
structure PackageChoice where
  iter : TxIter
  /-- The overlay record `*modit` when `fUsingModified` is set, nothing otherwise. -/
  modit : Option CTxMemPoolModifiedEntry
  /-- The cursor after the choice. -/
  mi : List TxIter
  deriving DecidableEq, Repr, Inhabited

/-- The flag `fUsingModified`. -/
def PackageChoice.fUsingModified (c : PackageChoice) : Bool := c.modit.isSome

/-- The choice step of `addPackageTxs`: the next entry of `mapTx` or the best of the
overlay. Nothing is chosen only when both are exhausted, which the loop guard excludes. -/
def choosePackage (cfg : Config) (pool : CTxMemPool) (s : PackageState) :
    Option PackageChoice :=
  match s.mi, bestModified cfg.CompareModifiedEntry s.mapModifiedTx with
  | [], none => none
  | [], some m => some { iter := m.iter, modit := some m, mi := [] }
  | it :: rest, none => some { iter := it, modit := none, mi := rest }
  | it :: rest, some m =>
    if cfg.CompareModifiedEntry m (CTxMemPoolModifiedEntry.ofEntry pool it) then
      some { iter := m.iter, modit := some m, mi := it :: rest }
    else some { iter := it, modit := none, mi := rest }

/-- The value of `packageSize` for a choice. -/
def PackageChoice.packageSize (pool : CTxMemPool) (c : PackageChoice) : Nat :=
  match c.modit with
  | some m => m.nSizeWithAncestors
  | none => (pool.entry c.iter).nSizeWithAncestors

/-- The value of `packageFees` for a choice. -/
def PackageChoice.packageFees (pool : CTxMemPool) (c : PackageChoice) : Int :=
  match c.modit with
  | some m => m.nModFeesWithAncestors
  | none => (pool.entry c.iter).nModFeesWithAncestors

/-- The value of `packageSigOps` for a choice. -/
def PackageChoice.packageSigOps (pool : CTxMemPool) (c : PackageChoice) : Int :=
  match c.modit with
  | some m => m.nSigOpCountWithAncestors
  | none => (pool.entry c.iter).nSigOpCountWithAncestors

/-- The bookkeeping of a failed package: an overlay entry is erased and recorded in
`failedTx`; an entry of `mapTx` is left alone. -/
def markFailed (c : PackageChoice) (s : PackageState) : PackageState :=
  if c.fUsingModified then
    { s with
      mi := c.mi
      mapModifiedTx := modErase s.mapModifiedTx c.iter
      failedTx := setInsert c.iter s.failedTx }
  else { s with mi := c.mi }

/-- The set `ancestors` handed to `TestPackageTransactions` and `SortForBlock`. -/
def packageOf (pool : CTxMemPool) (a : LegacyBlockAssembler) (iter : TxIter) :
    List TxIter :=
  setInsert iter (onlyUnconfirmed a (pool.CalculateMemPoolAncestors iter))

/-- The loop over `sortedEntries` in `addPackageTxs`. -/
def addSortedEntries (pool : CTxMemPool) (sortedEntries : List TxIter)
    (s : PackageState) : PackageState :=
  sortedEntries.foldl
    (fun st entry =>
      { st with
        blk := AddToBlock pool st.blk entry
        mapModifiedTx := modErase st.mapModifiedTx entry })
    s

/-- The constant `MAX_CONSECUTIVE_FAILURES`. -/
abbrev MAX_CONSECUTIVE_FAILURES : Nat := 1000

/-- The part of the loop body of `addPackageTxs` after the choice step. -/
def processChoice (cfg : Config) (pool : CTxMemPool) (s : PackageState)
    (c : PackageChoice) : LoopStep PackageState :=
  if c.iter ∈ s.blk.inBlock then LoopStep.assertFailed { s with mi := c.mi }
  else if c.packageFees pool < cfg.blockMinFeeRateGetFee (c.packageSize pool) then
    LoopStep.stop { s with mi := c.mi }
  else if !TestPackage cfg s.blk (c.packageSize pool) (c.packageSigOps pool) then
    let s1 := markFailed c s
    let s2 := { s1 with nConsecutiveFailed := s1.nConsecutiveFailed + 1 }
    if s2.nConsecutiveFailed > MAX_CONSECUTIVE_FAILURES ∧
        s2.blk.nBlockSize > u64sub cfg.nMaxGeneratedBlockSize 1000 then
      LoopStep.stop s2
    else LoopStep.next s2
  else
    let ancestors := packageOf pool s.blk c.iter
    if !TestPackageTransactions cfg pool s.blk ancestors then
      LoopStep.next (markFailed c s)
    else
      let s1 := addSortedEntries pool (SortForBlock pool ancestors)
        { s with mi := c.mi, nConsecutiveFailed := 0 }
      let upd := UpdatePackagesForAdded pool ancestors s1.mapModifiedTx
      LoopStep.next
        { s1 with
          nPackagesSelected := s1.nPackagesSelected + 1
          nDescendantsUpdated := s1.nDescendantsUpdated + upd.1
          mapModifiedTx := upd.2 }

/-- One pass through the body of the `while` loop of `addPackageTxs`. -/
def addPackageTxsBody (cfg : Config) (pool : CTxMemPool) (s : PackageState) :
    LoopStep PackageState :=
  match s.mi with
  | it :: rest =>
    if SkipMapTxEntry s.blk it s.mapModifiedTx s.failedTx then
      LoopStep.next { s with mi := rest }
    else
      match choosePackage cfg pool s with
      | some c => processChoice cfg pool s c
      | none => LoopStep.stop s
  | [] =>
    match choosePackage cfg pool s with
    | some c => processChoice cfg pool s c
    | none => LoopStep.stop s

/-- The guard of the `while` loop of `addPackageTxs`. -/
def packageLoopGuard (s : PackageState) : Bool :=
  !s.mi.isEmpty || !s.mapModifiedTx.isEmpty

/-- The `while` loop of `addPackageTxs`, run for at most `fuel` passes. -/
def addPackageTxsLoop (cfg : Config) (pool : CTxMemPool) :
    Nat → PackageState → Status × PackageState
  | 0, s => if packageLoopGuard s then (Status.outOfFuel, s) else (Status.finished, s)
  | fuel + 1, s =>
    if packageLoopGuard s then
      match addPackageTxsBody cfg pool s with
      | LoopStep.next s1 => addPackageTxsLoop cfg pool fuel s1
      | LoopStep.stop s1 => (Status.finished, s1)
      | LoopStep.assertFailed s1 => (Status.assertFailed, s1)
    else (Status.finished, s)

/-- The state of `addPackageTxs` when its loop is entered. -/
def addPackageTxsInit (pool : CTxMemPool) (a : LegacyBlockAssembler) : PackageState :=
  { blk := a
    mi := pool.ancestorScore
    mapModifiedTx := (UpdatePackagesForAdded pool a.inBlock []).2
    failedTx := []
    nConsecutiveFailed := 0
    nPackagesSelected := 0
    nDescendantsUpdated := 0 }

/-- `LegacyBlockAssembler::addPackageTxs`. -/
def addPackageTxs (cfg : Config) (pool : CTxMemPool) (fuel : Nat)
    (a : LegacyBlockAssembler) : Status × PackageState :=
  addPackageTxsLoop cfg pool fuel (addPackageTxsInit pool a)

/-! ## The priority phase -/

/-- The local variables of `addPriorityTxs` together with the assembler. -/
structure PriorityState where
  blk : LegacyBlockAssembler
  vecPriority : List (Int × TxIter)
  waitPriMap : List (TxIter × Int)
  deriving DecidableEq, Repr, Inhabited

/-- The front of the heap `vecPriority`: an element that `pricomparer` puts below no
other. -/
def heapFront (cmp : Int × TxIter → Int × TxIter → Bool) :
    List (Int × TxIter) → Option (Int × TxIter)
  | [] => none
  | x :: xs => some (xs.foldl (fun best y => if cmp best y then y else best) x)

/-- The insertion `waitPriMap.insert(std::make_pair(iter, priority))`, which keeps an
existing binding. -/
def waitInsert (w : List (TxIter × Int)) (iter : TxIter) (priority : Int) :
    List (TxIter × Int) :=
  if (w.lookup iter).isSome then w else w ++ [(iter, priority)]

/-- The body of the loop over `GetMemPoolChildren(iter)` in `addPriorityTxs`. -/
def promoteChild (acc : List (Int × TxIter) × List (TxIter × Int)) (child : TxIter) :
    List (Int × TxIter) × List (TxIter × Int) :=
  match acc.2.lookup child with
  | some priority => (acc.1 ++ [(priority, child)], acc.2.filter (fun p => decide (p.1 ≠ child)))
  | none => acc

/-- One pass through the body of the `while` loop of `addPriorityTxs`. -/
def addPriorityTxsBody (cfg : Config) (pool : CTxMemPool) (nBlockPrioritySize : Nat)
    (s : PriorityState) : LoopStep PriorityState :=
  match heapFront cfg.pricomparer s.vecPriority with
  | none => LoopStep.stop s
  | some front =>
    let iter := front.2
    let actualPriority := front.1
    let vec := s.vecPriority.erase front
    if iter ∈ s.blk.inBlock then LoopStep.assertFailed { s with vecPriority := vec }
    else if isStillDependent pool s.blk iter then
      LoopStep.next
        { s with vecPriority := vec, waitPriMap := waitInsert s.waitPriMap iter actualPriority }
    else
      let tested := TestForBlock cfg pool s.blk iter
      if tested.1 then
        let blk := AddToBlock pool tested.2 iter
        if blk.nBlockSize ≥ nBlockPrioritySize ∨ !cfg.AllowFree actualPriority then
          LoopStep.stop { s with blk := blk, vecPriority := vec }
        else
          let promoted := (pool.GetMemPoolChildren iter).foldl promoteChild (vec, s.waitPriMap)
          LoopStep.next { blk := blk, vecPriority := promoted.1, waitPriMap := promoted.2 }
      else LoopStep.next { s with blk := tested.2, vecPriority := vec }

/-- The guard of the `while` loop of `addPriorityTxs`. -/
def priorityLoopGuard (s : PriorityState) : Bool :=
  !s.vecPriority.isEmpty && !s.blk.blockFinished

/-- The `while` loop of `addPriorityTxs`, run for at most `fuel` passes. -/
def addPriorityTxsLoop (cfg : Config) (pool : CTxMemPool) (nBlockPrioritySize : Nat) :
    Nat → PriorityState → Status × PriorityState
  | 0, s => if priorityLoopGuard s then (Status.outOfFuel, s) else (Status.finished, s)
  | fuel + 1, s =>
    if priorityLoopGuard s then
      match addPriorityTxsBody cfg pool nBlockPrioritySize s with
      | LoopStep.next s1 => addPriorityTxsLoop cfg pool nBlockPrioritySize fuel s1
      | LoopStep.stop s1 => (Status.finished, s1)
      | LoopStep.assertFailed s1 => (Status.assertFailed, s1)
    else (Status.finished, s)

/-- `LegacyBlockAssembler::addPriorityTxs`. -/
def addPriorityTxs (cfg : Config) (pool : CTxMemPool) (fuel : Nat)
    (a : LegacyBlockAssembler) : Status × LegacyBlockAssembler :=
  if cfg.GetBlockPriorityPercentage = 0 then (Status.finished, a)
  else
    let nBlockPrioritySize :=
      u64mul cfg.nMaxGeneratedBlockSize cfg.GetBlockPriorityPercentage / 100
    let r := addPriorityTxsLoop cfg pool nBlockPrioritySize fuel
      { blk := a
        vecPriority := pool.mapTx.map (fun mi => (pool.dPriority mi, mi))
        waitPriMap := [] }
    (r.1, r.2.blk)

/-! ## `CreateNewBlock` -/

/-- The three arrays of a `CBlockTemplate`. -/
structure CBlockTemplate where
  vtx : List CTransactionRef
  vTxFees : List Int
  vTxSigOpsCount : List Int
  deriving DecidableEq, Repr, Inhabited

/-- How a call of `CreateNewBlock` ends. -/
inductive BuildResult where
  /-- The template is returned. -/
  | returned (t : CBlockTemplate)
  /-- A `std::runtime_error` with the given text is thrown. -/
  | runtimeError (what : String)
  /-- An `assert` of a selection loop failed. -/
  | assertFailed
  /-- A selection loop used up the fuel of the model. -/
  | outOfFuel
  deriving DecidableEq, Repr, Inhabited

/-- The assembler after `resetBlock`, the fresh template and the dummy coinbase slot. -/
def startBlock (a : LegacyBlockAssembler) : LegacyBlockAssembler :=
  { resetBlock a with
    vtx := [CTransactionRef.null]
    vTxFees := [-1]
    vTxSigOpsCount := [-1] }

/-- The selection part of `CreateNewBlock`: `resetBlock`, the dummy coinbase slot, then
`addPriorityTxs` and `addPackageTxs`. -/
def selectTransactions (cfg : Config) (pool : CTxMemPool) (fuel : Nat)
    (a : LegacyBlockAssembler) : Status × LegacyBlockAssembler :=
  match addPriorityTxs cfg pool fuel (startBlock a) with
  | (Status.finished, a1) =>
    let r := addPackageTxs cfg pool fuel a1
    (r.1, r.2.blk)
  | (st, a1) => (st, a1)

/-- The part of `CreateNewBlock` after selection: `FillBlockHeader` puts the coinbase in
slot 0, the fee and sigop count of slot 0 are patched. -/
def finalizeBlock (cfg : Config) (a : LegacyBlockAssembler) : LegacyBlockAssembler :=
  { a with
    vtx := a.vtx.set 0 CTransactionRef.coinbase
    vTxFees := a.vTxFees.set 0 (-1 * a.mBlockFees)
    vTxSigOpsCount := a.vTxSigOpsCount.set 0 cfg.coinbaseSigOps }

/-- The template held by the assembler. -/
def templateOf (a : LegacyBlockAssembler) : CBlockTemplate :=
  { vtx := a.vtx, vTxFees := a.vTxFees, vTxSigOpsCount := a.vTxSigOpsCount }

/-- `LegacyBlockAssembler::CreateNewBlock` (the early `return nullptr` for a failed
allocation is left out: `new` throws instead of returning null). The arguments `pindexPrevNew` and `pindexPrev`
are `chainActive.Tip()` and the caller's variable; the result is the outcome, the caller's
variable afterwards and the assembler afterwards. -/
def CreateNewBlock (cfg : Config) (pool : CTxMemPool) (fuel : Nat)
    (a : LegacyBlockAssembler) (pindexPrevNew pindexPrev : Nat) :
    BuildResult × Nat × LegacyBlockAssembler :=
  match selectTransactions cfg pool fuel a with
  | (Status.finished, a1) =>
    let a2 := finalizeBlock cfg a1
    if cfg.GetTestBlockCandidateValidity ∧ !(cfg.TestBlockValidity a2.vtx).1 then
      (BuildResult.runtimeError
        ("CreateNewBlock: TestBlockValidity failed: " ++ (cfg.TestBlockValidity a2.vtx).2),
        pindexPrev, a2)
    else (BuildResult.returned (templateOf a2), pindexPrevNew, a2)
  | (Status.assertFailed, a1) => (BuildResult.assertFailed, pindexPrev, a1)
  | (Status.outOfFuel, a1) => (BuildResult.outOfFuel, pindexPrev, a1)


/-- The state carried by a loop step. -/
def LoopStep.state {σ : Type} : LoopStep σ → σ
  | LoopStep.next s => s
  | LoopStep.stop s => s
  | LoopStep.assertFailed s => s

/-- The pool entries recorded in slots `1..` of `vtx`. -/
def includedEntries (vtx : List CTransactionRef) : List TxIter :=
  vtx.tail.filterMap (fun r =>
    match r with
    | CTransactionRef.pooled it => some it
    | _ => none)

/-- The effect of a package pass on the assembler: nothing, or a whole package that passed
`TestPackageTransactions` and whose entry was not in the block is appended in the order
of `SortForBlock`. -/
def PackageEffect (cfg : Config) (pool : CTxMemPool) (b b1 : LegacyBlockAssembler) : Prop :=
  b1 = b ∨
  ∃ iter, iter ∉ b.inBlock ∧
    TestPackageTransactions cfg pool b (packageOf pool b iter) = true ∧
    b1 = (SortForBlock pool (packageOf pool b iter)).foldl (AddToBlock pool) b

/-- The effect of a priority pass on the assembler: only the flags change, or one entry
that passed `TestForBlock`, was not in the block and had all its parents in the block is
appended. -/
def PriorityEffect (cfg : Config) (pool : CTxMemPool) (b b1 : LegacyBlockAssembler) : Prop :=
  (∃ f n, b1 = { b with blockFinished := f, lastFewTxs := n }) ∨
  ∃ iter, iter ∉ b.inBlock ∧ isStillDependent pool b iter = false ∧
    (TestForBlock cfg pool b iter).1 = true ∧ b1 = AddToBlock pool b iter


/-! ## Concrete pools and configurations -/

/-- The consensus limit of 20000 signature operations for every started megabyte of block
size, as a value of `Config.GetMaxBlockSigOpsCount`. -/
def sigOpsPerStartedMegabyte (blockSize : Nat) : Nat :=
  u64mul (u64add 1 (u64sub blockSize 1 / 1000000)) 20000

/-- A fee-rate comparison of overlay records by cross multiplication, ties broken by the
iterator, as a value of `Config.CompareModifiedEntry`. -/
def compareByFeeRate (a b : CTxMemPoolModifiedEntry) : Bool :=
  decide ((b.nSizeWithAncestors : Int) * a.nModFeesWithAncestors >
      (a.nSizeWithAncestors : Int) * b.nModFeesWithAncestors ∨
    ((b.nSizeWithAncestors : Int) * a.nModFeesWithAncestors =
      (a.nSizeWithAncestors : Int) * b.nModFeesWithAncestors ∧ a.iter < b.iter))

/-- A heap order by priority, ties broken by the iterator, as a value of
`Config.pricomparer`. -/
def compareByPriority (a b : Int × TxIter) : Bool :=
  decide (a.1 < b.1 ∨ (a.1 = b.1 ∧ a.2 < b.2))

/-- A fee of 500 per 1000 bytes, as a value of `Config.blockMinFeeRateGetFee`. -/
def halfPerByte (nBytes : Nat) : Int := (nBytes : Int) * 500 / 1000

/-- A pool of three entries: entry 3 spends outputs of entries 1 and 2. Entry 1 is large
and free of sigops, entries 2 and 3 are small and carry 10000 sigops each. -/
def threeEntries : TxIter → CTxMemPoolEntry
  | 1 =>
    { serializeSize := 600000, nTxSize := 600000, nFee := 6000000, modifiedFee := 6000000
      sigOpCount := 0, nCountWithAncestors := 1, nSizeWithAncestors := 600000
      nModFeesWithAncestors := 6000000, nSigOpCountWithAncestors := 0 }
  | 2 =>
    { serializeSize := 1000, nTxSize := 1000, nFee := 1000, modifiedFee := 1000
      sigOpCount := 10000, nCountWithAncestors := 1, nSizeWithAncestors := 1000
      nModFeesWithAncestors := 1000, nSigOpCountWithAncestors := 10000 }
  | 3 =>
    { serializeSize := 1000, nTxSize := 1000, nFee := 5000, modifiedFee := 5000
      sigOpCount := 10000, nCountWithAncestors := 3, nSizeWithAncestors := 602000
      nModFeesWithAncestors := 6006000, nSigOpCountWithAncestors := 20000 }
  | _ =>
    { serializeSize := 0, nTxSize := 0, nFee := 0, modifiedFee := 0
      sigOpCount := 0, nCountWithAncestors := 1, nSizeWithAncestors := 0
      nModFeesWithAncestors := 0, nSigOpCountWithAncestors := 0 }

/-- The pool of `threeEntries`, in ancestor-score order 1, 3, 2 (fee rates with ancestors
10, about 9.98 and 1). -/
def threePool : CTxMemPool :=
  { mapTx := [1, 2, 3]
    ancestorScore := [1, 3, 2]
    entry := threeEntries
    GetMemPoolParents := fun it => if it = 3 then [1, 2] else []
    GetMemPoolChildren := fun it => if it = 1 ∨ it = 2 then [3] else []
    CalculateMemPoolAncestors := fun it => if it = 3 then [1, 2] else []
    CalculateDescendants := fun it =>
      if it = 1 then [1, 3] else if it = 2 then [2, 3] else [it]
    dPriority := fun _ => 0 }

/-- A configuration with a cap of two megabytes, no priority reservation and no
candidate-validity test. -/
def twoMegabyteCfg : Config :=
  { nMaxGeneratedBlockSize := 2000000
    GetMaxBlockSigOpsCount := sigOpsPerStartedMegabyte
    blockMinFeeRateGetFee := halfPerByte
    GetBlockPriorityPercentage := 0
    ContextualCheckTransaction := fun _ => true
    AllowFree := fun _ => true
    pricomparer := compareByPriority
    CompareModifiedEntry := compareByFeeRate
    GetTestBlockCandidateValidity := false
    TestBlockValidity := fun _ => (true, "")
    coinbaseSigOps := 1 }

/-- The empty pool. -/
def emptyPool : CTxMemPool :=
  { mapTx := []
    ancestorScore := []
    entry := threeEntries
    GetMemPoolParents := fun _ => []
    GetMemPoolChildren := fun _ => []
    CalculateMemPoolAncestors := fun _ => []
    CalculateDescendants := fun it => [it]
    dPriority := fun _ => 0 }

/-- The configuration `twoMegabyteCfg` with a cap of 999 bytes. -/
def tinyCapCfg : Config := { twoMegabyteCfg with nMaxGeneratedBlockSize := 999 }

/-- The assembler before its first build. -/
def freshAssembler : LegacyBlockAssembler :=
  { vtx := [], vTxFees := [], vTxSigOpsCount := [], inBlock := [], nBlockSize := 0
    nBlockSigOps := 0, nBlockTx := 0, mBlockFees := 0, lastFewTxs := 0
    blockFinished := false }

/-! ## Invariants of a build -/

/-- The size invariant: the running size is the reserved 1000 bytes plus the sizes of the
recorded entries, and it is within the cap. -/
def SizeInv (cfg : Config) (pool : CTxMemPool) (b : LegacyBlockAssembler) : Prop :=
  b.vtx ≠ [] ∧
  b.nBlockSize =
    (1000 + ((includedEntries b.vtx).map (fun it => (pool.entry it).nTxSize)).sum)
      % UINT64_MOD ∧
  b.nBlockSize ≤ cfg.nMaxGeneratedBlockSize


/-- The record invariant: behind slot 0 the three arrays of the template list the recorded
entries, their fees and their sigop counts, and the running fee total is the sum of the
recorded fees. -/
def RecordInv (pool : CTxMemPool) (b : LegacyBlockAssembler) : Prop :=
  (b.vtx ≠ [] ∧ ∀ it, b.vtx.head? ≠ some (CTransactionRef.pooled it)) ∧
  b.vTxFees ≠ [] ∧ b.vTxSigOpsCount ≠ [] ∧
  b.vtx.tail = (includedEntries b.vtx).map CTransactionRef.pooled ∧
  b.vTxFees.tail = (includedEntries b.vtx).map (fun it => (pool.entry it).nFee) ∧
  b.vTxSigOpsCount.tail =
    (includedEntries b.vtx).map (fun it => (pool.entry it).sigOpCount) ∧
  b.mBlockFees = ((includedEntries b.vtx).map (fun it => (pool.entry it).nFee)).sum

/-- Agreement of the pool's ancestor sets with its parent links and ancestor counts: an
entry counts more ancestors than each of its ancestors, an ancestor of an ancestor is an
ancestor, and an ancestor is a parent or an ancestor of a parent. -/
structure AncestorsConsistent (pool : CTxMemPool) : Prop where
  count_lt : ∀ b, ∀ a ∈ pool.CalculateMemPoolAncestors b,
    (pool.entry a).nCountWithAncestors < (pool.entry b).nCountWithAncestors
  trans : ∀ b, ∀ m ∈ pool.CalculateMemPoolAncestors b,
    ∀ a ∈ pool.CalculateMemPoolAncestors m, a ∈ pool.CalculateMemPoolAncestors b
  parent : ∀ b, ∀ a ∈ pool.CalculateMemPoolAncestors b,
    a ∈ pool.GetMemPoolParents b ∨
      ∃ p ∈ pool.GetMemPoolParents b, a ∈ pool.CalculateMemPoolAncestors p

/-- The order invariant: the recorded entries are in the included set, the included set
is closed under ancestors, and no recorded entry is an ancestor of an entry recorded
before it. -/
def OrderInv (pool : CTxMemPool) (b : LegacyBlockAssembler) : Prop :=
  (∀ x ∈ includedEntries b.vtx, x ∈ b.inBlock) ∧
  (∀ x ∈ b.inBlock, ∀ y ∈ pool.CalculateMemPoolAncestors x, y ∈ b.inBlock) ∧
  (includedEntries b.vtx).Pairwise
    (fun x y => y ∉ pool.CalculateMemPoolAncestors x)

/-- The state after `k` passes of the loop of `addPackageTxs` each of which went on to a
further pass; nothing if the loop stopped within these passes. -/
def addPackageTxsPasses (cfg : Config) (pool : CTxMemPool) :
    Nat → PackageState → Option PackageState
  | 0, s => some s
  | k + 1, s =>
    if packageLoopGuard s then
      match addPackageTxsBody cfg pool s with
      | LoopStep.next s1 => addPackageTxsPasses cfg pool k s1
      | _ => none
    else none

/-- The configuration `twoMegabyteCfg` with the candidate-validity test switched on and a
validation that rejects every block. -/
def rejectingCfg : Config :=
  { twoMegabyteCfg with
    GetTestBlockCandidateValidity := true
    TestBlockValidity := fun _ => (false, "bad-blk-sigops") }

/-- The configuration `twoMegabyteCfg` with a minimum fee of 5 per byte. -/
def fivePerByteCfg : Config :=
  { twoMegabyteCfg with blockMinFeeRateGetFee := fun nBytes => (nBytes : Int) * 5 }

/-- The state of `addPackageTxs` over `threePool` after two passes: entry 1 is in the
block, the cursor is at entry 2 and the overlay holds entry 3. -/
def afterTwoPasses : PackageState :=
  { blk :=
      { vtx := [CTransactionRef.null, CTransactionRef.pooled 1]
        vTxFees := [-1, 6000000]
        vTxSigOpsCount := [-1, 0]
        inBlock := [1]
        nBlockSize := 601000
        nBlockSigOps := 100
        nBlockTx := 1
        mBlockFees := 6000000
        lastFewTxs := 0
        blockFinished := false }
    mi := [2]
    mapModifiedTx :=
      [{ iter := 3, nSizeWithAncestors := 2000, nModFeesWithAncestors := 6000
         nSigOpCountWithAncestors := 20000 }]
    failedTx := []
    nConsecutiveFailed := 0
    nPackagesSelected := 1
    nDescendantsUpdated := 1 }

/-- The package chosen in the state `afterTwoPasses`: entry 3, from the overlay. -/
def overlayChoice : PackageChoice :=
  { iter := 3
    modit := some
      { iter := 3, nSizeWithAncestors := 2000, nModFeesWithAncestors := 6000
        nSigOpCountWithAncestors := 20000 }
    mi := [2] }

/-! ## The candidate registry (`candidates.cpp`) -/

/-- The identifier `MiningCandidateId`. -/
abbrev MiningCandidateId := Nat

/-- The block held by a candidate; of its content only the height that
`mBlock->GetHeightFromCoinbase()` returns is observed by the registry. -/
structure CBlock where
  heightFromCoinbase : Nat
  deriving DecidableEq, Repr, Inhabited

/-- A mining candidate, `CMiningCandidate`. -/
structure CMiningCandidate where
  mId : MiningCandidateId
  mHashPrevBlock : Nat
  mBlock : CBlock
  deriving DecidableEq, Repr, Inhabited

/-- The registry `CMiningCandidateManager`: the map `mCandidates` in key order and the
recorded height `mPrevHeight`. -/
structure CMiningCandidateManager where
  mCandidates : List (MiningCandidateId × CMiningCandidate)
  mPrevHeight : Nat
  deriving DecidableEq, Repr, Inhabited

/-- The constant `NEW_CANDIDATE_INTERVAL`, in seconds. -/
abbrev NEW_CANDIDATE_INTERVAL : Nat := 30

/-- The modulus of `unsigned int` and `uint32_t` arithmetic, `2^32`. -/
abbrev UINT32_MOD : Nat := 4294967296

/-- `CMiningCandidateManager::RemoveOldCandidates`. The arguments are the values read
under `cs_main`: `chainActive.Height()` (an `int`, so the cast of a non-negative height to
`unsigned int` keeps its value), `chainActive.Tip()->nTime` (a `uint32_t`) and
`GetTime()`. -/
def RemoveOldCandidates (m : CMiningCandidateManager) (chainHeight : Int) (nTime : Nat)
    (getTime : Int) : CMiningCandidateManager :=
  if chainHeight < 0 then m
  else
    let height := chainHeight.toNat
    if height ≤ m.mPrevHeight then m
    else
      let tdiff := getTime - (((nTime + NEW_CANDIDATE_INTERVAL) % UINT32_MOD : Nat) : Int)
      if tdiff ≥ 0 then
        { mCandidates := m.mCandidates.filter
            (fun e => !decide (e.2.mBlock.heightFromCoinbase ≤ m.mPrevHeight))
          mPrevHeight := height }
      else m

/-- A registry that has recorded height 0 and holds candidates of heights 3 and 7. -/
def twoCandidates : CMiningCandidateManager :=
  { mCandidates :=
      [(11, { mId := 11, mHashPrevBlock := 500, mBlock := { heightFromCoinbase := 3 } }),
       (12, { mId := 12, mHashPrevBlock := 900, mBlock := { heightFromCoinbase := 7 } })]
    mPrevHeight := 0 }

/-- The registry `twoCandidates` with recorded height 5. -/
def twoCandidatesAtFive : CMiningCandidateManager := { twoCandidates with mPrevHeight := 5 }

/-- The assignment `mCandidates[nextId] = candidate` on the map in key order: an existing
binding of the key is replaced, otherwise the binding is inserted at its place. -/
def mapAssign (k : MiningCandidateId) (v : CMiningCandidate) :
    List (MiningCandidateId × CMiningCandidate) → List (MiningCandidateId × CMiningCandidate)
  | [] => [(k, v)]
  | (k1, v1) :: rest =>
    if k = k1 then (k, v) :: rest
    else if k < k1 then (k, v) :: (k1, v1) :: rest
    else (k1, v1) :: mapAssign k v rest

/-- `CMiningCandidateManager::Create`: the candidate returned and the registry afterwards.
The argument `nextId` is the value of `mIdGenerator()`; `shellBlock` is the block that the
constructor `CMiningCandidate(nextId, hashPrevBlock)`, declared in `candidates.h`, gives a
new candidate. -/
def Create (m : CMiningCandidateManager) (nextId : MiningCandidateId)
    (hashPrevBlock : Nat) (shellBlock : CBlock) :
    CMiningCandidate × CMiningCandidateManager :=
  let candidate : CMiningCandidate :=
    { mId := nextId, mHashPrevBlock := hashPrevBlock, mBlock := shellBlock }
  (candidate, { m with mCandidates := mapAssign nextId candidate m.mCandidates })

/-- `CMiningCandidateManager::Get`: the result (`none` for `nullptr`) and the registry
afterwards. -/
def Get (m : CMiningCandidateManager) (candidateId : MiningCandidateId) :
    Option CMiningCandidate × CMiningCandidateManager :=
  match m.mCandidates.lookup candidateId with
  | some candidate => (some candidate, m)
  | none => (none, m)

/-! ## Further invariants and conditions of a build -/

/-- The array invariant: the three arrays of the template have one length, which is
`nBlockTx + 1` in 64-bit arithmetic, and from slot 1 on each position of the three arrays
holds the transaction, the fee and the sigop count of one pool entry. -/
def ArraysInv (pool : CTxMemPool) (b : LegacyBlockAssembler) : Prop :=
  1 ≤ b.vtx.length ∧
  b.vTxFees.length = b.vtx.length ∧
  b.vTxSigOpsCount.length = b.vtx.length ∧
  b.nBlockTx < UINT64_MOD ∧
  b.vtx.length % UINT64_MOD = (b.nBlockTx + 1) % UINT64_MOD ∧
  ∀ i, 1 ≤ i → i < b.vtx.length →
    ∃ e, b.vtx[i]? = some (CTransactionRef.pooled e) ∧
      b.vTxFees[i]? = some (pool.entry e).nFee ∧
      b.vTxSigOpsCount[i]? = some (pool.entry e).sigOpCount

/-- The size test of `TestForBlock` fails: `blockSizeWithTx >= nMaxGeneratedBlockSize`. -/
def sizeTestFails (cfg : Config) (pool : CTxMemPool) (a : LegacyBlockAssembler)
    (it : TxIter) : Prop :=
  u64add a.nBlockSize (pool.entry it).serializeSize ≥ cfg.nMaxGeneratedBlockSize

/-- The sigop test of `TestForBlock` fails:
`nBlockSigOps + it->GetSigOpCount() >= GetMaxBlockSigOpsCount(blockSizeWithTx)`. -/
def sigOpTestFails (cfg : Config) (pool : CTxMemPool) (a : LegacyBlockAssembler)
    (it : TxIter) : Prop :=
  u64addInt a.nBlockSigOps (pool.entry it).sigOpCount ≥
    cfg.GetMaxBlockSigOpsCount (u64add a.nBlockSize (pool.entry it).serializeSize)

/-- The cases in which the budget test is said to mark the block finished: the size test
fails within 100 bytes of the cap or after more than 50 near-cap rejections, or the size
test passes, the sigop test fails and the sigop headroom is below 2. The differences are
those of the source, in 64-bit arithmetic. -/
def marksFinished (cfg : Config) (pool : CTxMemPool) (a : LegacyBlockAssembler)
    (it : TxIter) : Prop :=
  (sizeTestFails cfg pool a it ∧
    (a.nBlockSize > u64sub cfg.nMaxGeneratedBlockSize 100 ∨ a.lastFewTxs > 50)) ∨
  (¬ sizeTestFails cfg pool a it ∧ sigOpTestFails cfg pool a it ∧
    a.nBlockSigOps >
      u64sub (cfg.GetMaxBlockSigOpsCount
        (u64add a.nBlockSize (pool.entry it).serializeSize)) 2)

/-- The case in which the budget test is said to count a near-cap rejection: the size test
fails within 1000 bytes of the cap, not within 100 bytes of it, and at most 50 near-cap
rejections have occurred. -/
def countsNearCap (cfg : Config) (pool : CTxMemPool) (a : LegacyBlockAssembler)
    (it : TxIter) : Prop :=
  sizeTestFails cfg pool a it ∧
  a.nBlockSize > u64sub cfg.nMaxGeneratedBlockSize 1000 ∧
  ¬ a.nBlockSize > u64sub cfg.nMaxGeneratedBlockSize 100 ∧
  a.lastFewTxs ≤ 50

/-- The record that the overlay is said to hold for an entry: the pool's with-ancestors
aggregates less the size, modified fee and sigops of the ancestors in `inBlock`. -/
def adjustedForIncluded (pool : CTxMemPool) (inBlock : List TxIter) (e : TxIter) :
    CTxMemPoolModifiedEntry :=
  { iter := e
    nSizeWithAncestors := (pool.entry e).nSizeWithAncestors -
      (((pool.CalculateMemPoolAncestors e).filter (fun x => decide (x ∈ inBlock))).map
        (fun x => (pool.entry x).nTxSize)).sum
    nModFeesWithAncestors := (pool.entry e).nModFeesWithAncestors -
      (((pool.CalculateMemPoolAncestors e).filter (fun x => decide (x ∈ inBlock))).map
        (fun x => (pool.entry x).modifiedFee)).sum
    nSigOpCountWithAncestors := (pool.entry e).nSigOpCountWithAncestors -
      (((pool.CalculateMemPoolAncestors e).filter (fun x => decide (x ∈ inBlock))).map
        (fun x => (pool.entry x).sigOpCount)).sum }

/-- An assembler in a build whose running size is 50 bytes below the two-megabyte cap. -/
def nearlyFull : LegacyBlockAssembler :=
  { startBlock freshAssembler with nBlockSize := 1999950 }

/-- An assembler in a build whose running size is 500 bytes below the two-megabyte cap. -/
def almostFull : LegacyBlockAssembler :=
  { startBlock freshAssembler with nBlockSize := 1999500 }

/-! ## The transaction wrapper (`tx_mempool_info.h`) -/

/-- A transaction payload: its id and its serialized bytes. -/
structure CTransaction where
  id : Nat
  bytes : List Nat
  deriving DecidableEq, Repr, Inhabited

/-- Modelled from the spec: the store `CMempoolTxDBReader`, defined outside the embedded
files, with its operation `materialize(id) → payload | failure`; `handle` is the identity
of the store object. -/
structure CMempoolTxDBReader where
  handle : Nat
  GetTransaction : Nat → Option CTransaction

/-- The mutable slot `txref` of a wrapper, `std::variant<OwnedPtr, WeakPtr>`: an owning
reference to the payload, or a non-owning back-reference. -/
inductive TxRefSlot where
  | OwnedPtr (tx : CTransaction)
  | WeakPtr
  deriving DecidableEq, Repr, Inhabited

/-- The enumeration `TxStorage`. -/
inductive TxStorage where
  | memory
  | txdb
  deriving DecidableEq, Repr, Inhabited

/-- The class `CTransactionWrapper`: the immutable id and store reference and the slot. -/
structure CTransactionWrapper where
  txid : Nat
  mempoolTxDB : Option CMempoolTxDBReader
  txref : TxRefSlot

/-- Modelled from the spec: the constructor `CTransactionWrapper(tx, txDB)`, defined
outside the embedded files, builds the wrapper of a payload in the owning state. -/
def CTransactionWrapper.ofTx (tx : CTransaction) (txDB : Option CMempoolTxDBReader) :
    CTransactionWrapper :=
  { txid := tx.id, mempoolTxDB := txDB, txref := TxRefSlot.OwnedPtr tx }

/-- Modelled from the spec: `IsInMemory()`, defined outside the embedded files, reports
whether the slot is currently owning. -/
def CTransactionWrapper.IsInMemory (w : CTransactionWrapper) : Bool :=
  match w.txref with
  | TxRefSlot.OwnedPtr _ => true
  | TxRefSlot.WeakPtr => false

/-- `CTransactionWrapper::GetTxStorage`. -/
def CTransactionWrapper.GetTxStorage (w : CTransactionWrapper) : TxStorage :=
  if w.IsInMemory then TxStorage.memory else TxStorage.txdb

/-- Modelled from the spec: `ResetTransaction()`, defined outside the embedded files,
forces the non-owning state, dropping any cached owning reference. -/
def CTransactionWrapper.ResetTransaction (w : CTransactionWrapper) : CTransactionWrapper :=
  { w with txref := TxRefSlot.WeakPtr }

/-- Modelled from the spec: `GetTx()`, defined outside the embedded files, returns the
owning payload if resident; otherwise it asks the store to materialize a transient copy,
keeps only a non-owning back-reference and returns the transient copy; a failure of the
store is an error of the call. The result and the wrapper afterwards. -/
def CTransactionWrapper.GetTx (w : CTransactionWrapper) :
    Except String CTransaction × CTransactionWrapper :=
  match w.txref with
  | TxRefSlot.OwnedPtr tx => (Except.ok tx, w)
  | TxRefSlot.WeakPtr =>
    match w.mempoolTxDB with
    | none => (Except.error "no transaction database", w)
    | some txDB =>
      match txDB.GetTransaction w.txid with
      | some tx => (Except.ok tx, { w with txref := TxRefSlot.WeakPtr })
      | none => (Except.error "transaction not found in database", w)

/-- A payload of three bytes with id 42. -/
def samplePayload : CTransaction := { id := 42, bytes := [1, 2, 3] }

/-- A store that holds `samplePayload` and nothing else. -/
def sampleStore : CMempoolTxDBReader :=
  { handle := 1, GetTransaction := fun id => if id = 42 then some samplePayload else none }

/-! ## The passes of the priority loop and the choice step -/

/-- The value of `nBlockPrioritySize` in `addPriorityTxs`. -/
def reservedPrioritySize (cfg : Config) : Nat :=
  u64mul cfg.nMaxGeneratedBlockSize cfg.GetBlockPriorityPercentage / 100

/-- The state of `addPriorityTxs` when its loop is entered. -/
def addPriorityTxsInit (pool : CTxMemPool) (a : LegacyBlockAssembler) : PriorityState :=
  { blk := a
    vecPriority := pool.mapTx.map (fun mi => (pool.dPriority mi, mi))
    waitPriMap := [] }

/-- The state after `k` passes of the loop of `addPriorityTxs` each of which went on to a
further pass; nothing if the loop stopped within these passes. -/
def addPriorityTxsPasses (cfg : Config) (pool : CTxMemPool) (nBlockPrioritySize : Nat) :
    Nat → PriorityState → Option PriorityState
  | 0, s => some s
  | k + 1, s =>
    if priorityLoopGuard s then
      match addPriorityTxsBody cfg pool nBlockPrioritySize s with
      | LoopStep.next s1 => addPriorityTxsPasses cfg pool nBlockPrioritySize k s1
      | _ => none
    else none

/-- The record by which a chosen package is scored: the overlay record when the package
comes from the overlay, the pool's aggregates of the entry otherwise. -/
def PackageChoice.record (pool : CTxMemPool) (c : PackageChoice) : CTxMemPoolModifiedEntry :=
  match c.modit with
  | some m => m
  | none => CTxMemPoolModifiedEntry.ofEntry pool c.iter

/-- A configuration with a cap of 50000 bytes and a priority reservation of one percent,
that is of 500 bytes. -/
def onePercentCfg : Config :=
  { twoMegabyteCfg with nMaxGeneratedBlockSize := 50000, GetBlockPriorityPercentage := 1 }

/-- The configuration `twoMegabyteCfg` with a priority reservation of five percent, that
is of 100000 bytes. -/
def fivePercentCfg : Config := { twoMegabyteCfg with GetBlockPriorityPercentage := 5 }

/-! ## Closure and distinctness of the included set -/

/-- The included set contains every in-pool parent and every in-pool ancestor of each of
its members. -/
def ParentClosed (pool : CTxMemPool) (b : LegacyBlockAssembler) : Prop :=
  (∀ x ∈ b.inBlock, ∀ p ∈ pool.GetMemPoolParents x, p ∈ b.inBlock) ∧
  (∀ x ∈ b.inBlock, ∀ y ∈ pool.CalculateMemPoolAncestors x, y ∈ b.inBlock)

/-- Every call of `AddToBlock` in the run over the list `l` that starts from `b` is made
on an entry that is not in `inBlock` at that moment. -/
def AddedFresh (pool : CTxMemPool) (b : LegacyBlockAssembler) (l : List TxIter) : Prop :=
  ∀ l1 x l2, l = l1 ++ x :: l2 → x ∉ (l1.foldl (AddToBlock pool) b).inBlock

/-- The distinctness invariant: slots `1..` of `vtx` hold pairwise distinct pool entries,
which are exactly the members of `inBlock`, and `nBlockTx` is their number in 64-bit
arithmetic. -/
def DistinctInv (b : LegacyBlockAssembler) : Prop :=
  b.vtx ≠ [] ∧
  b.vtx.tail = (includedEntries b.vtx).map CTransactionRef.pooled ∧
  (includedEntries b.vtx).Nodup ∧
  (∀ x, x ∈ includedEntries b.vtx ↔ x ∈ b.inBlock) ∧
  b.inBlock.Nodup ∧
  b.inBlock.length = (includedEntries b.vtx).length ∧
  b.nBlockTx = b.inBlock.length % UINT64_MOD

/-! ## The state after a package and the consistency of descendants -/

/-- The state in which a pass of the package loop that adds the package of the choice `c`
ends. -/
def afterPackage (pool : CTxMemPool) (s : PackageState) (c : PackageChoice) : PackageState :=
  let ancestors := packageOf pool s.blk c.iter
  let s1 := addSortedEntries pool (SortForBlock pool ancestors)
    { s with mi := c.mi, nConsecutiveFailed := 0 }
  let upd := UpdatePackagesForAdded pool ancestors s1.mapModifiedTx
  { s1 with
    nPackagesSelected := s1.nPackagesSelected + 1
    nDescendantsUpdated := s1.nDescendantsUpdated + upd.1
    mapModifiedTx := upd.2 }

/-- Agreement of the pool's descendant sets with its ancestor sets: a descendant of an
entry is the entry itself or has the entry among its ancestors. -/
def DescendantsConsistent (pool : CTxMemPool) : Prop :=
  ∀ it, ∀ d ∈ pool.CalculateDescendants it, d = it ∨ it ∈ pool.CalculateMemPoolAncestors d

/-- Finiteness of the pool: the entries of the ancestor-score index and the descendants
that the pool reports for an entry, other than the entry itself, are entries of `mapTx`. -/
structure PoolFinite (pool : CTxMemPool) : Prop where
  score_sub : ∀ x ∈ pool.ancestorScore, x ∈ pool.mapTx
  desc_sub : ∀ it, ∀ d ∈ pool.CalculateDescendants it, d ≠ it → d ∈ pool.mapTx

/-- The entries that `addPriorityTxs` still holds: those of the heap and of the wait
map. -/
def PriorityState.keys (s : PriorityState) : List TxIter :=
  s.vecPriority.map Prod.snd ++ s.waitPriMap.map Prod.fst

/-- The number of passes that the priority loop can still make: lexicographic in the
number of entries still held and the size of the heap. -/
def priorityMeasure (s : PriorityState) : Nat :=
  (s.vecPriority.length + s.waitPriMap.length) *
    (s.vecPriority.length + s.waitPriMap.length + 1) + s.vecPriority.length

/-- The number of passes that the package loop can still make: lexicographic in the
number of pool entries not yet included and the entries left in the primary index and
the overlay. -/
def packageMeasure (pool : CTxMemPool) (s : PackageState) : Nat :=
  (pool.mapTx.filter (fun x => decide (x ∉ s.blk.inBlock))).length *
    (pool.ancestorScore.length + pool.mapTx.length + 1) +
  s.mi.length + s.mapModifiedTx.length

/-- A number of loop passes that suffices for both selection loops of a build over the
pool. -/
def selectionFuel (pool : CTxMemPool) : Nat :=
  (pool.mapTx.length + 1) * (pool.mapTx.length + 1) +
  (pool.mapTx.length + 1) * (pool.ancestorScore.length + pool.mapTx.length + 1)

/-- The entries that the priority loop still holds are pairwise distinct and none of them
is in the block. -/
def PriorityHeld (s : PriorityState) : Prop :=
  s.keys.Nodup ∧ ∀ x ∈ s.keys, x ∉ s.blk.inBlock

/-- The record and order invariants hold of the assembler and no entry of the overlay is
in the block. -/
def OverlayDisjoint (pool : CTxMemPool) (s : PackageState) : Prop :=
  RecordInv pool s.blk ∧ OrderInv pool s.blk ∧
  ∀ e ∈ s.mapModifiedTx, e.iter ∉ s.blk.inBlock

/-- The overlay holds each entry once, the overlay and the rest of the primary index hold
entries of `mapTx` only, and the rest of the primary index is no longer than the index. -/
def OverlayFinite (pool : CTxMemPool) (s : PackageState) : Prop :=
  (s.mapModifiedTx.map CTxMemPoolModifiedEntry.iter).Nodup ∧
  (∀ x ∈ s.mapModifiedTx.map CTxMemPoolModifiedEntry.iter, x ∈ pool.mapTx) ∧
  (∀ x ∈ s.mi, x ∈ pool.mapTx) ∧
  s.mi.length ≤ pool.ancestorScore.length

/-! ## Histories of the candidate registry -/

/-- The records that the choice step of a pass compares: those of the overlay and the
record of the entry at the primary cursor. -/
def choiceRecords (pool : CTxMemPool) (s : PackageState) : List CTxMemPoolModifiedEntry :=
  s.mapModifiedTx ++
    match s.mi with
    | [] => []
    | it :: _ => [CTxMemPoolModifiedEntry.ofEntry pool it]

/-- The comparison `cmp` is a strict weak ordering of the records `l`, which an ordered
index requires of its comparison: it is asymmetric and negatively transitive. -/
structure StrictWeakOn (cmp : CTxMemPoolModifiedEntry → CTxMemPoolModifiedEntry → Bool)
    (l : List CTxMemPoolModifiedEntry) : Prop where
  asymm : ∀ x ∈ l, ∀ y ∈ l, cmp x y = true → cmp y x = false
  negTrans : ∀ x ∈ l, ∀ y ∈ l, ∀ z ∈ l, cmp x z = true → cmp x y = true ∨ cmp y z = true

/-- Four entries of 1000 bytes without sigops: entries 2 and 3 spend outputs of entry 1,
entry 4 stands alone. The fees are 10000, 1000, 5000 and 2000. -/
def fanEntries : TxIter → CTxMemPoolEntry
  | 1 =>
    { serializeSize := 1000, nTxSize := 1000, nFee := 10000, modifiedFee := 10000
      sigOpCount := 0, nCountWithAncestors := 1, nSizeWithAncestors := 1000
      nModFeesWithAncestors := 10000, nSigOpCountWithAncestors := 0 }
  | 2 =>
    { serializeSize := 1000, nTxSize := 1000, nFee := 1000, modifiedFee := 1000
      sigOpCount := 0, nCountWithAncestors := 2, nSizeWithAncestors := 2000
      nModFeesWithAncestors := 11000, nSigOpCountWithAncestors := 0 }
  | 3 =>
    { serializeSize := 1000, nTxSize := 1000, nFee := 5000, modifiedFee := 5000
      sigOpCount := 0, nCountWithAncestors := 2, nSizeWithAncestors := 2000
      nModFeesWithAncestors := 15000, nSigOpCountWithAncestors := 0 }
  | 4 =>
    { serializeSize := 1000, nTxSize := 1000, nFee := 2000, modifiedFee := 2000
      sigOpCount := 0, nCountWithAncestors := 1, nSizeWithAncestors := 1000
      nModFeesWithAncestors := 2000, nSigOpCountWithAncestors := 0 }
  | _ =>
    { serializeSize := 0, nTxSize := 0, nFee := 0, modifiedFee := 0
      sigOpCount := 0, nCountWithAncestors := 1, nSizeWithAncestors := 0
      nModFeesWithAncestors := 0, nSigOpCountWithAncestors := 0 }

/-- The pool of `fanEntries`, in ancestor-score order 1, 3, 2, 4 (fee rates with
ancestors 10, 7.5, 5.5 and 2). -/
def fanPool : CTxMemPool :=
  { mapTx := [1, 2, 3, 4]
    ancestorScore := [1, 3, 2, 4]
    entry := fanEntries
    GetMemPoolParents := fun it => if it = 2 ∨ it = 3 then [1] else []
    GetMemPoolChildren := fun it => if it = 1 then [2, 3] else []
    CalculateMemPoolAncestors := fun it => if it = 2 ∨ it = 3 then [1] else []
    CalculateDescendants := fun it => if it = 1 then [1, 2, 3] else [it]
    dPriority := fun _ => 0 }

/-- The overlay record of entry 2 of `fanPool` once entry 1 is in the block. -/
def fanRecordTwo : CTxMemPoolModifiedEntry :=
  { iter := 2, nSizeWithAncestors := 1000, nModFeesWithAncestors := 1000
    nSigOpCountWithAncestors := 0 }

/-- The overlay record of entry 3 of `fanPool` once entry 1 is in the block. -/
def fanRecordThree : CTxMemPoolModifiedEntry :=
  { iter := 3, nSizeWithAncestors := 1000, nModFeesWithAncestors := 5000
    nSigOpCountWithAncestors := 0 }

/-- The state of `addPackageTxs` over `fanPool` after three passes: entry 1 is in the
block, the cursor is at entry 4 and the overlay holds the records of entries 2 and 3, in
the order of their insertion. -/
def fanState : PackageState :=
  { blk :=
      { vtx := [CTransactionRef.null, CTransactionRef.pooled 1]
        vTxFees := [-1, 10000]
        vTxSigOpsCount := [-1, 0]
        inBlock := [1]
        nBlockSize := 2000
        nBlockSigOps := 100
        nBlockTx := 1
        mBlockFees := 10000
        lastFewTxs := 0
        blockFinished := false }
    mi := [4]
    mapModifiedTx := [fanRecordTwo, fanRecordThree]
    failedTx := []
    nConsecutiveFailed := 0
    nPackagesSelected := 1
    nDescendantsUpdated := 2 }

/-! # Theorems -/

/-! ## Arithmetic and set lemmas -/

theorem u64add_lt (a b : Nat) : u64add a b < UINT64_MOD := by
  unfold u64add; exact Nat.mod_lt _ (by decide)

theorem u64add_assoc_mod (a b c : Nat) : u64add (u64add a b) c = u64add a (b + c) := by
  unfold u64add; rw [Nat.mod_add_mod, Nat.add_assoc]

theorem mem_setInsert {x y : TxIter} {s : List TxIter} :
    x ∈ setInsert y s ↔ x = y ∨ x ∈ s := by
  unfold setInsert
  split
  · constructor
    · intro h; exact Or.inr h
    · rintro (h | h)
      · subst h; assumption
      · exact h
  · simp [List.mem_orderedInsert]

theorem setInsert_perm_cons {y : TxIter} {s : List TxIter} (h : y ∉ s) :
    (setInsert y s).Perm (y :: s) := by
  unfold setInsert
  rw [if_neg h]
  exact List.perm_orderedInsert _ _ _

/-! ## `AddToBlock` over a list of entries -/

theorem foldl_AddToBlock_vtx (pool : CTxMemPool) (l : List TxIter) (b : LegacyBlockAssembler) :
    (l.foldl (AddToBlock pool) b).vtx = b.vtx ++ l.map CTransactionRef.pooled := by
  induction l generalizing b with
  | nil => simp
  | cons x xs ih => simp [List.foldl_cons, ih, AddToBlock]

theorem foldl_AddToBlock_vTxFees (pool : CTxMemPool) (l : List TxIter)
    (b : LegacyBlockAssembler) :
    (l.foldl (AddToBlock pool) b).vTxFees =
      b.vTxFees ++ l.map (fun it => (pool.entry it).nFee) := by
  induction l generalizing b with
  | nil => simp
  | cons x xs ih => simp [List.foldl_cons, ih, AddToBlock]

theorem foldl_AddToBlock_vTxSigOpsCount (pool : CTxMemPool) (l : List TxIter)
    (b : LegacyBlockAssembler) :
    (l.foldl (AddToBlock pool) b).vTxSigOpsCount =
      b.vTxSigOpsCount ++ l.map (fun it => (pool.entry it).sigOpCount) := by
  induction l generalizing b with
  | nil => simp
  | cons x xs ih => simp [List.foldl_cons, ih, AddToBlock]

theorem foldl_AddToBlock_mBlockFees (pool : CTxMemPool) (l : List TxIter)
    (b : LegacyBlockAssembler) :
    (l.foldl (AddToBlock pool) b).mBlockFees =
      b.mBlockFees + (l.map (fun it => (pool.entry it).nFee)).sum := by
  induction l generalizing b with
  | nil => simp
  | cons x xs ih => simp [List.foldl_cons, ih, AddToBlock]; ring

theorem foldl_AddToBlock_nBlockSize (pool : CTxMemPool) (l : List TxIter)
    (b : LegacyBlockAssembler) (hb : b.nBlockSize < UINT64_MOD) :
    (l.foldl (AddToBlock pool) b).nBlockSize =
      (b.nBlockSize + (l.map (fun it => (pool.entry it).nTxSize)).sum) % UINT64_MOD := by
  induction l generalizing b with
  | nil => simp; exact (Nat.mod_eq_of_lt hb).symm
  | cons x xs ih =>
    rw [List.foldl_cons, ih _ (by simp only [AddToBlock]; exact u64add_lt _ _)]
    simp only [AddToBlock, List.map_cons, List.sum_cons]
    exact u64add_assoc_mod _ _ _

theorem foldl_AddToBlock_inBlock (pool : CTxMemPool) (l : List TxIter)
    (b : LegacyBlockAssembler) (x : TxIter) :
    x ∈ (l.foldl (AddToBlock pool) b).inBlock ↔ x ∈ b.inBlock ∨ x ∈ l := by
  induction l generalizing b with
  | nil => simp
  | cons y ys ih =>
    rw [List.foldl_cons, ih]
    simp only [AddToBlock, mem_setInsert, List.mem_cons]
    tauto

theorem foldl_AddToBlock_flags (pool : CTxMemPool) (l : List TxIter)
    (b : LegacyBlockAssembler) :
    (l.foldl (AddToBlock pool) b).blockFinished = b.blockFinished ∧
    (l.foldl (AddToBlock pool) b).lastFewTxs = b.lastFewTxs := by
  induction l generalizing b with
  | nil => simp
  | cons y ys ih => rw [List.foldl_cons]; simpa [AddToBlock] using ih (AddToBlock pool b y)

/-! ## The tests -/

theorem TestPackageTransactionsFrom_sum (cfg : Config) (pool : CTxMemPool) :
    ∀ (l : List TxIter) (p : Nat), p ≤ cfg.nMaxGeneratedBlockSize →
      TestPackageTransactionsFrom cfg pool p l = true →
      (l.foldl (fun acc it => u64add acc (pool.entry it).serializeSize) p)
        ≤ cfg.nMaxGeneratedBlockSize := by
  intro l
  induction l with
  | nil => intro p hp _; simpa using hp
  | cons x xs ih =>
    intro p _ h
    unfold TestPackageTransactionsFrom at h
    split at h
    · simp at h
    · split at h
      · simp at h
      · rename_i h2
        rw [List.foldl_cons]
        exact ih _ (by omega) h

theorem foldl_u64add_eq (f : TxIter → Nat) :
    ∀ (l : List TxIter) (p : Nat), p < UINT64_MOD →
      l.foldl (fun acc it => u64add acc (f it)) p = (p + (l.map f).sum) % UINT64_MOD := by
  intro l
  induction l with
  | nil => intro p hp; simp; exact (Nat.mod_eq_of_lt hp).symm
  | cons x xs ih =>
    intro p _
    rw [List.foldl_cons, ih _ (u64add_lt _ _)]
    simp only [List.map_cons, List.sum_cons]
    exact u64add_assoc_mod _ _ _

theorem TestForBlock_snd (cfg : Config) (pool : CTxMemPool) (a : LegacyBlockAssembler)
    (it : TxIter) :
    (TestForBlock cfg pool a it).2 =
      { a with
        blockFinished := (TestForBlock cfg pool a it).2.blockFinished
        lastFewTxs := (TestForBlock cfg pool a it).2.lastFewTxs } := by
  unfold TestForBlock
  simp only
  split_ifs <;> rfl

theorem TestForBlock_true (cfg : Config) (pool : CTxMemPool) (a : LegacyBlockAssembler)
    (it : TxIter) (h : (TestForBlock cfg pool a it).1 = true) :
    (TestForBlock cfg pool a it).2 = a ∧
    u64add a.nBlockSize (pool.entry it).serializeSize < cfg.nMaxGeneratedBlockSize ∧
    u64addInt a.nBlockSigOps (pool.entry it).sigOpCount <
      cfg.GetMaxBlockSigOpsCount (u64add a.nBlockSize (pool.entry it).serializeSize) ∧
    cfg.ContextualCheckTransaction it = true := by
  unfold TestForBlock at h ⊢
  simp only at h ⊢
  split_ifs at h ⊢
  simp_all

/-! ## What one pass of a selection loop does to the assembler -/

theorem markFailed_blk (c : PackageChoice) (s : PackageState) :
    (markFailed c s).blk = s.blk := by
  unfold markFailed; split <;> rfl

theorem addSortedEntries_blk (pool : CTxMemPool) (l : List TxIter) (s : PackageState) :
    (addSortedEntries pool l s).blk = l.foldl (AddToBlock pool) s.blk := by
  unfold addSortedEntries
  induction l generalizing s with
  | nil => rfl
  | cons x xs ih => rw [List.foldl_cons, List.foldl_cons, ih]

theorem processChoice_effect (cfg : Config) (pool : CTxMemPool) (s : PackageState)
    (c : PackageChoice) :
    PackageEffect cfg pool s.blk (processChoice cfg pool s c).state.blk := by
  unfold processChoice
  by_cases h1 : c.iter ∈ s.blk.inBlock
  · rw [if_pos h1]; exact Or.inl rfl
  · rw [if_neg h1]
    by_cases h2 : c.packageFees pool < cfg.blockMinFeeRateGetFee (c.packageSize pool)
    · rw [if_pos h2]; exact Or.inl rfl
    · rw [if_neg h2]
      by_cases h3 : (!TestPackage cfg s.blk (c.packageSize pool) (c.packageSigOps pool)) = true
      · rw [if_pos h3]
        simp only
        split
        · exact Or.inl (markFailed_blk c s)
        · exact Or.inl (markFailed_blk c s)
      · rw [if_neg h3]
        simp only
        by_cases h4 : (!TestPackageTransactions cfg pool s.blk
            (packageOf pool s.blk c.iter)) = true
        · rw [if_pos h4]; exact Or.inl (markFailed_blk c s)
        · rw [if_neg h4]
          refine Or.inr ⟨c.iter, h1, by simpa using h4, ?_⟩
          simp only [LoopStep.state]
          rw [addSortedEntries_blk]

theorem addPackageTxsBody_effect (cfg : Config) (pool : CTxMemPool) (s : PackageState) :
    PackageEffect cfg pool s.blk (addPackageTxsBody cfg pool s).state.blk := by
  unfold addPackageTxsBody
  split
  · split
    · exact Or.inl rfl
    · split
      · exact processChoice_effect cfg pool s _
      · exact Or.inl rfl
  · split
    · exact processChoice_effect cfg pool s _
    · exact Or.inl rfl

theorem addPriorityTxsBody_effect (cfg : Config) (pool : CTxMemPool) (n : Nat)
    (s : PriorityState) :
    PriorityEffect cfg pool s.blk (addPriorityTxsBody cfg pool n s).state.blk := by
  unfold addPriorityTxsBody
  split
  · exact Or.inl ⟨_, _, rfl⟩
  · rename_i front _
    simp only
    by_cases h1 : front.2 ∈ s.blk.inBlock
    · rw [if_pos h1]; exact Or.inl ⟨_, _, rfl⟩
    · rw [if_neg h1]
      by_cases h2 : isStillDependent pool s.blk front.2 = true
      · rw [if_pos h2]; exact Or.inl ⟨_, _, rfl⟩
      · rw [if_neg h2]
        by_cases h3 : (TestForBlock cfg pool s.blk front.2).1 = true
        · rw [if_pos h3]
          have hb := (TestForBlock_true cfg pool s.blk front.2 h3).1
          have : ∀ t : LoopStep PriorityState,
              t.state.blk = AddToBlock pool s.blk front.2 →
              PriorityEffect cfg pool s.blk t.state.blk := by
            intro t ht
            exact Or.inr ⟨front.2, h1, by simpa using h2, h3, ht⟩
          split
          · exact this _ (by simp only [LoopStep.state, hb])
          · exact this _ (by simp only [LoopStep.state, hb])
        · rw [if_neg h3]
          exact Or.inl ⟨(TestForBlock cfg pool s.blk front.2).2.blockFinished,
            (TestForBlock cfg pool s.blk front.2).2.lastFewTxs,
            TestForBlock_snd cfg pool s.blk front.2⟩

/-! ## Invariants of the selection loops -/

theorem addPackageTxsLoop_inv (cfg : Config) (pool : CTxMemPool)
    (Q : LegacyBlockAssembler → Prop)
    (hpkg : ∀ b b1, Q b → PackageEffect cfg pool b b1 → Q b1) :
    ∀ (fuel : Nat) (s : PackageState), Q s.blk →
      Q (addPackageTxsLoop cfg pool fuel s).2.blk := by
  intro fuel
  induction fuel with
  | zero => intro s hs; unfold addPackageTxsLoop; split <;> exact hs
  | succ k ih =>
    intro s hs
    unfold addPackageTxsLoop
    have hstep := hpkg _ _ hs (addPackageTxsBody_effect cfg pool s)
    split
    · split
      · rename_i s1 heq; rw [heq] at hstep; exact ih s1 hstep
      · rename_i s1 heq; rw [heq] at hstep; exact hstep
      · rename_i s1 heq; rw [heq] at hstep; exact hstep
    · exact hs

theorem addPriorityTxsLoop_inv (cfg : Config) (pool : CTxMemPool) (n : Nat)
    (Q : LegacyBlockAssembler → Prop)
    (hpri : ∀ b b1, Q b → PriorityEffect cfg pool b b1 → Q b1) :
    ∀ (fuel : Nat) (s : PriorityState), Q s.blk →
      Q (addPriorityTxsLoop cfg pool n fuel s).2.blk := by
  intro fuel
  induction fuel with
  | zero => intro s hs; unfold addPriorityTxsLoop; split <;> exact hs
  | succ k ih =>
    intro s hs
    unfold addPriorityTxsLoop
    have hstep := hpri _ _ hs (addPriorityTxsBody_effect cfg pool n s)
    split
    · split
      · rename_i s1 heq; rw [heq] at hstep; exact ih s1 hstep
      · rename_i s1 heq; rw [heq] at hstep; exact hstep
      · rename_i s1 heq; rw [heq] at hstep; exact hstep
    · exact hs

theorem addPriorityTxs_inv (cfg : Config) (pool : CTxMemPool)
    (Q : LegacyBlockAssembler → Prop)
    (hpri : ∀ b b1, Q b → PriorityEffect cfg pool b b1 → Q b1)
    (fuel : Nat) (a : LegacyBlockAssembler) (ha : Q a) :
    Q (addPriorityTxs cfg pool fuel a).2 := by
  unfold addPriorityTxs
  split
  · exact ha
  · exact addPriorityTxsLoop_inv cfg pool _ Q hpri fuel _ ha

/-- Induction principle for the selection part of `CreateNewBlock`: a property of the
assembler that holds after `startBlock` and is kept by every priority pass and every
package pass holds of the assembler when selection ends, whatever the fuel. -/
theorem selectTransactions_inv (cfg : Config) (pool : CTxMemPool)
    (Q : LegacyBlockAssembler → Prop)
    (hpri : ∀ b b1, Q b → PriorityEffect cfg pool b b1 → Q b1)
    (hpkg : ∀ b b1, Q b → PackageEffect cfg pool b b1 → Q b1)
    (fuel : Nat) (a : LegacyBlockAssembler) (ha : Q (startBlock a)) :
    Q (selectTransactions cfg pool fuel a).2 := by
  unfold selectTransactions
  have h1 := addPriorityTxs_inv cfg pool Q hpri fuel (startBlock a) ha
  split
  · rename_i a1 heq
    rw [heq] at h1
    exact addPackageTxsLoop_inv cfg pool Q hpkg fuel _ h1
  · rename_i st a1 _ heq
    rw [heq] at h1
    exact h1

/-! ## The recorded entries -/

theorem includedEntries_append (vtx : List CTransactionRef) (l : List TxIter)
    (h : vtx ≠ []) :
    includedEntries (vtx ++ l.map CTransactionRef.pooled) = includedEntries vtx ++ l := by
  unfold includedEntries
  cases vtx with
  | nil => exact absurd rfl h
  | cons x xs =>
    simp only [List.cons_append, List.tail_cons, List.filterMap_append]
    congr 1
    induction l with
    | nil => rfl
    | cons y ys ih => simp [List.filterMap_cons, ih]

theorem SortForBlock_perm (pool : CTxMemPool) (package : List TxIter) :
    (SortForBlock pool package).Perm package :=
  List.perm_insertionSort _ _

theorem mem_SortForBlock (pool : CTxMemPool) (package : List TxIter) (x : TxIter) :
    x ∈ SortForBlock pool package ↔ x ∈ package :=
  (SortForBlock_perm pool package).mem_iff

/-! ## Size budget -/

theorem SizeInv_foldl (cfg : Config) (pool : CTxMemPool) (b : LegacyBlockAssembler)
    (l : List TxIter) (hb : SizeInv cfg pool b)
    (hle : (b.nBlockSize + (l.map (fun it => (pool.entry it).nTxSize)).sum) % UINT64_MOD
      ≤ cfg.nMaxGeneratedBlockSize) :
    SizeInv cfg pool (l.foldl (AddToBlock pool) b) := by
  obtain ⟨h1, h2, _⟩ := hb
  have hlt : b.nBlockSize < UINT64_MOD := by rw [h2]; exact Nat.mod_lt _ (by decide)
  refine ⟨?_, ?_, ?_⟩
  · rw [foldl_AddToBlock_vtx]; simp [h1]
  · rw [foldl_AddToBlock_nBlockSize pool l b hlt, foldl_AddToBlock_vtx,
      includedEntries_append _ _ h1, List.map_append, List.sum_append, h2,
      Nat.mod_add_mod, Nat.add_assoc]
  · rw [foldl_AddToBlock_nBlockSize pool l b hlt]; exact hle

theorem SizeInv_priority (cfg : Config) (pool : CTxMemPool)
    (hsize : ∀ it, (pool.entry it).nTxSize = (pool.entry it).serializeSize)
    (b b1 : LegacyBlockAssembler) (hb : SizeInv cfg pool b)
    (he : PriorityEffect cfg pool b b1) : SizeInv cfg pool b1 := by
  rcases he with ⟨f, n, rfl⟩ | ⟨iter, _, _, htest, rfl⟩
  · exact hb
  · have h := (TestForBlock_true cfg pool b iter htest).2.1
    have := SizeInv_foldl cfg pool b [iter] hb (by
      simp only [List.map_cons, List.map_nil, List.sum_cons, List.sum_nil, Nat.add_zero]
      rw [hsize]; exact Nat.le_of_lt h)
    simpa using this

theorem SizeInv_package (cfg : Config) (pool : CTxMemPool)
    (hsize : ∀ it, (pool.entry it).nTxSize = (pool.entry it).serializeSize)
    (b b1 : LegacyBlockAssembler) (hb : SizeInv cfg pool b)
    (he : PackageEffect cfg pool b b1) : SizeInv cfg pool b1 := by
  rcases he with rfl | ⟨iter, _, htest, rfl⟩
  · exact hb
  · apply SizeInv_foldl cfg pool b _ hb
    have hlt : b.nBlockSize < UINT64_MOD := by rw [hb.2.1]; exact Nat.mod_lt _ (by decide)
    have h := TestPackageTransactionsFrom_sum cfg pool _ _ hb.2.2 htest
    rw [foldl_u64add_eq _ _ _ hlt] at h
    have hperm := ((SortForBlock_perm pool (packageOf pool b iter)).map
      (fun it => (pool.entry it).nTxSize)).sum_eq
    rw [hperm]
    have hfun : (fun it => (pool.entry it).nTxSize) =
        (fun it => (pool.entry it).serializeSize) := funext hsize
    rw [hfun]
    exact h

theorem SizeInv_startBlock (cfg : Config) (pool : CTxMemPool) (a : LegacyBlockAssembler)
    (hmax : 1000 ≤ cfg.nMaxGeneratedBlockSize) : SizeInv cfg pool (startBlock a) := by
  refine ⟨by simp [startBlock], ?_, ?_⟩
  · simp [startBlock, resetBlock, includedEntries]
    rfl
  · simpa [startBlock, resetBlock] using hmax

/-- C1 (as amended): in every build with a cap of at least 1000 bytes over a pool whose
entries report their serialized size as `GetTxSize`, when selection ends (and after any
number of loop passes) the running size `nBlockSize` is the reserved 1000 bytes plus the
sizes of the recorded entries, in 64-bit arithmetic, and is at most
`nMaxGeneratedBlockSize`. -/
theorem selectTransactions_nBlockSize_le (cfg : Config) (pool : CTxMemPool) (fuel : Nat)
    (a : LegacyBlockAssembler) (hmax : 1000 ≤ cfg.nMaxGeneratedBlockSize)
    (hsize : ∀ it, (pool.entry it).nTxSize = (pool.entry it).serializeSize) :
    (selectTransactions cfg pool fuel a).2.nBlockSize =
      (1000 + ((includedEntries (selectTransactions cfg pool fuel a).2.vtx).map
        (fun it => (pool.entry it).nTxSize)).sum) % UINT64_MOD ∧
    (selectTransactions cfg pool fuel a).2.nBlockSize ≤ cfg.nMaxGeneratedBlockSize :=
  (selectTransactions_inv cfg pool (SizeInv cfg pool)
    (SizeInv_priority cfg pool hsize) (SizeInv_package cfg pool hsize) fuel a
    (SizeInv_startBlock cfg pool a hmax)).2

theorem threeEntries_sizes (it : TxIter) :
    (threeEntries it).nTxSize = (threeEntries it).serializeSize := by
  unfold threeEntries; split <;> rfl

/-- C1, witness: the three-entry pool under the two-megabyte cap ends selection with all
three entries and a running size of 603000. -/
theorem selectTransactions_nBlockSize_le_witness :
    (selectTransactions twoMegabyteCfg threePool 9 freshAssembler).1 = Status.finished ∧
    (selectTransactions twoMegabyteCfg threePool 9 freshAssembler).2.nBlockSize = 603000 ∧
    (selectTransactions twoMegabyteCfg threePool 9 freshAssembler).2.nBlockSize ≤
      twoMegabyteCfg.nMaxGeneratedBlockSize :=
  ⟨by decide, by decide,
    (selectTransactions_nBlockSize_le twoMegabyteCfg threePool 9 freshAssembler
      (by decide) threeEntries_sizes).2⟩

/-- C1, counterexample: with a cap of 999 bytes and an empty pool selection finishes with
a running size of 1000, above the cap. -/
theorem selectTransactions_nBlockSize_tinyCap :
    (∀ it, (emptyPool.entry it).nTxSize = (emptyPool.entry it).serializeSize) ∧
    (selectTransactions tinyCapCfg emptyPool 1 freshAssembler).1 = Status.finished ∧
    (selectTransactions tinyCapCfg emptyPool 1 freshAssembler).2.nBlockSize = 1000 ∧
    ¬ ((selectTransactions tinyCapCfg emptyPool 1 freshAssembler).2.nBlockSize ≤
      tinyCapCfg.nMaxGeneratedBlockSize) :=
  ⟨threeEntries_sizes, by decide, by decide, by decide⟩

/-! ## Recorded fees -/

theorem RecordInv_foldl (pool : CTxMemPool) (b : LegacyBlockAssembler) (l : List TxIter)
    (hb : RecordInv pool b) : RecordInv pool (l.foldl (AddToBlock pool) b) := by
  obtain ⟨⟨h1, h0⟩, h2, h3, h4, h5, h6, h7⟩ := hb
  unfold RecordInv
  rw [foldl_AddToBlock_vtx, foldl_AddToBlock_vTxFees, foldl_AddToBlock_vTxSigOpsCount,
    foldl_AddToBlock_mBlockFees, includedEntries_append _ _ h1,
    List.tail_append_of_ne_nil h1, List.tail_append_of_ne_nil h2,
    List.tail_append_of_ne_nil h3, h4, h5, h6, h7]
  have hhead : (b.vtx ++ List.map CTransactionRef.pooled l).head? = b.vtx.head? := by
    cases hv : b.vtx with
    | nil => exact absurd hv h1
    | cons x xs => rfl
  rw [hhead]
  simp [h1, h2, h3, h0]

theorem RecordInv_priority (cfg : Config) (pool : CTxMemPool)
    (b b1 : LegacyBlockAssembler) (hb : RecordInv pool b)
    (he : PriorityEffect cfg pool b b1) : RecordInv pool b1 := by
  rcases he with ⟨f, n, rfl⟩ | ⟨iter, _, _, _, rfl⟩
  · exact hb
  · exact RecordInv_foldl pool b [iter] hb

theorem RecordInv_package (cfg : Config) (pool : CTxMemPool)
    (b b1 : LegacyBlockAssembler) (hb : RecordInv pool b)
    (he : PackageEffect cfg pool b b1) : RecordInv pool b1 := by
  rcases he with rfl | ⟨iter, _, _, rfl⟩
  · exact hb
  · exact RecordInv_foldl pool b _ hb

theorem RecordInv_startBlock (pool : CTxMemPool) (a : LegacyBlockAssembler) :
    RecordInv pool (startBlock a) := by
  simp [RecordInv, startBlock, resetBlock, includedEntries]

theorem RecordInv_selectTransactions (cfg : Config) (pool : CTxMemPool) (fuel : Nat)
    (a : LegacyBlockAssembler) :
    RecordInv pool (selectTransactions cfg pool fuel a).2 :=
  selectTransactions_inv cfg pool (RecordInv pool) (RecordInv_priority cfg pool)
    (RecordInv_package cfg pool) fuel a (RecordInv_startBlock pool a)

theorem includedEntries_set_zero (vtx : List CTransactionRef) (r : CTransactionRef) :
    includedEntries (vtx.set 0 r) = includedEntries vtx := by
  cases vtx <;> rfl

theorem tail_set_zero {α : Type} (l : List α) (x : α) : (l.set 0 x).tail = l.tail := by
  cases l <;> rfl

theorem head_set_zero {α : Type} (l : List α) (x : α) (h : l ≠ []) :
    (l.set 0 x).head? = some x := by
  cases l with
  | nil => exact absurd rfl h
  | cons y ys => rfl

/-- The assembler after `CreateNewBlock` is the assembler after selection, finalized when
selection finished. -/
theorem CreateNewBlock_assembler (cfg : Config) (pool : CTxMemPool) (fuel : Nat)
    (a : LegacyBlockAssembler) (pindexPrevNew pindexPrev : Nat) :
    ((selectTransactions cfg pool fuel a).1 = Status.finished ∧
      (CreateNewBlock cfg pool fuel a pindexPrevNew pindexPrev).2.2 =
        finalizeBlock cfg (selectTransactions cfg pool fuel a).2) ∨
    ((selectTransactions cfg pool fuel a).1 ≠ Status.finished ∧
      (CreateNewBlock cfg pool fuel a pindexPrevNew pindexPrev).2.2 =
        (selectTransactions cfg pool fuel a).2 ∧
      ∀ t, (CreateNewBlock cfg pool fuel a pindexPrevNew pindexPrev).1 ≠
        BuildResult.returned t) := by
  unfold CreateNewBlock
  split
  · rename_i a1 heq
    left
    rw [heq]
    refine ⟨rfl, ?_⟩
    simp only
    split <;> rfl
  · rename_i a1 heq
    right
    rw [heq]
    exact ⟨by simp, rfl, fun t h => by cases h⟩
  · rename_i a1 heq
    right
    rw [heq]
    exact ⟨by simp, rfl, fun t h => by cases h⟩

/-- A returned template consists of the arrays of the finalized assembler. -/
theorem CreateNewBlock_returned (cfg : Config) (pool : CTxMemPool) (fuel : Nat)
    (a : LegacyBlockAssembler) (pindexPrevNew pindexPrev : Nat) (t : CBlockTemplate)
    (h : (CreateNewBlock cfg pool fuel a pindexPrevNew pindexPrev).1 =
      BuildResult.returned t) :
    (selectTransactions cfg pool fuel a).1 = Status.finished ∧
    (CreateNewBlock cfg pool fuel a pindexPrevNew pindexPrev).2.2 =
      finalizeBlock cfg (selectTransactions cfg pool fuel a).2 ∧
    t = templateOf (finalizeBlock cfg (selectTransactions cfg pool fuel a).2) ∧
    (CreateNewBlock cfg pool fuel a pindexPrevNew pindexPrev).2.1 = pindexPrevNew ∧
    (cfg.GetTestBlockCandidateValidity = true →
      (cfg.TestBlockValidity (finalizeBlock cfg (selectTransactions cfg pool fuel a).2).vtx).1
        = true) := by
  unfold CreateNewBlock at h ⊢
  split at h
  · rename_i a1 heq
    rw [heq]
    simp only at h ⊢
    split at h
    · cases h
    · rename_i hval
      rw [if_neg hval]
      simp only [BuildResult.returned.injEq] at h
      refine ⟨trivial, rfl, h.symm, rfl, ?_⟩
      intro hen
      by_contra hc
      exact hval ⟨hen, by simpa using hc⟩
  · cases h
  · cases h

theorem RecordInv_finalizeBlock (cfg : Config) (pool : CTxMemPool)
    (b : LegacyBlockAssembler) (hb : RecordInv pool b) :
    RecordInv pool (finalizeBlock cfg b) := by
  obtain ⟨⟨h1, _⟩, h2, h3, h4, h5, h6, h7⟩ := hb
  unfold RecordInv finalizeBlock
  simp only [includedEntries_set_zero, tail_set_zero]
  refine ⟨⟨?_, ?_⟩, ?_, ?_, h4, h5, h6, h7⟩
  · intro h; exact h1 (by simpa using h)
  · intro it
    rw [head_set_zero _ _ h1]
    simp
  · intro h; exact h2 (by simpa using h)
  · intro h; exact h3 (by simpa using h)

theorem RecordInv_CreateNewBlock (cfg : Config) (pool : CTxMemPool) (fuel : Nat)
    (a : LegacyBlockAssembler) (pindexPrevNew pindexPrev : Nat) :
    RecordInv pool (CreateNewBlock cfg pool fuel a pindexPrevNew pindexPrev).2.2 := by
  rcases CreateNewBlock_assembler cfg pool fuel a pindexPrevNew pindexPrev with
    ⟨_, h⟩ | ⟨_, h, _⟩
  · rw [h]; exact RecordInv_finalizeBlock cfg pool _ (RecordInv_selectTransactions ..)
  · rw [h]; exact RecordInv_selectTransactions ..

/-- C3: in every build the fees recorded behind slot 0 of `vTxFees` are, position by
position, the `GetFee()` of the pool entries recorded behind slot 0 of `vtx`, their sum is
the running total `mBlockFees`, and a returned template carries exactly these arrays with
slot 0 of `vTxFees` set to the negated total. -/
theorem CreateNewBlock_recorded_fees (cfg : Config) (pool : CTxMemPool) (fuel : Nat)
    (a : LegacyBlockAssembler) (pindexPrevNew pindexPrev : Nat) :
    (CreateNewBlock cfg pool fuel a pindexPrevNew pindexPrev).2.2.vTxFees.tail =
      (includedEntries (CreateNewBlock cfg pool fuel a pindexPrevNew pindexPrev).2.2.vtx).map
        (fun it => (pool.entry it).nFee) ∧
    (CreateNewBlock cfg pool fuel a pindexPrevNew pindexPrev).2.2.vTxFees.tail.sum =
      (CreateNewBlock cfg pool fuel a pindexPrevNew pindexPrev).2.2.mBlockFees ∧
    ∀ t, (CreateNewBlock cfg pool fuel a pindexPrevNew pindexPrev).1 =
        BuildResult.returned t →
      t.vtx.tail = (includedEntries t.vtx).map CTransactionRef.pooled ∧
      t.vTxFees.tail = (includedEntries t.vtx).map (fun it => (pool.entry it).nFee) ∧
      t.vTxFees.tail.sum =
        ((includedEntries t.vtx).map (fun it => (pool.entry it).nFee)).sum ∧
      t.vTxFees.tail.sum =
        (CreateNewBlock cfg pool fuel a pindexPrevNew pindexPrev).2.2.mBlockFees ∧
      t.vTxFees.head? = some (-1 * t.vTxFees.tail.sum) := by
  have hinv := RecordInv_CreateNewBlock cfg pool fuel a pindexPrevNew pindexPrev
  obtain ⟨h1, h2, h3, h4, h5, h6, h7⟩ := hinv
  refine ⟨h5, by rw [h5, h7], ?_⟩
  intro t ht
  obtain ⟨_, hfin, htpl, _, _⟩ :=
    CreateNewBlock_returned cfg pool fuel a pindexPrevNew pindexPrev t ht
  rw [hfin] at h1 h2 h3 h4 h5 h6 h7 ⊢
  subst htpl
  simp only [templateOf]
  refine ⟨h4, h5, by rw [h5], by rw [h5, h7], ?_⟩
  have hsel := RecordInv_selectTransactions cfg pool fuel a
  rw [h5, ← h7]
  simp only [finalizeBlock]
  exact head_set_zero _ _ hsel.2.1

/-- C3, witness: the build over the three-entry pool returns a template whose fee array
is the negated total 6006000 followed by the three fees. -/
theorem CreateNewBlock_recorded_fees_witness :
    (CreateNewBlock twoMegabyteCfg threePool 9 freshAssembler 7 0).1 =
      BuildResult.returned
        { vtx := [CTransactionRef.coinbase, CTransactionRef.pooled 1,
            CTransactionRef.pooled 2, CTransactionRef.pooled 3]
          vTxFees := [-6006000, 6000000, 1000, 5000]
          vTxSigOpsCount := [1, 0, 10000, 10000] } ∧
    ([-6006000, 6000000, 1000, 5000] : List Int).tail.sum =
      (CreateNewBlock twoMegabyteCfg threePool 9 freshAssembler 7 0).2.2.mBlockFees :=
  ⟨by decide,
    ((CreateNewBlock_recorded_fees twoMegabyteCfg threePool 9 freshAssembler 7 0).2.2
      { vtx := [CTransactionRef.coinbase, CTransactionRef.pooled 1,
          CTransactionRef.pooled 2, CTransactionRef.pooled 3]
        vTxFees := [-6006000, 6000000, 1000, 5000]
        vTxSigOpsCount := [1, 0, 10000, 10000] } (by decide)).2.2.2.1⟩

/-! ## Ancestors before descendants -/

theorem CompareTxIterByAncestorCount_total (pool : CTxMemPool) (a b : TxIter) :
    CompareTxIterByAncestorCount pool a b ∨ CompareTxIterByAncestorCount pool b a := by
  unfold CompareTxIterByAncestorCount
  rcases Nat.lt_trichotomy (pool.entry a).nCountWithAncestors
    (pool.entry b).nCountWithAncestors with h | h | h
  · exact Or.inl (Or.inl h)
  · rcases Nat.le_total a b with h2 | h2
    · exact Or.inl (Or.inr ⟨h, h2⟩)
    · exact Or.inr (Or.inr ⟨h.symm, h2⟩)
  · exact Or.inr (Or.inl h)

theorem CompareTxIterByAncestorCount_trans (pool : CTxMemPool) (a b c : TxIter) :
    CompareTxIterByAncestorCount pool a b → CompareTxIterByAncestorCount pool b c →
      CompareTxIterByAncestorCount pool a c := by
  unfold CompareTxIterByAncestorCount
  rintro (h1 | ⟨h1, h1'⟩) (h2 | ⟨h2, h2'⟩)
  · exact Or.inl (Nat.lt_trans h1 h2)
  · exact Or.inl (h2 ▸ h1)
  · exact Or.inl (h1 ▸ h2)
  · exact Or.inr ⟨h1.trans h2, Nat.le_trans h1' h2'⟩

theorem SortForBlock_sorted (pool : CTxMemPool) (package : List TxIter) :
    (SortForBlock pool package).Pairwise (CompareTxIterByAncestorCount pool) :=
  @List.sorted_insertionSort _ (CompareTxIterByAncestorCount pool) _
    ⟨CompareTxIterByAncestorCount_total pool⟩ ⟨CompareTxIterByAncestorCount_trans pool⟩
    package

theorem mem_packageOf (pool : CTxMemPool) (b : LegacyBlockAssembler) (iter x : TxIter) :
    x ∈ packageOf pool b iter ↔
      x = iter ∨ (x ∈ pool.CalculateMemPoolAncestors iter ∧ x ∉ b.inBlock) := by
  simp [packageOf, mem_setInsert, onlyUnconfirmed, List.mem_filter]

/-- Appending a list of entries keeps the order invariant when none of them is in the
block, the ancestors of each are in the block or in the list, and none is an ancestor of
an earlier one. -/
theorem OrderInv_foldl (pool : CTxMemPool) (b : LegacyBlockAssembler) (l : List TxIter)
    (hv : b.vtx ≠ []) (hb : OrderInv pool b)
    (hnew : ∀ x ∈ l, x ∉ b.inBlock)
    (hanc : ∀ x ∈ l, ∀ y ∈ pool.CalculateMemPoolAncestors x, y ∈ b.inBlock ∨ y ∈ l)
    (hpair : l.Pairwise (fun x y => y ∉ pool.CalculateMemPoolAncestors x)) :
    OrderInv pool (l.foldl (AddToBlock pool) b) := by
  obtain ⟨h1, h2, h3⟩ := hb
  unfold OrderInv
  rw [foldl_AddToBlock_vtx, includedEntries_append _ _ hv]
  refine ⟨?_, ?_, ?_⟩
  · intro x hx
    rw [foldl_AddToBlock_inBlock]
    rcases List.mem_append.1 hx with h | h
    · exact Or.inl (h1 x h)
    · exact Or.inr h
  · intro x hx y hy
    rw [foldl_AddToBlock_inBlock] at hx ⊢
    rcases hx with h | h
    · exact Or.inl (h2 x h y hy)
    · exact hanc x h y hy
  · rw [List.pairwise_append]
    refine ⟨h3, hpair, ?_⟩
    intro x hx y hy hmem
    exact hnew y hy (h2 x (h1 x hx) y hmem)

theorem OrderInv_priority (cfg : Config) (pool : CTxMemPool) (hc : AncestorsConsistent pool)
    (b b1 : LegacyBlockAssembler) (hv : b.vtx ≠ []) (hb : OrderInv pool b)
    (he : PriorityEffect cfg pool b b1) : OrderInv pool b1 := by
  rcases he with ⟨f, n, rfl⟩ | ⟨iter, hnot, hdep, _, rfl⟩
  · exact hb
  · have hpar : ∀ p ∈ pool.GetMemPoolParents iter, p ∈ b.inBlock := by
      intro p hp
      by_contra hcon
      have : isStillDependent pool b iter = true := by
        unfold isStillDependent
        rw [List.any_eq_true]
        exact ⟨p, hp, by simpa using hcon⟩
      rw [this] at hdep
      cases hdep
    have := OrderInv_foldl pool b [iter] hv hb
      (by intro x hx; rw [List.mem_singleton] at hx; subst hx; exact hnot)
      (by
        intro x hx y hy
        rw [List.mem_singleton] at hx
        subst hx
        left
        rcases hc.parent x y hy with h | ⟨p, hp, hyp⟩
        · exact hpar y h
        · exact hb.2.1 p (hpar p hp) y hyp)
      (List.pairwise_singleton _ _)
    simpa using this

theorem OrderInv_package (cfg : Config) (pool : CTxMemPool) (hc : AncestorsConsistent pool)
    (b b1 : LegacyBlockAssembler) (hv : b.vtx ≠ []) (hb : OrderInv pool b)
    (he : PackageEffect cfg pool b b1) : OrderInv pool b1 := by
  rcases he with rfl | ⟨iter, hnot, _, rfl⟩
  · exact hb
  · apply OrderInv_foldl pool b _ hv hb
    · intro x hx
      rw [mem_SortForBlock, mem_packageOf] at hx
      rcases hx with rfl | ⟨_, h⟩
      · exact hnot
      · exact h
    · intro x hx y hy
      rw [mem_SortForBlock, mem_packageOf] at hx
      have hyiter : y ∈ pool.CalculateMemPoolAncestors iter := by
        rcases hx with rfl | ⟨h, _⟩
        · exact hy
        · exact hc.trans iter x h y hy
      by_cases hyb : y ∈ b.inBlock
      · exact Or.inl hyb
      · right
        rw [mem_SortForBlock, mem_packageOf]
        exact Or.inr ⟨hyiter, hyb⟩
    · refine (SortForBlock_sorted pool _).imp ?_
      intro x y hxy hmem
      have := hc.count_lt x y hmem
      unfold CompareTxIterByAncestorCount at hxy
      omega

/-- The record and order invariants hold whenever selection stops. -/
theorem OrderInv_selectTransactions (cfg : Config) (pool : CTxMemPool)
    (hc : AncestorsConsistent pool) (fuel : Nat) (a : LegacyBlockAssembler) :
    RecordInv pool (selectTransactions cfg pool fuel a).2 ∧
    OrderInv pool (selectTransactions cfg pool fuel a).2 := by
  apply selectTransactions_inv cfg pool (fun b => RecordInv pool b ∧ OrderInv pool b)
  · intro b b1 hb he
    exact ⟨RecordInv_priority cfg pool b b1 hb.1 he,
      OrderInv_priority cfg pool hc b b1 hb.1.1.1 hb.2 he⟩
  · intro b b1 hb he
    exact ⟨RecordInv_package cfg pool b b1 hb.1 he,
      OrderInv_package cfg pool hc b b1 hb.1.1.1 hb.2 he⟩
  · refine ⟨RecordInv_startBlock pool a, ?_⟩
    simp [OrderInv, startBlock, resetBlock, includedEntries]

theorem OrderInv_finalizeBlock (cfg : Config) (pool : CTxMemPool)
    (b : LegacyBlockAssembler) (hb : OrderInv pool b) :
    OrderInv pool (finalizeBlock cfg b) := by
  unfold OrderInv finalizeBlock
  simp only [includedEntries_set_zero]
  exact hb

/-- Positions in `vtx` of recorded entries are positions in the list of recorded
entries, shifted by the coinbase slot. -/
theorem vtx_position (pool : CTxMemPool) (b : LegacyBlockAssembler)
    (hr : RecordInv pool b) (i : Nat) (x : TxIter)
    (hi : b.vtx[i]? = some (CTransactionRef.pooled x)) :
    ∃ k, i = k + 1 ∧ (includedEntries b.vtx)[k]? = some x := by
  obtain ⟨⟨h1, h0⟩, _, _, h4, _⟩ := hr
  cases hv : b.vtx with
  | nil => exact absurd hv h1
  | cons hd tl =>
    rw [hv] at hi h4 h0
    cases i with
    | zero =>
      simp only [List.getElem?_cons_zero] at hi
      exact absurd (by simpa using hi) (h0 x)
    | succ k =>
      refine ⟨k, rfl, ?_⟩
      simp only [List.getElem?_cons_succ, List.tail_cons] at hi h4
      rw [h4, List.getElem?_map] at hi
      cases hk : (includedEntries (hd :: tl))[k]? with
      | none => rw [hk] at hi; cases hi
      | some z =>
        rw [hk] at hi
        simp only [Option.map_some', Option.some.injEq, CTransactionRef.pooled.injEq] at hi
        rw [hi]

/-- C4: in every build over a pool whose ancestor sets agree with its parent links and
ancestor counts, if `A` is an in-pool ancestor of `B` and both are in the transaction list
`vtx` that `CreateNewBlock` leaves, every position of `A` is strictly before every
position of `B`; a returned template carries exactly this list. -/
theorem CreateNewBlock_ancestors_first (cfg : Config) (pool : CTxMemPool)
    (hc : AncestorsConsistent pool) (fuel : Nat) (a : LegacyBlockAssembler)
    (pindexPrevNew pindexPrev : Nat) (i j : Nat) (A B : TxIter)
    (hA : (CreateNewBlock cfg pool fuel a pindexPrevNew pindexPrev).2.2.vtx[i]? =
      some (CTransactionRef.pooled A))
    (hB : (CreateNewBlock cfg pool fuel a pindexPrevNew pindexPrev).2.2.vtx[j]? =
      some (CTransactionRef.pooled B))
    (hanc : A ∈ pool.CalculateMemPoolAncestors B) :
    i < j ∧
    ∀ t, (CreateNewBlock cfg pool fuel a pindexPrevNew pindexPrev).1 =
        BuildResult.returned t →
      t.vtx = (CreateNewBlock cfg pool fuel a pindexPrevNew pindexPrev).2.2.vtx := by
  refine ⟨?_, fun t ht => by
    obtain ⟨_, hfin, htpl, _, _⟩ :=
      CreateNewBlock_returned cfg pool fuel a pindexPrevNew pindexPrev t ht
    rw [hfin, htpl]; rfl⟩
  have hsel := OrderInv_selectTransactions cfg pool hc fuel a
  have hinv : RecordInv pool (CreateNewBlock cfg pool fuel a pindexPrevNew pindexPrev).2.2 ∧
      OrderInv pool (CreateNewBlock cfg pool fuel a pindexPrevNew pindexPrev).2.2 := by
    rcases CreateNewBlock_assembler cfg pool fuel a pindexPrevNew pindexPrev with
      ⟨_, h⟩ | ⟨_, h, _⟩
    · rw [h]
      exact ⟨RecordInv_finalizeBlock cfg pool _ hsel.1, OrderInv_finalizeBlock cfg pool _ hsel.2⟩
    · rw [h]; exact hsel
  obtain ⟨ki, rfl, hki⟩ := vtx_position pool _ hinv.1 i A hA
  obtain ⟨kj, rfl, hkj⟩ := vtx_position pool _ hinv.1 j B hB
  have hpw := hinv.2.2.2
  rw [List.pairwise_iff_getElem] at hpw
  obtain ⟨hilt, hieq⟩ := List.getElem?_eq_some_iff.1 hki
  obtain ⟨hjlt, hjeq⟩ := List.getElem?_eq_some_iff.1 hkj
  rcases Nat.lt_trichotomy ki kj with h | h | h
  · omega
  · exfalso
    subst h
    have : A = B := by rw [← hieq, ← hjeq]
    subst this
    exact Nat.lt_irrefl _ (hc.count_lt A A hanc)
  · exfalso
    have := hpw kj ki hjlt hilt h
    rw [hieq, hjeq] at this
    exact this hanc

theorem threePool_consistent : AncestorsConsistent threePool := by
  refine ⟨?_, ?_, ?_⟩
  · intro b a h
    simp only [threePool] at h ⊢
    split at h
    · subst_vars
      simp only [List.mem_cons, List.mem_singleton, List.not_mem_nil, or_false] at h
      rcases h with rfl | rfl <;> decide
    · cases h
  · intro b m h a ha
    simp only [threePool] at h ha ⊢
    split at h
    · subst_vars
      simp only [List.mem_cons, List.mem_singleton, List.not_mem_nil, or_false] at h
      rcases h with rfl | rfl <;> simp at ha
    · cases h
  · intro b a h
    simp only [threePool] at h ⊢
    split at h
    · subst_vars
      left
      simpa using h
    · cases h

/-- C4, witness: in the build over the three-entry pool, entry 1 sits at position 1 and
its descendant 3 at position 3. -/
theorem CreateNewBlock_ancestors_first_witness :
    AncestorsConsistent threePool ∧
    (CreateNewBlock twoMegabyteCfg threePool 9 freshAssembler 7 0).2.2.vtx[1]? =
      some (CTransactionRef.pooled 1) ∧
    (CreateNewBlock twoMegabyteCfg threePool 9 freshAssembler 7 0).2.2.vtx[3]? =
      some (CTransactionRef.pooled 3) ∧
    1 ∈ threePool.CalculateMemPoolAncestors 3 ∧ 1 < 3 :=
  ⟨threePool_consistent, by decide, by decide, by decide,
    (CreateNewBlock_ancestors_first twoMegabyteCfg threePool threePool_consistent 9
      freshAssembler 7 0 1 3 1 3 (by decide) (by decide) (by decide)).1⟩

/-! ## Sigop budget -/

/-- C2, the code at the failing input: the three-entry pool has consistent with-ancestors
aggregates, yet selection under the two-megabyte cap finishes with 20100 sigops at a
running size of 603000, where the limit is 20000. Entry 3 fails the package test from the
overlay, is inserted again by `UpdatePackagesForAdded` after entry 2 is added, this time
without the subtraction of entry 1, and passes the sigop test against the limit of a
block of 1203000 bytes; the template is returned. -/
theorem selectTransactions_sigops_over_limit :
    (∀ it ∈ threePool.mapTx,
      (threePool.entry it).nSizeWithAncestors = (threePool.entry it).nTxSize +
        ((threePool.CalculateMemPoolAncestors it).map
          (fun x => (threePool.entry x).nTxSize)).sum ∧
      (threePool.entry it).nSigOpCountWithAncestors = (threePool.entry it).sigOpCount +
        ((threePool.CalculateMemPoolAncestors it).map
          (fun x => (threePool.entry x).sigOpCount)).sum) ∧
    (selectTransactions twoMegabyteCfg threePool 9 freshAssembler).1 = Status.finished ∧
    (selectTransactions twoMegabyteCfg threePool 9 freshAssembler).2.nBlockSize = 603000 ∧
    (selectTransactions twoMegabyteCfg threePool 9 freshAssembler).2.nBlockSigOps = 20100 ∧
    twoMegabyteCfg.GetMaxBlockSigOpsCount 603000 = 20000 ∧
    ¬ ((selectTransactions twoMegabyteCfg threePool 9 freshAssembler).2.nBlockSigOps ≤
      twoMegabyteCfg.GetMaxBlockSigOpsCount
        (selectTransactions twoMegabyteCfg threePool 9 freshAssembler).2.nBlockSize) ∧
    (CreateNewBlock twoMegabyteCfg threePool 9 freshAssembler 7 0).1 =
      BuildResult.returned
        { vtx := [CTransactionRef.coinbase, CTransactionRef.pooled 1,
            CTransactionRef.pooled 2, CTransactionRef.pooled 3]
          vTxFees := [-6006000, 6000000, 1000, 5000]
          vTxSigOpsCount := [1, 0, 10000, 10000] } := by
  refine ⟨by decide, by decide, by decide, by decide, by decide, by decide, by decide⟩

/-! ## The fee-rate cut-off of the package phase -/

theorem addPackageTxsLoop_succ (cfg : Config) (pool : CTxMemPool) (fuel : Nat)
    (s : PackageState) :
    addPackageTxsLoop cfg pool (fuel + 1) s =
      if packageLoopGuard s then
        match addPackageTxsBody cfg pool s with
        | LoopStep.next s1 => addPackageTxsLoop cfg pool fuel s1
        | LoopStep.stop s1 => (Status.finished, s1)
        | LoopStep.assertFailed s1 => (Status.assertFailed, s1)
      else (Status.finished, s) := rfl

theorem addPackageTxsLoop_passes (cfg : Config) (pool : CTxMemPool) :
    ∀ (k : Nat) (s0 s : PackageState), addPackageTxsPasses cfg pool k s0 = some s →
      ∀ fuel, addPackageTxsLoop cfg pool (k + fuel) s0 = addPackageTxsLoop cfg pool fuel s := by
  intro k
  induction k with
  | zero =>
    intro s0 s h fuel
    simp only [addPackageTxsPasses, Option.some.injEq] at h
    subst h
    rw [Nat.zero_add]
  | succ k ih =>
    intro s0 s h fuel
    rw [Nat.succ_add, addPackageTxsLoop_succ]
    unfold addPackageTxsPasses at h
    split at h
    · rename_i hg
      rw [if_pos hg]
      split at h
      · rename_i s1 heq
        rw [heq]
        exact ih s1 s h fuel
      · cases h
    · cases h

/-- C5: if after `k` passes of the loop of `addPackageTxs` a pass chooses a package (its
entry not skipped) whose fees, taken from the overlay record when the package comes from
the overlay, are below `blockMinFeeRate.GetFee(packageSize)`, then the phase ends in that
pass: for any further fuel the final state is the state before the pass with only the
cursor moved, so the transaction list, running size, sigops, fees, overlay and failed set
are untouched and nothing is tested or added afterwards; and the phase ends by returning
whenever the assertion on `inBlock`, which precedes the fee test, holds. -/
theorem addPackageTxs_fee_cutoff (cfg : Config) (pool : CTxMemPool)
    (a : LegacyBlockAssembler) (k fuel : Nat) (s : PackageState) (c : PackageChoice)
    (hreach : addPackageTxsPasses cfg pool k (addPackageTxsInit pool a) = some s)
    (hskip : ∀ it rest, s.mi = it :: rest →
      SkipMapTxEntry s.blk it s.mapModifiedTx s.failedTx = false)
    (hchoice : choosePackage cfg pool s = some c)
    (hfee : c.packageFees pool < cfg.blockMinFeeRateGetFee (c.packageSize pool)) :
    (addPackageTxs cfg pool (k + (fuel + 1)) a).2 = { s with mi := c.mi } ∧
    (c.iter ∉ s.blk.inBlock →
      addPackageTxs cfg pool (k + (fuel + 1)) a =
        (Status.finished, { s with mi := c.mi })) := by
  unfold addPackageTxs
  rw [addPackageTxsLoop_passes cfg pool k _ s hreach (fuel + 1)]
  have hguard : packageLoopGuard s = true := by
    unfold packageLoopGuard
    unfold choosePackage at hchoice
    cases hmi : s.mi with
    | cons it rest => simp
    | nil =>
      rw [hmi] at hchoice
      cases hm : s.mapModifiedTx with
      | nil => rw [hm] at hchoice; simp [bestModified] at hchoice
      | cons x xs => simp
  have hbody : addPackageTxsBody cfg pool s = processChoice cfg pool s c := by
    unfold addPackageTxsBody
    split
    · rename_i it rest hmi
      rw [hskip it rest hmi]
      simp only [Bool.false_eq_true, ↓reduceIte]
      rw [hchoice]
    · rw [hchoice]
  rw [addPackageTxsLoop_succ, if_pos hguard, hbody]
  unfold processChoice
  by_cases hassert : c.iter ∈ s.blk.inBlock
  · rw [if_pos hassert]
    exact ⟨rfl, fun h => absurd hassert h⟩
  · rw [if_neg hassert, if_pos hfee]
    exact ⟨rfl, fun _ => rfl⟩

/-- C5, witness: with a minimum fee of 5 per byte the package phase over the three-entry
pool adds entry 1, skips entry 3 in the primary index, then chooses entry 3 from the
overlay with fees 6000 for 2000 bytes and returns, leaving the block as it was. -/
theorem addPackageTxs_fee_cutoff_witness :
    addPackageTxs fivePerByteCfg threePool (2 + (0 + 1)) (startBlock freshAssembler) =
      (Status.finished, { afterTwoPasses with mi := overlayChoice.mi }) :=
  (addPackageTxs_fee_cutoff fivePerByteCfg threePool (startBlock freshAssembler) 2 0
    afterTwoPasses overlayChoice (by decide)
    (by intro it rest h; cases h; decide) (by decide) (by decide)).2 (by decide)

/-! ## The candidate-validity test -/

/-- C6: with candidate-validity testing enabled, a build whose selection finished and
whose assembled block `TestBlockValidity` rejects ends in a runtime error whose text
carries the validation reason, returns no template and leaves the caller's `pindexPrev`
as it was; and every returned template was accepted by `TestBlockValidity`. -/
theorem CreateNewBlock_validity (cfg : Config) (pool : CTxMemPool) (fuel : Nat)
    (a : LegacyBlockAssembler) (pindexPrevNew pindexPrev : Nat)
    (henabled : cfg.GetTestBlockCandidateValidity = true) :
    ((selectTransactions cfg pool fuel a).1 = Status.finished →
      (cfg.TestBlockValidity
        (finalizeBlock cfg (selectTransactions cfg pool fuel a).2).vtx).1 = false →
      (CreateNewBlock cfg pool fuel a pindexPrevNew pindexPrev).1 =
        BuildResult.runtimeError ("CreateNewBlock: TestBlockValidity failed: " ++
          (cfg.TestBlockValidity
            (finalizeBlock cfg (selectTransactions cfg pool fuel a).2).vtx).2) ∧
      (CreateNewBlock cfg pool fuel a pindexPrevNew pindexPrev).2.1 = pindexPrev) ∧
    (∀ t, (CreateNewBlock cfg pool fuel a pindexPrevNew pindexPrev).1 =
        BuildResult.returned t →
      (cfg.TestBlockValidity t.vtx).1 = true ∧
      (CreateNewBlock cfg pool fuel a pindexPrevNew pindexPrev).2.1 = pindexPrevNew) := by
  constructor
  · intro hfin hrej
    unfold CreateNewBlock
    split
    · rename_i a1 heq
      simp only [heq] at hrej ⊢
      rw [if_pos ⟨henabled, by simp [hrej]⟩]
      exact ⟨rfl, rfl⟩
    · rename_i a1 heq; rw [heq] at hfin; cases hfin
    · rename_i a1 heq; rw [heq] at hfin; cases hfin
  · intro t ht
    obtain ⟨_, _, htpl, hidx, hval⟩ :=
      CreateNewBlock_returned cfg pool fuel a pindexPrevNew pindexPrev t ht
    subst htpl
    exact ⟨hval henabled, hidx⟩

/-- C6, witness: under a validation that rejects every block the build over the
three-entry pool throws and the caller's `pindexPrev` stays 0. -/
theorem CreateNewBlock_validity_witness :
    (CreateNewBlock rejectingCfg threePool 9 freshAssembler 7 0).1 =
      BuildResult.runtimeError "CreateNewBlock: TestBlockValidity failed: bad-blk-sigops" ∧
    (CreateNewBlock rejectingCfg threePool 9 freshAssembler 7 0).2.1 = 0 :=
  (CreateNewBlock_validity rejectingCfg threePool 9 freshAssembler 7 0 rfl).1
    (by decide) (by decide)

/-! ## Eviction of old candidates -/

/-- The registry after a call that finds the height advanced and the grace period over. -/
theorem RemoveOldCandidates_due (m : CMiningCandidateManager) (h : Int) (nTime : Nat)
    (getTime : Int) (hh : (m.mPrevHeight : Int) < h)
    (ht : (nTime : Int) + 30 ≤ getTime) :
    RemoveOldCandidates m h nTime getTime =
      { mCandidates := m.mCandidates.filter
          (fun e => decide (m.mPrevHeight < e.2.mBlock.heightFromCoinbase))
        mPrevHeight := h.toNat } := by
  have hmod : (((nTime + NEW_CANDIDATE_INTERVAL) % UINT32_MOD : Nat) : Int) ≤ getTime := by
    have : (nTime + NEW_CANDIDATE_INTERVAL) % UINT32_MOD ≤ nTime + 30 := Nat.mod_le _ _
    omega
  unfold RemoveOldCandidates
  rw [if_neg (by omega)]
  simp only
  rw [if_neg (by omega), if_pos (by omega)]
  congr 1
  apply List.filter_congr
  intro e _
  by_cases hc : e.2.mBlock.heightFromCoinbase ≤ m.mPrevHeight
  · simp [hc, Nat.not_lt.mpr hc]
  · simp [hc, Nat.lt_of_not_le hc]

/-- The calls that change nothing. -/
theorem RemoveOldCandidates_unchanged (m : CMiningCandidateManager) (h : Int) (nTime : Nat)
    (getTime : Int)
    (hcase : h < 0 ∨ h ≤ (m.mPrevHeight : Int) ∨
      (nTime + 30 < UINT32_MOD ∧ getTime < (nTime : Int) + 30)) :
    RemoveOldCandidates m h nTime getTime = m := by
  unfold RemoveOldCandidates
  by_cases h0 : h < 0
  · rw [if_pos h0]
  · rw [if_neg h0]
    simp only
    by_cases h1 : h.toNat ≤ m.mPrevHeight
    · rw [if_pos h1]
    · rw [if_neg h1]
      rcases hcase with hc | hc | ⟨hw, hc⟩
      · exact absurd hc h0
      · omega
      · rw [if_neg]
        rw [Nat.mod_eq_of_lt hw]
        omega

/-- C7: when the chain height `h` is above the recorded height `P` and the current time
is at least the tip time plus 30 seconds, `RemoveOldCandidates` keeps exactly the stored
bindings whose candidate has a coinbase height above `P`, in order and unchanged, removes
every candidate of height at most `P`, and records `h`. -/
theorem RemoveOldCandidates_evicts (m : CMiningCandidateManager) (h : Int) (nTime : Nat)
    (getTime : Int) (hh : (m.mPrevHeight : Int) < h)
    (ht : (nTime : Int) + 30 ≤ getTime) :
    (RemoveOldCandidates m h nTime getTime).mCandidates =
      m.mCandidates.filter (fun e => decide (m.mPrevHeight < e.2.mBlock.heightFromCoinbase)) ∧
    (∀ e, e ∈ (RemoveOldCandidates m h nTime getTime).mCandidates ↔
      e ∈ m.mCandidates ∧ m.mPrevHeight < e.2.mBlock.heightFromCoinbase) ∧
    (∀ e ∈ (RemoveOldCandidates m h nTime getTime).mCandidates,
      ¬ e.2.mBlock.heightFromCoinbase ≤ m.mPrevHeight) ∧
    ((RemoveOldCandidates m h nTime getTime).mPrevHeight : Int) = h := by
  rw [RemoveOldCandidates_due m h nTime getTime hh ht]
  refine ⟨rfl, ?_, ?_, ?_⟩
  · intro e; simp [List.mem_filter]
  · intro e he
    simp only [List.mem_filter, decide_eq_true_eq] at he
    omega
  · simp only
    omega

/-- C7, witness: at recorded height 5, a tip of height 6 seen 30 seconds after its time
evicts the candidate of height 3 and keeps the candidate of height 7. -/
theorem RemoveOldCandidates_evicts_witness :
    (RemoveOldCandidates twoCandidatesAtFive 6 100 130).mCandidates =
      [(12, { mId := 12, mHashPrevBlock := 900, mBlock := { heightFromCoinbase := 7 } })] ∧
    ((RemoveOldCandidates twoCandidatesAtFive 6 100 130).mPrevHeight : Int) = 6 :=
  ⟨(RemoveOldCandidates_evicts twoCandidatesAtFive 6 100 130 (by decide) (by decide)).1,
    (RemoveOldCandidates_evicts twoCandidatesAtFive 6 100 130 (by decide) (by decide)).2.2.2⟩

/-- C8, counterexample: the registry has recorded height 0 and the tip is at height
`5 + 1` with time 100; the call at time 130 leaves the candidate of height 3 in place. -/
theorem RemoveOldCandidates_keeps_unsuperseded :
    ∃ e ∈ (RemoveOldCandidates twoCandidates (5 + 1) 100 130).mCandidates,
      e.2.mBlock.heightFromCoinbase ≤ 5 := by
  decide

/-- C8 (as amended): when the registry has recorded height `H`, the tip is at height
`H + 1` with time `T` and `RemoveOldCandidates` is called at a time of at least
`T + 30`, no candidate of coinbase height at most `H` remains. -/
theorem RemoveOldCandidates_clears_recorded (m : CMiningCandidateManager) (H nTime : Nat)
    (getTime : Int) (hrec : m.mPrevHeight = H) (ht : (nTime : Int) + 30 ≤ getTime) :
    ∀ e ∈ (RemoveOldCandidates m ((H : Int) + 1) nTime getTime).mCandidates,
      ¬ e.2.mBlock.heightFromCoinbase ≤ H := by
  intro e he
  rw [RemoveOldCandidates_due m ((H : Int) + 1) nTime getTime (by omega) ht] at he
  simp only [List.mem_filter, decide_eq_true_eq] at he
  omega

/-- C8, witness: at recorded height 5 and a tip of height 6 nothing of height at most 5
remains. -/
theorem RemoveOldCandidates_clears_recorded_witness :
    twoCandidatesAtFive.mPrevHeight = 5 ∧ ((100 : Nat) : Int) + 30 ≤ 130 ∧
    ∀ e ∈ (RemoveOldCandidates twoCandidatesAtFive ((5 : Nat) + 1) 100 130).mCandidates,
      ¬ e.2.mBlock.heightFromCoinbase ≤ 5 :=
  ⟨rfl, by decide,
    RemoveOldCandidates_clears_recorded twoCandidatesAtFive 5 100 130 rfl (by decide)⟩

/-- C9: `RemoveOldCandidates` leaves the candidate map and the recorded height as they
are when the chain height is negative, or not above the recorded height, or the current
time is before the tip time plus 30 seconds (that sum not wrapping in 32 bits). -/
theorem RemoveOldCandidates_noop (m : CMiningCandidateManager) (h : Int) (nTime : Nat)
    (getTime : Int)
    (hcase : h < 0 ∨ h ≤ (m.mPrevHeight : Int) ∨
      (nTime + 30 < UINT32_MOD ∧ getTime < (nTime : Int) + 30)) :
    (RemoveOldCandidates m h nTime getTime).mCandidates = m.mCandidates ∧
    (RemoveOldCandidates m h nTime getTime).mPrevHeight = m.mPrevHeight := by
  rw [RemoveOldCandidates_unchanged m h nTime getTime hcase]
  exact ⟨rfl, rfl⟩

/-- C9, witness: 29 seconds after the time of the new tip the candidates and the
recorded height are untouched. -/
theorem RemoveOldCandidates_noop_witness :
    (RemoveOldCandidates twoCandidatesAtFive 6 100 129).mCandidates =
      twoCandidatesAtFive.mCandidates ∧
    (RemoveOldCandidates twoCandidatesAtFive 6 100 129).mPrevHeight =
      twoCandidatesAtFive.mPrevHeight :=
  RemoveOldCandidates_noop twoCandidatesAtFive 6 100 129 (Or.inr (Or.inr (by decide)))

/-- C10: for fixed chain height, tip time and current time, a second call of
`RemoveOldCandidates` changes nothing: the registry after two calls is the registry after
one. -/
theorem RemoveOldCandidates_idempotent (m : CMiningCandidateManager) (h : Int)
    (nTime : Nat) (getTime : Int) :
    RemoveOldCandidates (RemoveOldCandidates m h nTime getTime) h nTime getTime =
      RemoveOldCandidates m h nTime getTime := by
  by_cases hn : RemoveOldCandidates m h nTime getTime = m
  · rw [hn, hn]
  · apply RemoveOldCandidates_unchanged
    right; left
    unfold RemoveOldCandidates at hn ⊢
    simp only at hn ⊢
    split_ifs at hn ⊢
    · exact absurd rfl hn
    · exact absurd rfl hn
    · simp only
      omega
    · exact absurd rfl hn

/-! ## `Create` and `Get` -/

theorem lookup_mapAssign_self (k : MiningCandidateId) (v : CMiningCandidate) :
    ∀ l : List (MiningCandidateId × CMiningCandidate), (mapAssign k v l).lookup k = some v := by
  intro l
  induction l with
  | nil => simp [mapAssign, List.lookup]
  | cons p rest ih =>
    obtain ⟨k1, v1⟩ := p
    unfold mapAssign
    by_cases h1 : k = k1
    · rw [if_pos h1]; simp [List.lookup]
    · rw [if_neg h1]
      by_cases h2 : k < k1
      · rw [if_pos h2]; simp [List.lookup]
      · rw [if_neg h2]
        rw [List.lookup_cons]
        have : (k == k1) = false := by simpa using h1
        rw [this]
        exact ih

theorem lookup_mapAssign_other (k : MiningCandidateId) (v : CMiningCandidate)
    (k2 : MiningCandidateId) (hne : k2 ≠ k) :
    ∀ l : List (MiningCandidateId × CMiningCandidate),
      (mapAssign k v l).lookup k2 = l.lookup k2 := by
  have hk : (k2 == k) = false := by simpa using hne
  intro l
  induction l with
  | nil => simp [mapAssign, List.lookup, hk]
  | cons p rest ih =>
    obtain ⟨k1, v1⟩ := p
    unfold mapAssign
    by_cases h1 : k = k1
    · rw [if_pos h1]
      subst h1
      simp [List.lookup_cons, hk]
    · rw [if_neg h1]
      by_cases h2 : k < k1
      · rw [if_pos h2]
        rw [List.lookup_cons, hk]
      · rw [if_neg h2]
        rw [List.lookup_cons, List.lookup_cons, ih]

theorem Get_fst (r : CMiningCandidateManager) (id : MiningCandidateId) :
    (Get r id).1 = r.mCandidates.lookup id := by
  unfold Get
  cases r.mCandidates.lookup id <;> rfl

/-- C11: `Create(prevHash)` returns a candidate carrying the generated id and `prevHash`;
afterwards `Get` of that id returns this candidate, `Get` of every other id returns what
it returned before, and the recorded height is unchanged. -/
theorem Create_then_Get (m : CMiningCandidateManager) (nextId : MiningCandidateId)
    (hashPrevBlock : Nat) (shellBlock : CBlock) :
    (Create m nextId hashPrevBlock shellBlock).1.mId = nextId ∧
    (Create m nextId hashPrevBlock shellBlock).1.mHashPrevBlock = hashPrevBlock ∧
    (Get (Create m nextId hashPrevBlock shellBlock).2
        (Create m nextId hashPrevBlock shellBlock).1.mId).1 =
      some (Create m nextId hashPrevBlock shellBlock).1 ∧
    (∀ id, id ≠ (Create m nextId hashPrevBlock shellBlock).1.mId →
      (Get (Create m nextId hashPrevBlock shellBlock).2 id).1 = (Get m id).1) ∧
    (Create m nextId hashPrevBlock shellBlock).2.mPrevHeight = m.mPrevHeight := by
  have hget := Get_fst
  refine ⟨rfl, rfl, ?_, ?_, rfl⟩
  · rw [hget]
    exact lookup_mapAssign_self _ _ _
  · intro id hne
    rw [hget, hget]
    exact lookup_mapAssign_other _ _ id hne _

/-- C11, witness: a candidate created under id 15 is found again, and id 12 still yields
the candidate stored before. -/
theorem Create_then_Get_witness :
    (Get (Create twoCandidates 15 700 { heightFromCoinbase := 8 }).2 12).1 =
      (Get twoCandidates 12).1 :=
  (Create_then_Get twoCandidates 15 700 { heightFromCoinbase := 8 }).2.2.2.1 12 (by decide)

/-- C13: for an id that is not a key of the stored map `Get` returns the empty result, and
`Get` leaves the registry as it is for every id. -/
theorem Get_unknown_id (m : CMiningCandidateManager) :
    (∀ id, (∀ p ∈ m.mCandidates, p.1 ≠ id) → (Get m id).1 = none) ∧
    (∀ id, (Get m id).2 = m) := by
  constructor
  · intro id hid
    have hnone : m.mCandidates.lookup id = none := by
      generalize m.mCandidates = l at hid
      induction l with
      | nil => rfl
      | cons p rest ih =>
        obtain ⟨k1, v1⟩ := p
        have h1 : (id == k1) = false := by
          have := hid (k1, v1) (List.mem_cons_self _ _)
          simpa using fun e => this e.symm
        rw [List.lookup_cons, h1]
        exact ih (fun p hp => hid p (List.mem_cons_of_mem _ hp))
    unfold Get
    rw [hnone]
  · intro id
    unfold Get
    split <;> rfl

/-- C13, witness: id 99 was never issued to the registry of two candidates, and id 11 is
unknown once its candidate is evicted. -/
theorem Get_unknown_id_witness :
    (Get twoCandidates 99).1 = none ∧
    (Get (RemoveOldCandidates twoCandidatesAtFive 6 100 130) 11).1 = none :=
  ⟨(Get_unknown_id twoCandidates).1 99 (by decide),
    (Get_unknown_id (RemoveOldCandidates twoCandidatesAtFive 6 100 130)).1 11 (by decide)⟩

/-! ## The three arrays of the template -/

theorem ArraysInv_AddToBlock (pool : CTxMemPool) (b : LegacyBlockAssembler) (iter : TxIter)
    (hb : ArraysInv pool b) : ArraysInv pool (AddToBlock pool b iter) := by
  obtain ⟨h1, h2, h3, h4, h5, h6⟩ := hb
  unfold ArraysInv
  simp only [AddToBlock, List.length_append, List.length_singleton]
  refine ⟨by omega, by omega, by omega, u64add_lt _ _, ?_, ?_⟩
  · unfold u64add
    rw [Nat.mod_add_mod, Nat.add_mod, h5, ← Nat.add_mod]
  · intro i hi hlt
    by_cases hold : i < b.vtx.length
    · obtain ⟨e, he1, he2, he3⟩ := h6 i hi hold
      refine ⟨e, ?_, ?_, ?_⟩
      · rw [List.getElem?_append_left hold]; exact he1
      · rw [List.getElem?_append_left (by omega)]; exact he2
      · rw [List.getElem?_append_left (by omega)]; exact he3
    · have hi2 : i = b.vtx.length := by omega
      refine ⟨iter, ?_, ?_, ?_⟩
      · rw [List.getElem?_append_right (by omega)]
        simp [hi2]
      · rw [List.getElem?_append_right (by omega)]
        simp [hi2, h2]
      · rw [List.getElem?_append_right (by omega)]
        simp [hi2, h3]

theorem ArraysInv_foldl (pool : CTxMemPool) (l : List TxIter) :
    ∀ b : LegacyBlockAssembler, ArraysInv pool b →
      ArraysInv pool (l.foldl (AddToBlock pool) b) := by
  induction l with
  | nil => intro b hb; exact hb
  | cons x xs ih =>
    intro b hb
    rw [List.foldl_cons]
    exact ih _ (ArraysInv_AddToBlock pool b x hb)

theorem ArraysInv_startBlock (pool : CTxMemPool) (a : LegacyBlockAssembler) :
    ArraysInv pool (startBlock a) := by
  unfold ArraysInv
  refine ⟨Nat.le_refl _, rfl, rfl, ?_, ?_, ?_⟩
  · show (0 : Nat) < UINT64_MOD
    decide
  · show 1 % UINT64_MOD = (0 + 1) % UINT64_MOD
    rfl
  · intro i hi hlt
    simp only [startBlock, resetBlock, List.length_singleton] at hlt
    omega

theorem ArraysInv_selectTransactions (cfg : Config) (pool : CTxMemPool) (fuel : Nat)
    (a : LegacyBlockAssembler) : ArraysInv pool (selectTransactions cfg pool fuel a).2 := by
  apply selectTransactions_inv cfg pool (ArraysInv pool)
  · intro b b1 hb he
    rcases he with ⟨f, n, rfl⟩ | ⟨iter, _, _, _, rfl⟩
    · exact hb
    · exact ArraysInv_AddToBlock pool b iter hb
  · intro b b1 hb he
    rcases he with rfl | ⟨iter, _, _, rfl⟩
    · exact hb
    · exact ArraysInv_foldl pool _ b hb
  · exact ArraysInv_startBlock pool a

theorem getElem?_set_zero_succ {α : Type} (l : List α) (x : α) (i : Nat) (hi : 1 ≤ i) :
    (l.set 0 x)[i]? = l[i]? := by
  cases l with
  | nil => rfl
  | cons y ys =>
    cases i with
    | zero => omega
    | succ k => rfl

theorem ArraysInv_finalizeBlock (cfg : Config) (pool : CTxMemPool)
    (b : LegacyBlockAssembler) (hb : ArraysInv pool b) :
    ArraysInv pool (finalizeBlock cfg b) := by
  obtain ⟨h1, h2, h3, h4, h5, h6⟩ := hb
  unfold ArraysInv
  simp only [finalizeBlock, List.length_set]
  refine ⟨h1, h2, h3, h4, h5, ?_⟩
  intro i hi hlt
  obtain ⟨e, he1, he2, he3⟩ := h6 i hi hlt
  refine ⟨e, ?_, ?_, ?_⟩
  · rw [getElem?_set_zero_succ _ _ i hi]; exact he1
  · rw [getElem?_set_zero_succ _ _ i hi]; exact he2
  · rw [getElem?_set_zero_succ _ _ i hi]; exact he3

theorem ArraysInv_length (pool : CTxMemPool) (b : LegacyBlockAssembler)
    (hb : ArraysInv pool b) (hlen : b.vtx.length ≤ UINT64_MOD) :
    b.vtx.length = b.nBlockTx + 1 := by
  obtain ⟨h1, _, _, h4, h5, _⟩ := hb
  rcases Nat.lt_or_ge (b.nBlockTx + 1) UINT64_MOD with h | h
  · rw [Nat.mod_eq_of_lt h] at h5
    rcases Nat.lt_or_ge b.vtx.length UINT64_MOD with h7 | h7
    · rw [Nat.mod_eq_of_lt h7] at h5; exact h5
    · have : b.vtx.length = UINT64_MOD := Nat.le_antisymm hlen h7
      rw [this, Nat.mod_self] at h5
      omega
  · have hn : b.nBlockTx + 1 = UINT64_MOD := by omega
    rw [hn, Nat.mod_self] at h5
    rcases Nat.lt_or_ge b.vtx.length UINT64_MOD with h7 | h7
    · rw [Nat.mod_eq_of_lt h7] at h5; omega
    · rw [hn]; exact Nat.le_antisymm hlen h7

/-- C14: the array invariant (`vtx`, `vTxFees` and `vTxSigOpsCount` have one length, equal
to `nBlockTx + 1` in 64-bit arithmetic, and from slot 1 on position `i` of the three
arrays holds the transaction, fee and sigop count of one pool entry) holds once the dummy
coinbase slot is pushed, is kept by every call of `AddToBlock`, holds whenever selection
stops and after `CreateNewBlock`; a returned template carries these arrays, and the common
length is exactly `nBlockTx + 1` as long as it does not exceed `2^64`. -/
theorem CreateNewBlock_arrays (cfg : Config) (pool : CTxMemPool) (fuel : Nat)
    (a : LegacyBlockAssembler) (pindexPrevNew pindexPrev : Nat) :
    ArraysInv pool (startBlock a) ∧
    (∀ b iter, ArraysInv pool b → ArraysInv pool (AddToBlock pool b iter)) ∧
    ArraysInv pool (selectTransactions cfg pool fuel a).2 ∧
    ArraysInv pool (CreateNewBlock cfg pool fuel a pindexPrevNew pindexPrev).2.2 ∧
    (∀ b, ArraysInv pool b → b.vtx.length ≤ UINT64_MOD → b.vtx.length = b.nBlockTx + 1) ∧
    ∀ t, (CreateNewBlock cfg pool fuel a pindexPrevNew pindexPrev).1 =
        BuildResult.returned t →
      t.vTxFees.length = t.vtx.length ∧ t.vTxSigOpsCount.length = t.vtx.length ∧
      (t.vtx.length ≤ UINT64_MOD → t.vtx.length =
        (CreateNewBlock cfg pool fuel a pindexPrevNew pindexPrev).2.2.nBlockTx + 1) ∧
      ∀ i, 1 ≤ i → i < t.vtx.length →
        ∃ e, t.vtx[i]? = some (CTransactionRef.pooled e) ∧
          t.vTxFees[i]? = some (pool.entry e).nFee ∧
          t.vTxSigOpsCount[i]? = some (pool.entry e).sigOpCount := by
  have hsel := ArraysInv_selectTransactions cfg pool fuel a
  have hcnb : ArraysInv pool (CreateNewBlock cfg pool fuel a pindexPrevNew pindexPrev).2.2 := by
    rcases CreateNewBlock_assembler cfg pool fuel a pindexPrevNew pindexPrev with
      ⟨_, h⟩ | ⟨_, h, _⟩
    · rw [h]; exact ArraysInv_finalizeBlock cfg pool _ hsel
    · rw [h]; exact hsel
  refine ⟨ArraysInv_startBlock pool a, ArraysInv_AddToBlock pool, hsel, hcnb,
    ArraysInv_length pool, ?_⟩
  intro t ht
  obtain ⟨_, hfin, htpl, _, _⟩ :=
    CreateNewBlock_returned cfg pool fuel a pindexPrevNew pindexPrev t ht
  have hlen := ArraysInv_length pool _ hcnb
  rw [hfin] at hcnb hlen ⊢
  subst htpl
  obtain ⟨_, h2, h3, _, _, h6⟩ := hcnb
  exact ⟨h2, h3, hlen, h6⟩

/-- C14, witness: the template returned for the three-entry pool has three arrays of
length 4, one more than `nBlockTx`, and slot 2 of each describes entry 2. -/
theorem CreateNewBlock_arrays_witness :
    (CreateNewBlock twoMegabyteCfg threePool 9 freshAssembler 7 0).2.2.nBlockTx = 3 ∧
    [CTransactionRef.coinbase, CTransactionRef.pooled 1, CTransactionRef.pooled 2,
        CTransactionRef.pooled 3].length =
      (CreateNewBlock twoMegabyteCfg threePool 9 freshAssembler 7 0).2.2.nBlockTx + 1 :=
  ⟨by decide,
    ((CreateNewBlock_arrays twoMegabyteCfg threePool 9 freshAssembler 7 0).2.2.2.2.2
      { vtx := [CTransactionRef.coinbase, CTransactionRef.pooled 1,
          CTransactionRef.pooled 2, CTransactionRef.pooled 3]
        vTxFees := [-6006000, 6000000, 1000, 5000]
        vTxSigOpsCount := [1, 0, 10000, 10000] } (by decide)).2.2.1 (by decide)⟩

/-! ## Failed packages and the overlay -/

/-- C16, the code at the failing input: after four passes of the package phase over the
three-entry pool, entries 1 and 2 are in the block and the overlay holds for entry 3 the
size 601000, where the pool aggregate less the included ancestors is 1000: the record
was made anew after entry 3 had failed, and only entry 2 was subtracted. -/
theorem addPackageTxs_stale_overlay :
    ∃ s, addPackageTxsPasses twoMegabyteCfg threePool 4
        (addPackageTxsInit threePool (startBlock freshAssembler)) = some s ∧
      s.blk.inBlock = [1, 2] ∧ s.failedTx = [3] ∧
      s.mapModifiedTx =
        [{ iter := 3, nSizeWithAncestors := 601000, nModFeesWithAncestors := 6005000
           nSigOpCountWithAncestors := 10000 }] ∧
      adjustedForIncluded threePool s.blk.inBlock 3 =
        { iter := 3, nSizeWithAncestors := 1000, nModFeesWithAncestors := 5000
          nSigOpCountWithAncestors := 10000 } ∧
      s.mapModifiedTx ≠ [adjustedForIncluded threePool s.blk.inBlock 3] := by
  refine ⟨_, rfl, ?_⟩
  decide

/-! ## The wrapper round trip -/

/-- C17: for every payload `P` and every store that holds `P`, the wrapper built from `P`
returns `P` from `GetTx()`; after `ResetTransaction()` it is not in memory and its storage
is `txdb`; and a further `GetTx()` returns `P` again, the wrapper staying out of memory. -/
theorem CTransactionWrapper_round_trip (P : CTransaction) (txDB : CMempoolTxDBReader)
    (hholds : txDB.GetTransaction P.id = some P) :
    (CTransactionWrapper.ofTx P (some txDB)).GetTx.1 = Except.ok P ∧
    (CTransactionWrapper.ofTx P (some txDB)).IsInMemory = true ∧
    (CTransactionWrapper.ofTx P (some txDB)).GetTx.2.ResetTransaction.IsInMemory = false ∧
    (CTransactionWrapper.ofTx P (some txDB)).GetTx.2.ResetTransaction.GetTxStorage =
      TxStorage.txdb ∧
    (CTransactionWrapper.ofTx P (some txDB)).GetTx.2.ResetTransaction.GetTx.1 =
      Except.ok P ∧
    (CTransactionWrapper.ofTx P (some txDB)).GetTx.2.ResetTransaction.GetTx.2.IsInMemory =
      false := by
  refine ⟨rfl, rfl, rfl, rfl, ?_, ?_⟩
  · simp only [CTransactionWrapper.GetTx, CTransactionWrapper.ofTx,
      CTransactionWrapper.ResetTransaction, hholds]
  · simp only [CTransactionWrapper.GetTx, CTransactionWrapper.ofTx,
      CTransactionWrapper.ResetTransaction, hholds, CTransactionWrapper.IsInMemory]

/-- C17, witness: the round trip of `samplePayload` through `sampleStore`. -/
theorem CTransactionWrapper_round_trip_witness :
    (CTransactionWrapper.ofTx samplePayload (some sampleStore)).GetTx.2.ResetTransaction.GetTx.1
      = Except.ok samplePayload :=
  (CTransactionWrapper_round_trip samplePayload sampleStore rfl).2.2.2.2.1

/-! ## The per-transaction budget test -/

theorem TestForBlock_frame (cfg : Config) (pool : CTxMemPool) (a : LegacyBlockAssembler)
    (it : TxIter) :
    (TestForBlock cfg pool a it).2.nBlockSize = a.nBlockSize ∧
    (TestForBlock cfg pool a it).2.nBlockSigOps = a.nBlockSigOps ∧
    (TestForBlock cfg pool a it).2.mBlockFees = a.mBlockFees ∧
    (TestForBlock cfg pool a it).2.inBlock = a.inBlock ∧
    (TestForBlock cfg pool a it).2.nBlockTx = a.nBlockTx ∧
    (TestForBlock cfg pool a it).2.vtx = a.vtx ∧
    (TestForBlock cfg pool a it).2.vTxFees = a.vTxFees ∧
    (TestForBlock cfg pool a it).2.vTxSigOpsCount = a.vTxSigOpsCount := by
  rw [TestForBlock_snd]
  exact ⟨rfl, rfl, rfl, rfl, rfl, rfl, rfl, rfl⟩

/-- C19: `TestForBlock` sets `blockFinished`, returning false, exactly when the size test
fails with the running size within 100 bytes of the cap or after more than 50 near-cap
rejections, or the size test passes, the sigop test fails and the sigop headroom is below
2; in every other case `blockFinished` keeps its value. -/
theorem TestForBlock_blockFinished (cfg : Config) (pool : CTxMemPool)
    (a : LegacyBlockAssembler) (it : TxIter) :
    (marksFinished cfg pool a it →
      (TestForBlock cfg pool a it).2.blockFinished = true ∧
      (TestForBlock cfg pool a it).1 = false) ∧
    (¬ marksFinished cfg pool a it →
      (TestForBlock cfg pool a it).2.blockFinished = a.blockFinished) := by
  unfold marksFinished sizeTestFails sigOpTestFails TestForBlock
  simp only
  split_ifs <;> simp_all

/-- C19, witness: 50 bytes below the cap the rejection of the 1000-byte entry 2 marks the
block finished. -/
theorem TestForBlock_blockFinished_witness :
    (TestForBlock twoMegabyteCfg threePool nearlyFull 2).2.blockFinished = true ∧
    (TestForBlock twoMegabyteCfg threePool nearlyFull 2).1 = false :=
  (TestForBlock_blockFinished twoMegabyteCfg threePool nearlyFull 2).1
    (by unfold marksFinished sizeTestFails sigOpTestFails; decide)

/-- C20: when the size test of `TestForBlock` fails with the running size within 1000
bytes of the cap, not within 100 bytes of it, and at most 50 near-cap rejections so far,
`lastFewTxs` grows by exactly one, `blockFinished` keeps its value and the test returns
false; in every other case `lastFewTxs` is unchanged; and `TestForBlock` never changes the
running size, sigops, fees, included set, transaction count or the three arrays. -/
theorem TestForBlock_lastFewTxs (cfg : Config) (pool : CTxMemPool)
    (a : LegacyBlockAssembler) (it : TxIter) :
    (countsNearCap cfg pool a it →
      (TestForBlock cfg pool a it).2.lastFewTxs = a.lastFewTxs + 1 ∧
      (TestForBlock cfg pool a it).2.blockFinished = a.blockFinished ∧
      (TestForBlock cfg pool a it).1 = false) ∧
    (¬ countsNearCap cfg pool a it →
      (TestForBlock cfg pool a it).2.lastFewTxs = a.lastFewTxs) ∧
    (TestForBlock cfg pool a it).2.nBlockSize = a.nBlockSize ∧
    (TestForBlock cfg pool a it).2.nBlockSigOps = a.nBlockSigOps ∧
    (TestForBlock cfg pool a it).2.mBlockFees = a.mBlockFees ∧
    (TestForBlock cfg pool a it).2.inBlock = a.inBlock ∧
    (TestForBlock cfg pool a it).2.nBlockTx = a.nBlockTx ∧
    (TestForBlock cfg pool a it).2.vtx = a.vtx ∧
    (TestForBlock cfg pool a it).2.vTxFees = a.vTxFees ∧
    (TestForBlock cfg pool a it).2.vTxSigOpsCount = a.vTxSigOpsCount := by
  refine ⟨?_, ?_, TestForBlock_frame cfg pool a it⟩
  · unfold countsNearCap sizeTestFails TestForBlock
    simp only
    split_ifs <;> simp_all
    omega
  · unfold countsNearCap sizeTestFails TestForBlock
    simp only
    split_ifs <;> simp_all

/-- C20, witness: 500 bytes below the cap the rejection of the 1000-byte entry 2 raises
`lastFewTxs` from 0 to 1 and leaves `blockFinished` unset. -/
theorem TestForBlock_lastFewTxs_witness :
    (TestForBlock twoMegabyteCfg threePool almostFull 2).2.lastFewTxs =
      almostFull.lastFewTxs + 1 ∧
    (TestForBlock twoMegabyteCfg threePool almostFull 2).2.blockFinished =
      almostFull.blockFinished ∧
    (TestForBlock twoMegabyteCfg threePool almostFull 2).1 = false :=
  (TestForBlock_lastFewTxs twoMegabyteCfg threePool almostFull 2).1
    (by unfold countsNearCap sizeTestFails; decide)

/-! ## The reservation of the priority phase -/

theorem addPriorityTxs_eq_loop (cfg : Config) (pool : CTxMemPool) (fuel : Nat)
    (a : LegacyBlockAssembler) (hpct : cfg.GetBlockPriorityPercentage ≠ 0) :
    addPriorityTxs cfg pool fuel a =
      ((addPriorityTxsLoop cfg pool (reservedPrioritySize cfg) fuel
          (addPriorityTxsInit pool a)).1,
        (addPriorityTxsLoop cfg pool (reservedPrioritySize cfg) fuel
          (addPriorityTxsInit pool a)).2.blk) := by
  unfold addPriorityTxs
  rw [if_neg hpct]
  rfl

/-- A pass of the priority loop that goes on to a further pass leaves the running size and
the transaction list as they were, or ends with a running size below the reservation. -/
theorem addPriorityTxsBody_next (cfg : Config) (pool : CTxMemPool) (n : Nat)
    (s s1 : PriorityState) (h : addPriorityTxsBody cfg pool n s = LoopStep.next s1) :
    (s1.blk.nBlockSize = s.blk.nBlockSize ∧ s1.blk.vtx = s.blk.vtx) ∨
      s1.blk.nBlockSize < n := by
  unfold addPriorityTxsBody at h
  split at h
  · cases h
  · rename_i front _
    simp only at h
    split at h
    · cases h
    · split at h
      · cases h; exact Or.inl ⟨rfl, rfl⟩
      · split at h
        · split at h
          · cases h
          · rename_i hbreak
            cases h
            right
            simp only
            have := not_or.1 hbreak
            omega
        · cases h
          left
          simp only
          have := TestForBlock_frame cfg pool s.blk front.2
          exact ⟨this.1, this.2.2.2.2.2.1⟩

theorem addPriorityTxsPasses_reservation (cfg : Config) (pool : CTxMemPool) (n : Nat)
    (vtx0 : List CTransactionRef) :
    ∀ (k : Nat) (s0 s : PriorityState),
      addPriorityTxsPasses cfg pool n k s0 = some s →
      (s0.blk.nBlockSize < n ∨ s0.blk.vtx = vtx0) →
      (s.blk.nBlockSize < n ∨ s.blk.vtx = vtx0) := by
  intro k
  induction k with
  | zero =>
    intro s0 s h h0
    simp only [addPriorityTxsPasses, Option.some.injEq] at h
    subst h
    exact h0
  | succ k ih =>
    intro s0 s h h0
    unfold addPriorityTxsPasses at h
    split at h
    · split at h
      · rename_i s1 heq
        refine ih s1 s h ?_
        rcases addPriorityTxsBody_next cfg pool n s0 s1 heq with ⟨h1, h2⟩ | h1
        · rcases h0 with h0 | h0
          · exact Or.inl (h1 ▸ h0)
          · exact Or.inr (h2.trans h0)
        · exact Or.inl h1
      · cases h
    · cases h

/-- C21 (as amended): with a priority percentage of 0 the priority phase returns the
assembler as it was; otherwise, with `R = nMaxGeneratedBlockSize * percentage / 100`,
every pass of the priority loop starts either before anything was added by the phase or at
a running size below `R`, so that nothing is added once an addition has brought the
running size to `R` or above; and when the phase starts below `R`, every pass starts
below `R`. -/
theorem addPriorityTxs_reservation (cfg : Config) (pool : CTxMemPool)
    (a : LegacyBlockAssembler) :
    (cfg.GetBlockPriorityPercentage = 0 →
      ∀ fuel, addPriorityTxs cfg pool fuel a = (Status.finished, a)) ∧
    (∀ k s, addPriorityTxsPasses cfg pool (reservedPrioritySize cfg) k
        (addPriorityTxsInit pool a) = some s →
      s.blk.nBlockSize < reservedPrioritySize cfg ∨ s.blk.vtx = a.vtx) ∧
    (a.nBlockSize < reservedPrioritySize cfg →
      ∀ k s, addPriorityTxsPasses cfg pool (reservedPrioritySize cfg) k
        (addPriorityTxsInit pool a) = some s →
      s.blk.nBlockSize < reservedPrioritySize cfg) := by
  refine ⟨?_, ?_, ?_⟩
  · intro h fuel
    unfold addPriorityTxs
    rw [if_pos h]
  · intro k s h
    exact addPriorityTxsPasses_reservation cfg pool _ a.vtx k _ s h (Or.inr rfl)
  · intro hlt k s h
    have := addPriorityTxsPasses_reservation cfg pool _ [] k _ s h (Or.inl hlt)
    rcases this with h1 | h1
    · exact h1
    · have h2 := addPriorityTxsPasses_reservation cfg pool (reservedPrioritySize cfg)
        (CTransactionRef.null :: s.blk.vtx) k _ s h (Or.inl hlt)
      rcases h2 with h2 | h2
      · exact h2
      · exact absurd h2 (by simp [h1])

/-- C21, witness: with a reservation of five percent of two megabytes the priority loop
over the three-entry pool makes two passes that go on; the third pass starts at a running
size below the reservation of 100000. -/
theorem addPriorityTxs_reservation_witness :
    reservedPrioritySize fivePercentCfg = 100000 ∧
    (addPriorityTxsPasses fivePercentCfg threePool (reservedPrioritySize fivePercentCfg) 2
        (addPriorityTxsInit threePool (startBlock freshAssembler))).isSome = true ∧
    (∀ s, addPriorityTxsPasses fivePercentCfg threePool (reservedPrioritySize fivePercentCfg) 2
        (addPriorityTxsInit threePool (startBlock freshAssembler)) = some s →
      s.blk.nBlockSize < reservedPrioritySize fivePercentCfg) :=
  ⟨by decide, by decide, fun s h =>
    (addPriorityTxs_reservation fivePercentCfg threePool (startBlock freshAssembler)).2.2
      (by decide) 2 s h⟩

/-- C21, counterexample: with a cap of 50000 bytes and one percent reserved, `R` is 500;
the phase starts at the running size 1000, already above `R`, and still adds entry 2. -/
theorem addPriorityTxs_adds_above_reservation :
    reservedPrioritySize onePercentCfg = 500 ∧
    (startBlock freshAssembler).nBlockSize = 1000 ∧
    (addPriorityTxs onePercentCfg threePool 9 (startBlock freshAssembler)).1 =
      Status.finished ∧
    (addPriorityTxs onePercentCfg threePool 9 (startBlock freshAssembler)).2.vtx =
      [CTransactionRef.null, CTransactionRef.pooled 2] := by
  decide

/-! ## The choice step of the package phase -/

theorem bestModified_eq_none
    (cmp : CTxMemPoolModifiedEntry → CTxMemPoolModifiedEntry → Bool)
    (l : List CTxMemPoolModifiedEntry) : bestModified cmp l = none ↔ l = [] := by
  cases l <;> simp [bestModified]

theorem foldl_best_mem (cmp : CTxMemPoolModifiedEntry → CTxMemPoolModifiedEntry → Bool) :
    ∀ (xs : List CTxMemPoolModifiedEntry) (x : CTxMemPoolModifiedEntry),
      xs.foldl (fun best y => if cmp y best then y else best) x ∈ x :: xs := by
  intro xs
  induction xs with
  | nil => intro x; simp
  | cons y ys ih =>
    intro x
    rw [List.foldl_cons]
    by_cases h : cmp y x = true
    · rw [if_pos h]
      exact List.mem_cons_of_mem _ (ih y)
    · rw [if_neg h]
      rcases List.mem_cons.1 (ih x) with h1 | h1
      · rw [h1]; exact List.mem_cons_self _ _
      · exact List.mem_cons_of_mem _ (List.mem_cons_of_mem _ h1)

theorem bestModified_mem (cmp : CTxMemPoolModifiedEntry → CTxMemPoolModifiedEntry → Bool)
    (l : List CTxMemPoolModifiedEntry) (m : CTxMemPoolModifiedEntry)
    (h : bestModified cmp l = some m) : m ∈ l := by
  cases l with
  | nil => simp [bestModified] at h
  | cons x xs =>
    simp only [bestModified, Option.some.injEq] at h
    rw [← h]
    exact foldl_best_mem cmp xs x

theorem StrictWeakOn.irrefl
    {cmp : CTxMemPoolModifiedEntry → CTxMemPoolModifiedEntry → Bool}
    {l : List CTxMemPoolModifiedEntry} (h : StrictWeakOn cmp l)
    (x : CTxMemPoolModifiedEntry) (hx : x ∈ l) : cmp x x = false := by
  cases hc : cmp x x with
  | false => rfl
  | true =>
    have := h.asymm x hx x hx hc
    rw [hc] at this
    exact this

theorem StrictWeakOn.trans
    {cmp : CTxMemPoolModifiedEntry → CTxMemPoolModifiedEntry → Bool}
    {l : List CTxMemPoolModifiedEntry} (h : StrictWeakOn cmp l)
    (x y z : CTxMemPoolModifiedEntry) (hx : x ∈ l) (hy : y ∈ l) (hz : z ∈ l)
    (hxy : cmp x y = true) (hyz : cmp y z = true) : cmp x z = true := by
  rcases h.negTrans x hx z hz y hy hxy with h1 | h1
  · exact h1
  · have := h.asymm y hy z hz hyz
    rw [h1] at this
    cases this

/-- The fold of `bestModified` ends at a record that no record passed over, and no record
of the list folded, precedes. -/
theorem foldl_best_min (cmp : CTxMemPoolModifiedEntry → CTxMemPoolModifiedEntry → Bool)
    (l : List CTxMemPoolModifiedEntry) (hord : StrictWeakOn cmp l) :
    ∀ (xs seen : List CTxMemPoolModifiedEntry) (x : CTxMemPoolModifiedEntry),
      x ∈ l → (∀ e ∈ seen, e ∈ l) → (∀ e ∈ xs, e ∈ l) →
      (∀ e ∈ seen, cmp e x = false) →
      ∀ e ∈ seen ++ xs,
        cmp e (xs.foldl (fun best y => if cmp y best then y else best) x) = false := by
  intro xs
  induction xs with
  | nil =>
    intro seen x _ _ _ hseen e he
    rw [List.append_nil] at he
    exact hseen e he
  | cons y ys ih =>
    intro seen x hx hsl hxs hseen e he
    have hy : y ∈ l := hxs y (List.mem_cons_self _ _)
    have hys : ∀ e ∈ ys, e ∈ l := fun e he => hxs e (List.mem_cons_of_mem _ he)
    have hmem : e ∈ (seen ++ [y]) ++ ys := by
      rw [List.append_assoc]
      exact he
    have hsl2 : ∀ e ∈ seen ++ [y], e ∈ l := by
      intro e he
      rcases List.mem_append.1 he with h | h
      · exact hsl e h
      · rw [List.mem_singleton.1 h]; exact hy
    rw [List.foldl_cons]
    by_cases hc : cmp y x = true
    · rw [if_pos hc]
      refine ih (seen ++ [y]) y hy hsl2 hys ?_ e hmem
      intro e1 he1
      rcases List.mem_append.1 he1 with h | h
      · cases hc1 : cmp e1 y with
        | false => rfl
        | true =>
          have := hord.trans e1 y x (hsl e1 h) hy hx hc1 hc
          rw [hseen e1 h] at this
          cases this
      · rw [List.mem_singleton.1 h]
        exact hord.irrefl y hy
    · rw [if_neg hc]
      refine ih (seen ++ [y]) x hx hsl2 hys ?_ e hmem
      intro e1 he1
      rcases List.mem_append.1 he1 with h | h
      · exact hseen e1 h
      · rw [List.mem_singleton.1 h]
        simpa using hc

theorem bestModified_min (cmp : CTxMemPoolModifiedEntry → CTxMemPoolModifiedEntry → Bool)
    (l big : List CTxMemPoolModifiedEntry) (hsub : ∀ e ∈ l, e ∈ big)
    (hord : StrictWeakOn cmp big) (m : CTxMemPoolModifiedEntry)
    (h : bestModified cmp l = some m) : ∀ e ∈ l, cmp e m = false := by
  cases l with
  | nil => simp [bestModified] at h
  | cons x xs =>
    simp only [bestModified, Option.some.injEq] at h
    rw [← h]
    have hx : x ∈ big := hsub x (List.mem_cons_self _ _)
    have := foldl_best_min cmp big hord xs [x] x hx
      (fun e he => by rw [List.mem_singleton.1 he]; exact hx)
      (fun e he => hsub e (List.mem_cons_of_mem _ he))
      (fun e he => by rw [List.mem_singleton.1 he]; exact hord.irrefl x hx)
    intro e he
    exact this e (by simpa using he)

theorem mem_choiceRecords_overlay (pool : CTxMemPool) (s : PackageState)
    (e : CTxMemPoolModifiedEntry) (he : e ∈ s.mapModifiedTx) : e ∈ choiceRecords pool s :=
  List.mem_append_left _ he

theorem mem_choiceRecords_primary (pool : CTxMemPool) (s : PackageState)
    (it : TxIter) (rest : List TxIter) (hmi : s.mi = it :: rest) :
    CTxMemPoolModifiedEntry.ofEntry pool it ∈ choiceRecords pool s := by
  unfold choiceRecords
  rw [hmi]
  exact List.mem_append_right _ (List.mem_singleton.2 rfl)

/-- C22: in a pass that reaches the choice step the best overlay entry is the first
record of the overlay's score index: a record of the overlay that no record of the overlay
precedes under `CompareModifiedEntry`. With the cursor exhausted it is chosen; otherwise it
is chosen exactly when the overlay is not empty and `CompareModifiedEntry` puts it strictly
before the record of the primary entry, and then the cursor stays; in the remaining case
the primary entry is chosen and the cursor moves by one. No record of the overlay, and not
the current primary entry, scores strictly better than the chosen package.
`CompareModifiedEntry` is taken to be a strict weak ordering of the records compared. -/
theorem choosePackage_spec (cfg : Config) (pool : CTxMemPool) (s : PackageState)
    (hord : StrictWeakOn cfg.CompareModifiedEntry (choiceRecords pool s)) :
    (bestModified cfg.CompareModifiedEntry s.mapModifiedTx = none ↔ s.mapModifiedTx = []) ∧
    (∀ m, bestModified cfg.CompareModifiedEntry s.mapModifiedTx = some m →
      m ∈ s.mapModifiedTx ∧
      ∀ e ∈ s.mapModifiedTx, cfg.CompareModifiedEntry e m = false) ∧
    (s.mi = [] →
      ∀ m, bestModified cfg.CompareModifiedEntry s.mapModifiedTx = some m →
        choosePackage cfg pool s = some { iter := m.iter, modit := some m, mi := [] }) ∧
    (∀ it rest, s.mi = it :: rest →
      (∀ m, bestModified cfg.CompareModifiedEntry s.mapModifiedTx = some m →
        cfg.CompareModifiedEntry m (CTxMemPoolModifiedEntry.ofEntry pool it) = true →
        choosePackage cfg pool s =
          some { iter := m.iter, modit := some m, mi := it :: rest }) ∧
      ((∀ m, bestModified cfg.CompareModifiedEntry s.mapModifiedTx = some m →
          cfg.CompareModifiedEntry m (CTxMemPoolModifiedEntry.ofEntry pool it) = false) →
        choosePackage cfg pool s = some { iter := it, modit := none, mi := rest })) ∧
    (∀ c, choosePackage cfg pool s = some c →
      (∀ e ∈ s.mapModifiedTx, cfg.CompareModifiedEntry e (c.record pool) = false) ∧
      (∀ it rest, s.mi = it :: rest →
        cfg.CompareModifiedEntry (CTxMemPoolModifiedEntry.ofEntry pool it) (c.record pool)
          = false)) := by
  have hmin := bestModified_min cfg.CompareModifiedEntry s.mapModifiedTx
    (choiceRecords pool s) (mem_choiceRecords_overlay pool s) hord
  have hov := mem_choiceRecords_overlay pool s
  refine ⟨bestModified_eq_none _ _, fun m hm => ⟨bestModified_mem _ _ m hm, hmin m hm⟩,
    ?_, ?_, ?_⟩
  · intro hmi m hm
    unfold choosePackage
    rw [hmi, hm]
  · intro it rest hmi
    constructor
    · intro m hm hcmp
      unfold choosePackage
      rw [hmi, hm]
      simp only
      rw [if_pos hcmp]
    · intro hno
      unfold choosePackage
      rw [hmi]
      cases hm : bestModified cfg.CompareModifiedEntry s.mapModifiedTx with
      | none => rfl
      | some m =>
        simp only
        rw [if_neg (by simp [hno m hm])]
  · intro c hc
    have hc0 := hc
    unfold choosePackage at hc
    cases hmi : s.mi with
    | nil =>
      rw [hmi] at hc
      cases hm : bestModified cfg.CompareModifiedEntry s.mapModifiedTx with
      | none => rw [hm] at hc; cases hc
      | some m =>
        rw [hm] at hc
        simp only [Option.some.injEq] at hc
        subst hc
        exact ⟨hmin m hm, fun it rest h => by cases h⟩
    | cons it rest =>
      have hP := mem_choiceRecords_primary pool s it rest hmi
      rw [hmi] at hc
      cases hm : bestModified cfg.CompareModifiedEntry s.mapModifiedTx with
      | none =>
        rw [hm] at hc
        simp only [Option.some.injEq] at hc
        subst hc
        refine ⟨?_, ?_⟩
        · intro e he
          rw [(bestModified_eq_none _ _).1 hm] at he
          cases he
        · intro it1 rest1 h
          cases h
          exact hord.irrefl _ hP
      | some m =>
        have hmL := hov m (bestModified_mem _ _ m hm)
        rw [hm] at hc
        simp only at hc
        by_cases hcmp : cfg.CompareModifiedEntry m
            (CTxMemPoolModifiedEntry.ofEntry pool it) = true
        · rw [if_pos hcmp] at hc
          simp only [Option.some.injEq] at hc
          subst hc
          refine ⟨hmin m hm, ?_⟩
          intro it1 rest1 h
          cases h
          exact hord.asymm _ hmL _ hP hcmp
        · rw [if_neg hcmp] at hc
          simp only [Option.some.injEq] at hc
          subst hc
          refine ⟨?_, ?_⟩
          · intro e he
            show cfg.CompareModifiedEntry e (CTxMemPoolModifiedEntry.ofEntry pool it) = false
            cases hce : cfg.CompareModifiedEntry e
                (CTxMemPoolModifiedEntry.ofEntry pool it) with
            | false => rfl
            | true =>
              rcases hord.negTrans e (hov e he) m hmL _ hP hce with h1 | h1
              · rw [hmin m hm e he] at h1
                cases h1
              · exact absurd h1 hcmp
          · intro it1 rest1 h
            cases h
            exact hord.irrefl _ hP

theorem compareByFeeRate_strict (x y : CTxMemPoolModifiedEntry)
    (h : compareByFeeRate x y = true) : compareByFeeRate y x = false := by
  unfold compareByFeeRate at h ⊢
  simp only [decide_eq_true_eq, decide_eq_false_iff_not] at h ⊢
  generalize (y.nSizeWithAncestors : Int) * x.nModFeesWithAncestors = A at h ⊢
  generalize (x.nSizeWithAncestors : Int) * y.nModFeesWithAncestors = B at h ⊢
  rintro (hc | ⟨hc1, hc2⟩)
  · rcases h with h | ⟨h1, _⟩
    · omega
    · omega
  · rcases h with h | ⟨_, h2⟩
    · omega
    · exact Nat.lt_asymm h2 hc2

/-- C22, witness: the state `fanState` is reached after three passes over `fanPool`; its
overlay holds the records of entries 2 and 3 in this order, the record of entry 3 is the
best one, beats the primary entry 4 and is chosen, and the cursor stays at entry 4. -/
theorem choosePackage_spec_witness :
    addPackageTxsPasses twoMegabyteCfg fanPool 3
        (addPackageTxsInit fanPool (startBlock freshAssembler)) = some fanState ∧
    StrictWeakOn twoMegabyteCfg.CompareModifiedEntry (choiceRecords fanPool fanState) ∧
    fanState.mapModifiedTx = [fanRecordTwo, fanRecordThree] ∧
    twoMegabyteCfg.CompareModifiedEntry fanRecordThree fanRecordTwo = true ∧
    choosePackage twoMegabyteCfg fanPool fanState =
      some { iter := 3, modit := some fanRecordThree, mi := [4] } :=
  ⟨by decide, ⟨by decide, by decide⟩, rfl, by decide,
    ((choosePackage_spec twoMegabyteCfg fanPool fanState
        ⟨by decide, by decide⟩).2.2.2.1 4 [] rfl).1 fanRecordThree (by decide) (by decide)⟩

/-! ## The included set is closed under parents -/

theorem ParentClosed_foldl (pool : CTxMemPool) (b : LegacyBlockAssembler) (l : List TxIter)
    (hb : ParentClosed pool b)
    (hpar : ∀ x ∈ l, ∀ p ∈ pool.GetMemPoolParents x, p ∈ b.inBlock ∨ p ∈ l)
    (hanc : ∀ x ∈ l, ∀ y ∈ pool.CalculateMemPoolAncestors x, y ∈ b.inBlock ∨ y ∈ l) :
    ParentClosed pool (l.foldl (AddToBlock pool) b) := by
  constructor
  · intro x hx p hp
    rw [foldl_AddToBlock_inBlock] at hx ⊢
    rcases hx with h | h
    · exact Or.inl (hb.1 x h p hp)
    · exact hpar x h p hp
  · intro x hx y hy
    rw [foldl_AddToBlock_inBlock] at hx ⊢
    rcases hx with h | h
    · exact Or.inl (hb.2 x h y hy)
    · exact hanc x h y hy

theorem not_isStillDependent (pool : CTxMemPool) (b : LegacyBlockAssembler) (iter : TxIter)
    (h : isStillDependent pool b iter = false) :
    ∀ p ∈ pool.GetMemPoolParents iter, p ∈ b.inBlock := by
  intro p hp
  by_contra hcon
  have : isStillDependent pool b iter = true := by
    unfold isStillDependent
    rw [List.any_eq_true]
    exact ⟨p, hp, by simpa using hcon⟩
  rw [this] at h
  cases h

theorem ParentClosed_priority (cfg : Config) (pool : CTxMemPool)
    (hc : AncestorsConsistent pool) (b b1 : LegacyBlockAssembler)
    (hb : ParentClosed pool b) (he : PriorityEffect cfg pool b b1) :
    ParentClosed pool b1 := by
  rcases he with ⟨f, n, rfl⟩ | ⟨iter, _, hdep, _, rfl⟩
  · exact hb
  · have hpar := not_isStillDependent pool b iter hdep
    have := ParentClosed_foldl pool b [iter] hb
      (by
        intro x hx p hp
        rw [List.mem_singleton] at hx
        subst hx
        exact Or.inl (hpar p hp))
      (by
        intro x hx y hy
        rw [List.mem_singleton] at hx
        subst hx
        left
        rcases hc.parent x y hy with h | ⟨p, hp, hyp⟩
        · exact hpar y h
        · exact hb.2 p (hpar p hp) y hyp)
    simpa using this

theorem ParentClosed_package (cfg : Config) (pool : CTxMemPool)
    (hc : AncestorsConsistent pool)
    (hp : ∀ b, ∀ p ∈ pool.GetMemPoolParents b, p ∈ pool.CalculateMemPoolAncestors b)
    (b b1 : LegacyBlockAssembler)
    (hb : ParentClosed pool b) (he : PackageEffect cfg pool b b1) :
    ParentClosed pool b1 := by
  rcases he with rfl | ⟨iter, _, _, rfl⟩
  · exact hb
  · have key : ∀ x ∈ SortForBlock pool (packageOf pool b iter),
        ∀ y ∈ pool.CalculateMemPoolAncestors x,
          y ∈ b.inBlock ∨ y ∈ SortForBlock pool (packageOf pool b iter) := by
      intro x hx y hy
      rw [mem_SortForBlock, mem_packageOf] at hx
      have hyiter : y ∈ pool.CalculateMemPoolAncestors iter := by
        rcases hx with rfl | ⟨h, _⟩
        · exact hy
        · exact hc.trans iter x h y hy
      by_cases hyb : y ∈ b.inBlock
      · exact Or.inl hyb
      · right
        rw [mem_SortForBlock, mem_packageOf]
        exact Or.inr ⟨hyiter, hyb⟩
    exact ParentClosed_foldl pool b _ hb (fun x hx p hpp => key x hx p (hp x p hpp)) key

/-- C23: over a pool whose parent links and ancestor sets agree, the included set
`inBlock` contains every in-pool parent and every in-pool ancestor of each of its members
when the build starts, after every pass of the priority loop and of the package loop
(hence after each addition and each appended package), whenever selection stops and after
`CreateNewBlock`. -/
theorem inBlock_closed_under_parents (cfg : Config) (pool : CTxMemPool)
    (hc : AncestorsConsistent pool)
    (hp : ∀ b, ∀ p ∈ pool.GetMemPoolParents b, p ∈ pool.CalculateMemPoolAncestors b)
    (a : LegacyBlockAssembler) (pindexPrevNew pindexPrev : Nat) :
    ParentClosed pool (startBlock a) ∧
    (∀ n s, ParentClosed pool s.blk →
      ParentClosed pool (addPriorityTxsBody cfg pool n s).state.blk) ∧
    (∀ s, ParentClosed pool s.blk →
      ParentClosed pool (addPackageTxsBody cfg pool s).state.blk) ∧
    (∀ fuel, ParentClosed pool (selectTransactions cfg pool fuel a).2) ∧
    (∀ fuel, ParentClosed pool
      (CreateNewBlock cfg pool fuel a pindexPrevNew pindexPrev).2.2) := by
  have hstart : ParentClosed pool (startBlock a) := by
    constructor <;> intro x hx <;> simp [startBlock, resetBlock] at hx
  have hsel : ∀ fuel, ParentClosed pool (selectTransactions cfg pool fuel a).2 := fun fuel =>
    selectTransactions_inv cfg pool (ParentClosed pool)
      (ParentClosed_priority cfg pool hc) (ParentClosed_package cfg pool hc hp) fuel a hstart
  refine ⟨hstart, ?_, ?_, hsel, ?_⟩
  · intro n s hs
    exact ParentClosed_priority cfg pool hc _ _ hs (addPriorityTxsBody_effect cfg pool n s)
  · intro s hs
    exact ParentClosed_package cfg pool hc hp _ _ hs (addPackageTxsBody_effect cfg pool s)
  · intro fuel
    rcases CreateNewBlock_assembler cfg pool fuel a pindexPrevNew pindexPrev with
      ⟨_, h⟩ | ⟨_, h, _⟩
    · rw [h]; exact hsel fuel
    · rw [h]; exact hsel fuel

theorem threePool_parents_are_ancestors :
    ∀ b, ∀ p ∈ threePool.GetMemPoolParents b, p ∈ threePool.CalculateMemPoolAncestors b := by
  intro b p h
  simp only [threePool] at h ⊢
  split at h
  · rename_i hb
    rw [if_pos hb]
    exact h
  · cases h

/-- C23, witness: after the build over the three-entry pool the parents 1 and 2 of the
included entry 3 are included. -/
theorem inBlock_closed_under_parents_witness :
    (3 ∈ (selectTransactions twoMegabyteCfg threePool 9 freshAssembler).2.inBlock) ∧
    (∀ p ∈ threePool.GetMemPoolParents 3,
      p ∈ (selectTransactions twoMegabyteCfg threePool 9 freshAssembler).2.inBlock) :=
  ⟨by decide,
    ((inBlock_closed_under_parents twoMegabyteCfg threePool threePool_consistent
      threePool_parents_are_ancestors freshAssembler 7 0).2.2.2.1 9).1 3 (by decide)⟩

/-! ## No entry is included twice -/

theorem setInsert_nodup (x : TxIter) (s : List TxIter) (h : s.Nodup) :
    (setInsert x s).Nodup := by
  unfold setInsert
  split
  · exact h
  · rename_i hx
    exact (List.perm_orderedInsert _ x s).nodup_iff.2 (List.nodup_cons.2 ⟨hx, h⟩)

theorem foldl_AddToBlock_inBlock_nodup (pool : CTxMemPool) (l : List TxIter) :
    ∀ b : LegacyBlockAssembler, b.inBlock.Nodup →
      (l.foldl (AddToBlock pool) b).inBlock.Nodup := by
  induction l with
  | nil => intro b hb; exact hb
  | cons x xs ih =>
    intro b hb
    rw [List.foldl_cons]
    exact ih _ (setInsert_nodup x b.inBlock hb)

theorem foldl_AddToBlock_nBlockTx (pool : CTxMemPool) (l : List TxIter) :
    ∀ b : LegacyBlockAssembler, b.nBlockTx < UINT64_MOD →
      (l.foldl (AddToBlock pool) b).nBlockTx = (b.nBlockTx + l.length) % UINT64_MOD := by
  induction l with
  | nil => intro b hb; simp; exact (Nat.mod_eq_of_lt hb).symm
  | cons x xs ih =>
    intro b _
    rw [List.foldl_cons, ih _ (by simp only [AddToBlock]; exact u64add_lt _ _)]
    simp only [AddToBlock, u64add, List.length_cons]
    rw [Nat.mod_add_mod]
    congr 1
    omega

theorem AddedFresh_of_nodup (pool : CTxMemPool) (b : LegacyBlockAssembler) (l : List TxIter)
    (hnew : ∀ x ∈ l, x ∉ b.inBlock) (hnd : l.Nodup) : AddedFresh pool b l := by
  intro l1 x l2 hl hmem
  rw [foldl_AddToBlock_inBlock] at hmem
  rw [hl] at hnew hnd
  rcases hmem with h | h
  · exact hnew x (by simp) h
  · have := List.nodup_append.1 hnd
    exact this.2.2 h (List.mem_cons_self _ _) 

theorem DistinctInv_foldl (pool : CTxMemPool) (b : LegacyBlockAssembler) (l : List TxIter)
    (hb : DistinctInv b) (hnew : ∀ x ∈ l, x ∉ b.inBlock) (hnd : l.Nodup) :
    DistinctInv (l.foldl (AddToBlock pool) b) := by
  obtain ⟨h1, h2, h3, h4, h5, h6, h7⟩ := hb
  have hinc : includedEntries (l.foldl (AddToBlock pool) b).vtx = includedEntries b.vtx ++ l := by
    rw [foldl_AddToBlock_vtx, includedEntries_append _ _ h1]
  have hnd2 : (includedEntries b.vtx ++ l).Nodup := by
    rw [List.nodup_append]
    refine ⟨h3, hnd, ?_⟩
    intro x hx hxl
    exact hnew x hxl ((h4 x).1 hx)
  have hmem : ∀ x, x ∈ includedEntries b.vtx ++ l ↔
      x ∈ (l.foldl (AddToBlock pool) b).inBlock := by
    intro x
    rw [foldl_AddToBlock_inBlock, List.mem_append, h4]
  have hnd3 := foldl_AddToBlock_inBlock_nodup pool l b h5
  have hlen : (l.foldl (AddToBlock pool) b).inBlock.length =
      (includedEntries b.vtx ++ l).length :=
    ((List.perm_ext_iff_of_nodup hnd3 hnd2).2 (fun x => (hmem x).symm)).length_eq
  unfold DistinctInv
  rw [hinc]
  refine ⟨?_, ?_, hnd2, hmem, hnd3, hlen, ?_⟩
  · rw [foldl_AddToBlock_vtx]; simp [h1]
  · rw [foldl_AddToBlock_vtx, List.tail_append_of_ne_nil h1, h2, List.map_append]
  · rw [foldl_AddToBlock_nBlockTx pool l b (by rw [h7]; exact Nat.mod_lt _ (by decide)),
      hlen, List.length_append, h7, h6, Nat.mod_add_mod]

theorem packageOf_nodup (pool : CTxMemPool)
    (hset : ∀ x, (pool.CalculateMemPoolAncestors x).Nodup)
    (b : LegacyBlockAssembler) (iter : TxIter) : (packageOf pool b iter).Nodup := by
  unfold packageOf onlyUnconfirmed
  exact setInsert_nodup _ _ ((hset iter).filter _)

theorem package_fresh (pool : CTxMemPool)
    (hset : ∀ x, (pool.CalculateMemPoolAncestors x).Nodup)
    (b : LegacyBlockAssembler) (iter : TxIter) (hnot : iter ∉ b.inBlock) :
    (∀ x ∈ SortForBlock pool (packageOf pool b iter), x ∉ b.inBlock) ∧
    (SortForBlock pool (packageOf pool b iter)).Nodup := by
  constructor
  · intro x hx
    rw [mem_SortForBlock, mem_packageOf] at hx
    rcases hx with rfl | ⟨_, h⟩
    · exact hnot
    · exact h
  · exact (SortForBlock_perm pool _).nodup_iff.2 (packageOf_nodup pool hset b iter)

theorem DistinctInv_priority (cfg : Config) (pool : CTxMemPool)
    (b b1 : LegacyBlockAssembler) (hb : DistinctInv b)
    (he : PriorityEffect cfg pool b b1) : DistinctInv b1 := by
  rcases he with ⟨f, n, rfl⟩ | ⟨iter, hnot, _, _, rfl⟩
  · exact hb
  · have := DistinctInv_foldl pool b [iter] hb
      (by intro x hx; rw [List.mem_singleton] at hx; subst hx; exact hnot)
      (List.nodup_singleton _)
    simpa using this

theorem DistinctInv_package (cfg : Config) (pool : CTxMemPool)
    (hset : ∀ x, (pool.CalculateMemPoolAncestors x).Nodup)
    (b b1 : LegacyBlockAssembler) (hb : DistinctInv b)
    (he : PackageEffect cfg pool b b1) : DistinctInv b1 := by
  rcases he with rfl | ⟨iter, hnot, _, rfl⟩
  · exact hb
  · have hf := package_fresh pool hset b iter hnot
    exact DistinctInv_foldl pool b _ hb hf.1 hf.2

theorem DistinctInv_finalizeBlock (cfg : Config) (b : LegacyBlockAssembler)
    (hb : DistinctInv b) : DistinctInv (finalizeBlock cfg b) := by
  obtain ⟨h1, h2, h3, h4, h5, h6, h7⟩ := hb
  unfold DistinctInv finalizeBlock
  simp only [includedEntries_set_zero, tail_set_zero]
  refine ⟨?_, h2, h3, h4, h5, h6, h7⟩
  intro h
  exact h1 (by simpa using h)

/-- C24: with the pool's ancestor sets free of repetitions, slots `1..` of `vtx` hold
pairwise distinct pool entries, which are exactly the members of `inBlock`, and `nBlockTx`
is their number (in 64-bit arithmetic): this holds when the build starts, after every pass
of the priority loop and of the package loop, whenever selection stops and after
`CreateNewBlock`; and in every pass each call of `AddToBlock` is made on an entry that is
not in `inBlock` at that moment. -/
theorem no_entry_included_twice (cfg : Config) (pool : CTxMemPool)
    (hset : ∀ x, (pool.CalculateMemPoolAncestors x).Nodup)
    (a : LegacyBlockAssembler) (pindexPrevNew pindexPrev : Nat) :
    DistinctInv (startBlock a) ∧
    (∀ n s, DistinctInv s.blk → DistinctInv (addPriorityTxsBody cfg pool n s).state.blk) ∧
    (∀ s, DistinctInv s.blk → DistinctInv (addPackageTxsBody cfg pool s).state.blk) ∧
    (∀ n s,
      (∃ f k, (addPriorityTxsBody cfg pool n s).state.blk =
        { s.blk with blockFinished := f, lastFewTxs := k }) ∨
      ∃ iter, iter ∉ s.blk.inBlock ∧
        (addPriorityTxsBody cfg pool n s).state.blk = AddToBlock pool s.blk iter) ∧
    (∀ s, (addPackageTxsBody cfg pool s).state.blk = s.blk ∨
      ∃ l, (addPackageTxsBody cfg pool s).state.blk = l.foldl (AddToBlock pool) s.blk ∧
        AddedFresh pool s.blk l) ∧
    (∀ fuel, DistinctInv (selectTransactions cfg pool fuel a).2) ∧
    (∀ fuel, DistinctInv (CreateNewBlock cfg pool fuel a pindexPrevNew pindexPrev).2.2) := by
  have hstart : DistinctInv (startBlock a) := by
    unfold DistinctInv
    simp [startBlock, resetBlock, includedEntries]
  have hsel : ∀ fuel, DistinctInv (selectTransactions cfg pool fuel a).2 := fun fuel =>
    selectTransactions_inv cfg pool DistinctInv
      (DistinctInv_priority cfg pool) (DistinctInv_package cfg pool hset) fuel a hstart
  refine ⟨hstart, ?_, ?_, ?_, ?_, hsel, ?_⟩
  · intro n s hs
    exact DistinctInv_priority cfg pool _ _ hs (addPriorityTxsBody_effect cfg pool n s)
  · intro s hs
    exact DistinctInv_package cfg pool hset _ _ hs (addPackageTxsBody_effect cfg pool s)
  · intro n s
    rcases addPriorityTxsBody_effect cfg pool n s with h | ⟨iter, hnot, _, _, h⟩
    · exact Or.inl h
    · exact Or.inr ⟨iter, hnot, h⟩
  · intro s
    rcases addPackageTxsBody_effect cfg pool s with h | ⟨iter, hnot, _, h⟩
    · exact Or.inl h
    · have hf := package_fresh pool hset s.blk iter hnot
      exact Or.inr ⟨_, h, AddedFresh_of_nodup pool s.blk _ hf.1 hf.2⟩
  · intro fuel
    rcases CreateNewBlock_assembler cfg pool fuel a pindexPrevNew pindexPrev with
      ⟨_, h⟩ | ⟨_, h, _⟩
    · rw [h]; exact DistinctInv_finalizeBlock cfg _ (hsel fuel)
    · rw [h]; exact hsel fuel

theorem threePool_ancestor_sets : ∀ x, (threePool.CalculateMemPoolAncestors x).Nodup := by
  intro x
  simp only [threePool]
  split <;> decide

/-- C24, witness: the build over the three-entry pool records the three entries once each
and counts three transactions. -/
theorem no_entry_included_twice_witness :
    includedEntries (selectTransactions twoMegabyteCfg threePool 9 freshAssembler).2.vtx =
      [1, 2, 3] ∧
    (selectTransactions twoMegabyteCfg threePool 9 freshAssembler).2.nBlockTx = 3 ∧
    DistinctInv (selectTransactions twoMegabyteCfg threePool 9 freshAssembler).2 :=
  ⟨by decide, by decide,
    (no_entry_included_twice twoMegabyteCfg threePool threePool_ancestor_sets
      freshAssembler 7 0).2.2.2.2.2.1 9⟩

/-! ## The states of the selection loops -/

theorem addPackageTxsLoop_state (cfg : Config) (pool : CTxMemPool)
    (P : PackageState → Prop)
    (hbody : ∀ s, P s → P (addPackageTxsBody cfg pool s).state)
    (hassert : ∀ s, P s → ∀ s1, addPackageTxsBody cfg pool s ≠ LoopStep.assertFailed s1) :
    ∀ (fuel : Nat) (s : PackageState), P s →
      P (addPackageTxsLoop cfg pool fuel s).2 ∧
      (addPackageTxsLoop cfg pool fuel s).1 ≠ Status.assertFailed := by
  intro fuel
  induction fuel with
  | zero =>
    intro s hs
    unfold addPackageTxsLoop
    split <;> exact ⟨hs, by simp⟩
  | succ k ih =>
    intro s hs
    rw [addPackageTxsLoop_succ]
    have h1 := hbody s hs
    have h2 := hassert s hs
    split
    · split
      · rename_i s1 heq; rw [heq] at h1; exact ih s1 h1
      · rename_i s1 heq; rw [heq] at h1; exact ⟨h1, by simp⟩
      · rename_i s1 heq; exact absurd heq (h2 s1)
    · exact ⟨hs, by simp⟩

theorem addPriorityTxsLoop_succ (cfg : Config) (pool : CTxMemPool) (n fuel : Nat)
    (s : PriorityState) :
    addPriorityTxsLoop cfg pool n (fuel + 1) s =
      if priorityLoopGuard s then
        match addPriorityTxsBody cfg pool n s with
        | LoopStep.next s1 => addPriorityTxsLoop cfg pool n fuel s1
        | LoopStep.stop s1 => (Status.finished, s1)
        | LoopStep.assertFailed s1 => (Status.assertFailed, s1)
      else (Status.finished, s) := rfl

theorem addPriorityTxsLoop_state (cfg : Config) (pool : CTxMemPool) (n : Nat)
    (P : PriorityState → Prop)
    (hbody : ∀ s, P s → P (addPriorityTxsBody cfg pool n s).state)
    (hassert : ∀ s, P s → ∀ s1, addPriorityTxsBody cfg pool n s ≠ LoopStep.assertFailed s1) :
    ∀ (fuel : Nat) (s : PriorityState), P s →
      P (addPriorityTxsLoop cfg pool n fuel s).2 ∧
      (addPriorityTxsLoop cfg pool n fuel s).1 ≠ Status.assertFailed := by
  intro fuel
  induction fuel with
  | zero =>
    intro s hs
    unfold addPriorityTxsLoop
    split <;> exact ⟨hs, by simp⟩
  | succ k ih =>
    intro s hs
    rw [addPriorityTxsLoop_succ]
    have h1 := hbody s hs
    have h2 := hassert s hs
    split
    · split
      · rename_i s1 heq; rw [heq] at h1; exact ih s1 h1
      · rename_i s1 heq; rw [heq] at h1; exact ⟨h1, by simp⟩
      · rename_i s1 heq; exact absurd heq (h2 s1)
    · exact ⟨hs, by simp⟩

/-- A loop whose passes, as long as they go on, lower a measure ends within as many
passes as the measure counts. -/
theorem addPackageTxsLoop_fuel (cfg : Config) (pool : CTxMemPool)
    (P : PackageState → Prop) (μ : PackageState → Nat)
    (hbody : ∀ s s1, P s → addPackageTxsBody cfg pool s = LoopStep.next s1 → P s1)
    (hdec : ∀ s s1, P s → addPackageTxsBody cfg pool s = LoopStep.next s1 → μ s1 < μ s) :
    ∀ (fuel : Nat) (s : PackageState), P s → μ s < fuel →
      (addPackageTxsLoop cfg pool fuel s).1 ≠ Status.outOfFuel := by
  intro fuel
  induction fuel with
  | zero => intro s _ h; omega
  | succ k ih =>
    intro s hs hlt
    rw [addPackageTxsLoop_succ]
    split
    · split
      · rename_i s1 heq
        exact ih s1 (hbody s s1 hs heq) (by have := hdec s s1 hs heq; omega)
      · simp
      · simp
    · simp

theorem addPriorityTxsLoop_fuel (cfg : Config) (pool : CTxMemPool) (n : Nat)
    (μ : PriorityState → Nat)
    (hdec : ∀ s s1, addPriorityTxsBody cfg pool n s = LoopStep.next s1 → μ s1 < μ s) :
    ∀ (fuel : Nat) (s : PriorityState), μ s < fuel →
      (addPriorityTxsLoop cfg pool n fuel s).1 ≠ Status.outOfFuel := by
  intro fuel
  induction fuel with
  | zero => intro s h; omega
  | succ k ih =>
    intro s hlt
    rw [addPriorityTxsLoop_succ]
    split
    · split
      · rename_i s1 heq
        exact ih s1 (by have := hdec s s1 heq; omega)
      · simp
      · simp
    · simp

theorem foldl_front_mem (cmp : Int × TxIter → Int × TxIter → Bool) :
    ∀ (xs : List (Int × TxIter)) (x : Int × TxIter),
      xs.foldl (fun best y => if cmp best y then y else best) x ∈ x :: xs := by
  intro xs
  induction xs with
  | nil => intro x; simp
  | cons y ys ih =>
    intro x
    rw [List.foldl_cons]
    by_cases h : cmp x y = true
    · rw [if_pos h]
      exact List.mem_cons_of_mem _ (ih y)
    · rw [if_neg h]
      rcases List.mem_cons.1 (ih x) with h1 | h1
      · rw [h1]; exact List.mem_cons_self _ _
      · exact List.mem_cons_of_mem _ (List.mem_cons_of_mem _ h1)

theorem heapFront_mem (cmp : Int × TxIter → Int × TxIter → Bool)
    (l : List (Int × TxIter)) (front : Int × TxIter)
    (h : heapFront cmp l = some front) : front ∈ l := by
  cases l with
  | nil => simp [heapFront] at h
  | cons x xs =>
    simp only [heapFront, Option.some.injEq] at h
    rw [← h]
    exact foldl_front_mem cmp xs x

/-- The five ways in which a pass of the priority loop that pops an entry ends. -/
theorem addPriorityTxsBody_cases (cfg : Config) (pool : CTxMemPool) (n : Nat)
    (s : PriorityState) :
    addPriorityTxsBody cfg pool n s = LoopStep.stop s ∨
    ∃ front, front ∈ s.vecPriority ∧
      ((front.2 ∈ s.blk.inBlock ∧
          addPriorityTxsBody cfg pool n s =
            LoopStep.assertFailed { s with vecPriority := s.vecPriority.erase front }) ∨
        (front.2 ∉ s.blk.inBlock ∧
          addPriorityTxsBody cfg pool n s =
            LoopStep.next
              { s with
                vecPriority := s.vecPriority.erase front
                waitPriMap := waitInsert s.waitPriMap front.2 front.1 }) ∨
        (front.2 ∉ s.blk.inBlock ∧
          addPriorityTxsBody cfg pool n s =
            LoopStep.stop
              { s with
                blk := AddToBlock pool s.blk front.2
                vecPriority := s.vecPriority.erase front }) ∨
        (front.2 ∉ s.blk.inBlock ∧
          addPriorityTxsBody cfg pool n s =
            LoopStep.next
              { blk := AddToBlock pool s.blk front.2
                vecPriority := ((pool.GetMemPoolChildren front.2).foldl promoteChild
                  (s.vecPriority.erase front, s.waitPriMap)).1
                waitPriMap := ((pool.GetMemPoolChildren front.2).foldl promoteChild
                  (s.vecPriority.erase front, s.waitPriMap)).2 }) ∨
        (front.2 ∉ s.blk.inBlock ∧ ∃ f k,
          addPriorityTxsBody cfg pool n s =
            LoopStep.next
              { s with
                blk := { s.blk with blockFinished := f, lastFewTxs := k }
                vecPriority := s.vecPriority.erase front })) := by
  unfold addPriorityTxsBody
  split
  · exact Or.inl rfl
  · rename_i front hfront
    right
    refine ⟨front, heapFront_mem _ _ _ hfront, ?_⟩
    simp only
    by_cases h1 : front.2 ∈ s.blk.inBlock
    · rw [if_pos h1]; exact Or.inl ⟨h1, rfl⟩
    · rw [if_neg h1]
      by_cases h2 : isStillDependent pool s.blk front.2 = true
      · rw [if_pos h2]; exact Or.inr (Or.inl ⟨h1, rfl⟩)
      · rw [if_neg h2]
        by_cases h3 : (TestForBlock cfg pool s.blk front.2).1 = true
        · rw [if_pos h3]
          have hb := (TestForBlock_true cfg pool s.blk front.2 h3).1
          rw [hb]
          split
          · exact Or.inr (Or.inr (Or.inl ⟨h1, rfl⟩))
          · exact Or.inr (Or.inr (Or.inr (Or.inl ⟨h1, rfl⟩)))
        · rw [if_neg h3]
          refine Or.inr (Or.inr (Or.inr (Or.inr ⟨h1,
            (TestForBlock cfg pool s.blk front.2).2.blockFinished,
            (TestForBlock cfg pool s.blk front.2).2.lastFewTxs, ?_⟩)))
          rw [← TestForBlock_snd]

/-- The package chosen by the choice step is the first record of the overlay's score
index, with the cursor unmoved, or the entry at the cursor, with the cursor moved on. -/
theorem choosePackage_cases (cfg : Config) (pool : CTxMemPool) (s : PackageState)
    (c : PackageChoice) (h : choosePackage cfg pool s = some c) :
    (∃ m, m ∈ s.mapModifiedTx ∧ c = { iter := m.iter, modit := some m, mi := s.mi }) ∨
    (∃ it rest, s.mi = it :: rest ∧ c = { iter := it, modit := none, mi := rest }) := by
  unfold choosePackage at h
  cases hmi : s.mi with
  | nil =>
    rw [hmi] at h
    cases hm : bestModified cfg.CompareModifiedEntry s.mapModifiedTx with
    | none => rw [hm] at h; cases h
    | some m =>
      rw [hm] at h
      simp only [Option.some.injEq] at h
      exact Or.inl ⟨m, bestModified_mem _ _ _ hm, h.symm⟩
  | cons it rest =>
    rw [hmi] at h
    cases hm : bestModified cfg.CompareModifiedEntry s.mapModifiedTx with
    | none =>
      rw [hm] at h
      simp only [Option.some.injEq] at h
      exact Or.inr ⟨it, rest, rfl, h.symm⟩
    | some m =>
      rw [hm] at h
      simp only at h
      split at h
      · simp only [Option.some.injEq] at h
        exact Or.inl ⟨m, bestModified_mem _ _ _ hm, h.symm⟩
      · simp only [Option.some.injEq] at h
        exact Or.inr ⟨it, rest, rfl, h.symm⟩

/-- The three ways in which a pass of the package loop begins. -/
theorem addPackageTxsBody_cases (cfg : Config) (pool : CTxMemPool) (s : PackageState) :
    (∃ it rest, s.mi = it :: rest ∧
      addPackageTxsBody cfg pool s = LoopStep.next { s with mi := rest }) ∨
    addPackageTxsBody cfg pool s = LoopStep.stop s ∨
    ∃ c, choosePackage cfg pool s = some c ∧
      (∀ it rest, s.mi = it :: rest →
        SkipMapTxEntry s.blk it s.mapModifiedTx s.failedTx = false) ∧
      addPackageTxsBody cfg pool s = processChoice cfg pool s c := by
  unfold addPackageTxsBody
  split
  · rename_i it rest hmi
    by_cases hskip : SkipMapTxEntry s.blk it s.mapModifiedTx s.failedTx = true
    · rw [if_pos hskip]
      exact Or.inl ⟨it, rest, hmi, rfl⟩
    · rw [if_neg hskip]
      cases hc : choosePackage cfg pool s with
      | none => exact Or.inr (Or.inl rfl)
      | some c =>
        refine Or.inr (Or.inr ⟨c, rfl, ?_, rfl⟩)
        intro it1 rest1 h
        rw [hmi] at h
        cases h
        simpa using hskip
  · rename_i hmi
    cases hc : choosePackage cfg pool s with
    | none => exact Or.inr (Or.inl rfl)
    | some c =>
      refine Or.inr (Or.inr ⟨c, rfl, ?_, rfl⟩)
      intro it1 rest1 h
      rw [hmi] at h
      cases h

/-! ## The overlay after a package -/

theorem addSortedEntries_mi (pool : CTxMemPool) (l : List TxIter) (s : PackageState) :
    (addSortedEntries pool l s).mi = s.mi := by
  unfold addSortedEntries
  induction l generalizing s with
  | nil => rfl
  | cons x xs ih => rw [List.foldl_cons, ih]

theorem addSortedEntries_mapModifiedTx (pool : CTxMemPool) (l : List TxIter)
    (s : PackageState) :
    (addSortedEntries pool l s).mapModifiedTx =
      s.mapModifiedTx.filter (fun e => decide (e.iter ∉ l)) := by
  unfold addSortedEntries
  induction l generalizing s with
  | nil => simp
  | cons x xs ih =>
    rw [List.foldl_cons, ih]
    simp only [modErase, List.filter_filter]
    apply List.filter_congr
    intro e _
    simp only [List.mem_cons, not_or, Bool.decide_and, Bool.and_comm]

theorem processChoice_success (cfg : Config) (pool : CTxMemPool) (s : PackageState)
    (c : PackageChoice) (h1 : c.iter ∉ s.blk.inBlock)
    (h2 : ¬ c.packageFees pool < cfg.blockMinFeeRateGetFee (c.packageSize pool))
    (h3 : TestPackage cfg s.blk (c.packageSize pool) (c.packageSigOps pool) = true)
    (h4 : TestPackageTransactions cfg pool s.blk (packageOf pool s.blk c.iter) = true) :
    processChoice cfg pool s c = LoopStep.next (afterPackage pool s c) := by
  unfold processChoice
  rw [if_neg h1, if_neg h2, if_neg (by simp [h3])]
  simp only
  rw [if_neg (by simp [h4])]
  rfl

/-- The five ways in which a pass of the package loop that has chosen a package ends. -/
theorem processChoice_cases (cfg : Config) (pool : CTxMemPool) (s : PackageState)
    (c : PackageChoice) :
    (c.iter ∈ s.blk.inBlock ∧
      processChoice cfg pool s c = LoopStep.assertFailed { s with mi := c.mi }) ∨
    (c.iter ∉ s.blk.inBlock ∧ processChoice cfg pool s c = LoopStep.stop { s with mi := c.mi }) ∨
    (c.iter ∉ s.blk.inBlock ∧ ∃ k,
      processChoice cfg pool s c =
        LoopStep.stop { markFailed c s with nConsecutiveFailed := k } ∨
      processChoice cfg pool s c =
        LoopStep.next { markFailed c s with nConsecutiveFailed := k }) ∨
    (c.iter ∉ s.blk.inBlock ∧ processChoice cfg pool s c = LoopStep.next (markFailed c s)) ∨
    (c.iter ∉ s.blk.inBlock ∧
      processChoice cfg pool s c = LoopStep.next (afterPackage pool s c)) := by
  by_cases h1 : c.iter ∈ s.blk.inBlock
  · left
    refine ⟨h1, ?_⟩
    unfold processChoice
    rw [if_pos h1]
  · right
    by_cases h2 : c.packageFees pool < cfg.blockMinFeeRateGetFee (c.packageSize pool)
    · left
      refine ⟨h1, ?_⟩
      unfold processChoice
      rw [if_neg h1, if_pos h2]
    · right
      by_cases h3 : TestPackage cfg s.blk (c.packageSize pool) (c.packageSigOps pool) = true
      · right
        by_cases h4 : TestPackageTransactions cfg pool s.blk
            (packageOf pool s.blk c.iter) = true
        · right
          exact ⟨h1, processChoice_success cfg pool s c h1 h2 h3 h4⟩
        · left
          refine ⟨h1, ?_⟩
          unfold processChoice
          rw [if_neg h1, if_neg h2, if_neg (by simp [h3])]
          simp only
          rw [if_pos (by simpa using h4)]
      · left
        refine ⟨h1, (markFailed c s).nConsecutiveFailed + 1, ?_⟩
        unfold processChoice
        rw [if_neg h1, if_neg h2, if_pos (by simpa using h3)]
        simp only
        split
        · exact Or.inl rfl
        · exact Or.inr rfl

theorem afterPackage_blk (pool : CTxMemPool) (s : PackageState) (c : PackageChoice) :
    (afterPackage pool s c).blk =
      (SortForBlock pool (packageOf pool s.blk c.iter)).foldl (AddToBlock pool) s.blk := by
  unfold afterPackage
  simp only
  rw [addSortedEntries_blk]

theorem afterPackage_mi (pool : CTxMemPool) (s : PackageState) (c : PackageChoice) :
    (afterPackage pool s c).mi = c.mi := by
  unfold afterPackage
  simp only
  rw [addSortedEntries_mi]

theorem afterPackage_mapModifiedTx (pool : CTxMemPool) (s : PackageState)
    (c : PackageChoice) :
    (afterPackage pool s c).mapModifiedTx =
      (UpdatePackagesForAdded pool (packageOf pool s.blk c.iter)
        (s.mapModifiedTx.filter (fun e =>
          decide (e.iter ∉ SortForBlock pool (packageOf pool s.blk c.iter))))).2 := by
  unfold afterPackage
  simp only
  rw [addSortedEntries_mapModifiedTx]

theorem modFind_eq_none (m : List CTxMemPoolModifiedEntry) (it : TxIter)
    (h : modFind m it = none) : it ∉ m.map CTxMemPoolModifiedEntry.iter := by
  unfold modFind at h
  rw [List.find?_eq_none] at h
  intro hmem
  rw [List.mem_map] at hmem
  obtain ⟨e, he, hit⟩ := hmem
  exact h e he (by simpa using hit)

/-- The iterators of the overlay after one step of `UpdatePackagesForAdded`: the same, or
one more, which is the descendant at hand, not among those already added and not in the
overlay before. -/
theorem updateDescendant_iters (pool : CTxMemPool) (alreadyAdded : List TxIter)
    (it : TxIter) (acc : Int × List CTxMemPoolModifiedEntry) (desc : TxIter) :
    (updateDescendant pool alreadyAdded it acc desc).2.map CTxMemPoolModifiedEntry.iter =
        acc.2.map CTxMemPoolModifiedEntry.iter ∨
    (desc ∉ alreadyAdded ∧ desc ∉ acc.2.map CTxMemPoolModifiedEntry.iter ∧
      (updateDescendant pool alreadyAdded it acc desc).2.map CTxMemPoolModifiedEntry.iter =
        acc.2.map CTxMemPoolModifiedEntry.iter ++ [desc]) := by
  unfold updateDescendant
  by_cases h : desc ∈ alreadyAdded
  · rw [if_pos h]; exact Or.inl rfl
  · rw [if_neg h]
    cases hf : modFind acc.2 desc with
    | none =>
      right
      refine ⟨h, modFind_eq_none _ _ hf, ?_⟩
      simp [CTxMemPoolModifiedEntry.ofEntry]
    | some e =>
      left
      simp only [List.map_map]
      apply List.map_congr_left
      intro e1 _
      simp only [Function.comp]
      split <;> rfl

/-- A property of the iterators of the overlay that holds of every descendant inserted is
kept by `UpdatePackagesForAdded`, and so is the absence of repetitions. -/
theorem UpdatePackagesForAdded_iters (pool : CTxMemPool) (alreadyAdded : List TxIter)
    (Q : TxIter → Prop)
    (hQ : ∀ it ∈ alreadyAdded, ∀ d ∈ pool.CalculateDescendants it, d ∉ alreadyAdded → Q d)
    (m : List CTxMemPoolModifiedEntry)
    (hm : ∀ x ∈ m.map CTxMemPoolModifiedEntry.iter, Q x) :
    (∀ x ∈ (UpdatePackagesForAdded pool alreadyAdded m).2.map CTxMemPoolModifiedEntry.iter,
      Q x) ∧
    ((m.map CTxMemPoolModifiedEntry.iter).Nodup →
      ((UpdatePackagesForAdded pool alreadyAdded m).2.map
        CTxMemPoolModifiedEntry.iter).Nodup) := by
  unfold UpdatePackagesForAdded
  have inner : ∀ (it : TxIter), it ∈ alreadyAdded → ∀ (ds : List TxIter),
      (∀ d ∈ ds, d ∈ pool.CalculateDescendants it) →
      ∀ acc : Int × List CTxMemPoolModifiedEntry,
        (∀ x ∈ acc.2.map CTxMemPoolModifiedEntry.iter, Q x) →
        (∀ x ∈ (ds.foldl (updateDescendant pool alreadyAdded it) acc).2.map
            CTxMemPoolModifiedEntry.iter, Q x) ∧
        ((acc.2.map CTxMemPoolModifiedEntry.iter).Nodup →
          ((ds.foldl (updateDescendant pool alreadyAdded it) acc).2.map
            CTxMemPoolModifiedEntry.iter).Nodup) := by
    intro it hit ds
    induction ds with
    | nil => intro _ acc hacc; exact ⟨hacc, fun h => h⟩
    | cons d ds ih =>
      intro hds acc hacc
      rw [List.foldl_cons]
      have hstep := updateDescendant_iters pool alreadyAdded it acc d
      have hds2 : ∀ d1 ∈ ds, d1 ∈ pool.CalculateDescendants it :=
        fun d1 h1 => hds d1 (List.mem_cons_of_mem _ h1)
      rcases hstep with heq | ⟨hna, hnm, heq⟩
      · have := ih hds2 (updateDescendant pool alreadyAdded it acc d) (by rw [heq]; exact hacc)
        exact ⟨this.1, fun hnd => this.2 (by rw [heq]; exact hnd)⟩
      · have := ih hds2 (updateDescendant pool alreadyAdded it acc d) (by
          rw [heq]
          intro x hx
          rcases List.mem_append.1 hx with h | h
          · exact hacc x h
          · rw [List.mem_singleton] at h
            subst h
            exact hQ it hit x (hds x (List.mem_cons_self _ _)) hna)
        refine ⟨this.1, fun hnd => this.2 ?_⟩
        rw [heq, List.nodup_append]
        refine ⟨hnd, List.nodup_singleton _, ?_⟩
        intro x hx hx2
        rw [List.mem_singleton] at hx2
        subst hx2
        exact hnm hx
  have outer : ∀ (as : List TxIter), (∀ it ∈ as, it ∈ alreadyAdded) →
      ∀ acc : Int × List CTxMemPoolModifiedEntry,
        (∀ x ∈ acc.2.map CTxMemPoolModifiedEntry.iter, Q x) →
        (∀ x ∈ (as.foldl (fun acc it => (pool.CalculateDescendants it).foldl
              (updateDescendant pool alreadyAdded it) acc) acc).2.map
            CTxMemPoolModifiedEntry.iter, Q x) ∧
        ((acc.2.map CTxMemPoolModifiedEntry.iter).Nodup →
          ((as.foldl (fun acc it => (pool.CalculateDescendants it).foldl
              (updateDescendant pool alreadyAdded it) acc) acc).2.map
            CTxMemPoolModifiedEntry.iter).Nodup) := by
    intro as
    induction as with
    | nil => intro _ acc hacc; exact ⟨hacc, fun h => h⟩
    | cons it as ih =>
      intro has acc hacc
      rw [List.foldl_cons]
      have h1 := inner it (has it (List.mem_cons_self _ _)) (pool.CalculateDescendants it)
        (fun d hd => hd) acc hacc
      have h2 := ih (fun it1 h => has it1 (List.mem_cons_of_mem _ h)) _ h1.1
      exact ⟨h2.1, fun hnd => h2.2 (h1.2 hnd)⟩
  exact outer alreadyAdded (fun it h => h) (0, m) hm

/-! ## The assertions of the selection loops -/

theorem lookup_some_mem (w : List (TxIter × Int)) (k : TxIter) (p : Int)
    (h : w.lookup k = some p) : k ∈ w.map Prod.fst := by
  induction w with
  | nil => simp [List.lookup] at h
  | cons x xs ih =>
    obtain ⟨k1, p1⟩ := x
    rw [List.lookup_cons] at h
    by_cases hk : (k == k1) = true
    · have : k = k1 := by simpa using hk
      simp [this]
    · have hk2 : (k == k1) = false := by simpa using hk
      rw [hk2] at h
      simp only [List.map_cons, List.mem_cons]
      exact Or.inr (ih h)

theorem promoteChild_keys (acc : List (Int × TxIter) × List (TxIter × Int)) (child : TxIter)
    (hnd : (acc.1.map Prod.snd ++ acc.2.map Prod.fst).Nodup) :
    ((promoteChild acc child).1.map Prod.snd ++
        (promoteChild acc child).2.map Prod.fst).Nodup ∧
    ∀ x ∈ (promoteChild acc child).1.map Prod.snd ++
        (promoteChild acc child).2.map Prod.fst,
      x ∈ acc.1.map Prod.snd ++ acc.2.map Prod.fst := by
  unfold promoteChild
  cases hl : acc.2.lookup child with
  | none => exact ⟨hnd, fun x hx => hx⟩
  | some p =>
    simp only
    have hchild := lookup_some_mem _ _ _ hl
    obtain ⟨hA, hW, hdis⟩ := List.nodup_append.1 hnd
    have hsub : ∀ x ∈ (acc.2.filter (fun q => decide (q.1 ≠ child))).map Prod.fst,
        x ∈ acc.2.map Prod.fst ∧ x ≠ child := by
      intro x hx
      rw [List.mem_map] at hx
      obtain ⟨q, hq, rfl⟩ := hx
      rw [List.mem_filter] at hq
      exact ⟨List.mem_map_of_mem _ hq.1, by simpa using hq.2⟩
    have hW2 : ((acc.2.filter (fun q => decide (q.1 ≠ child))).map Prod.fst).Nodup :=
      hW.sublist ((List.filter_sublist _).map _)
    constructor
    · rw [List.nodup_append]
      refine ⟨?_, hW2, ?_⟩
      · rw [List.map_append, List.nodup_append]
        refine ⟨hA, by simp, ?_⟩
        intro x hx hx2
        simp only [List.map_cons, List.map_nil, List.mem_singleton] at hx2
        subst hx2
        exact hdis hx hchild
      · intro x hx hx2
        rw [List.map_append, List.mem_append] at hx
        rcases hx with h | h
        · exact hdis h (hsub x hx2).1
        · simp only [List.map_cons, List.map_nil, List.mem_singleton] at h
          exact (hsub x hx2).2 h
    · intro x hx
      rw [List.mem_append] at hx ⊢
      rcases hx with h | h
      · rw [List.map_append, List.mem_append] at h
        rcases h with h | h
        · exact Or.inl h
        · simp only [List.map_cons, List.map_nil, List.mem_singleton] at h
          subst h
          exact Or.inr hchild
      · exact Or.inr (hsub x h).1

theorem foldl_promoteChild_keys (children : List TxIter) :
    ∀ acc : List (Int × TxIter) × List (TxIter × Int),
      (acc.1.map Prod.snd ++ acc.2.map Prod.fst).Nodup →
      ((children.foldl promoteChild acc).1.map Prod.snd ++
          (children.foldl promoteChild acc).2.map Prod.fst).Nodup ∧
      ∀ x ∈ (children.foldl promoteChild acc).1.map Prod.snd ++
          (children.foldl promoteChild acc).2.map Prod.fst,
        x ∈ acc.1.map Prod.snd ++ acc.2.map Prod.fst := by
  induction children with
  | nil => intro acc h; exact ⟨h, fun x hx => hx⟩
  | cons c cs ih =>
    intro acc h
    rw [List.foldl_cons]
    have h1 := promoteChild_keys acc c h
    have h2 := ih _ h1.1
    exact ⟨h2.1, fun x hx => h1.2 x (h2.2 x hx)⟩

theorem perm_cons_erase_pair (l : List (Int × TxIter)) (a : Int × TxIter) (h : a ∈ l) :
    l.Perm (a :: l.erase a) := by
  induction l with
  | nil => simp at h
  | cons x xs ih =>
    rw [List.erase_cons]
    by_cases hx : (x == a) = true
    · rw [if_pos hx]
      have : x = a := eq_of_beq hx
      rw [this]
    · rw [if_neg hx]
      have hne : x ≠ a := fun e => hx (by rw [e]; exact beq_self_eq_true a)
      have hm : a ∈ xs := by
        rcases List.mem_cons.1 h with h1 | h1
        · exact absurd h1.symm hne
        · exact h1
      exact ((ih hm).cons x).trans (List.Perm.swap a x _)

theorem keys_after_pop (s : PriorityState) (front : Int × TxIter)
    (hf : front ∈ s.vecPriority) (hs : PriorityHeld s) :
    ((s.vecPriority.erase front).map Prod.snd ++ s.waitPriMap.map Prod.fst).Nodup ∧
    front.2 ∉ (s.vecPriority.erase front).map Prod.snd ++ s.waitPriMap.map Prod.fst ∧
    front.2 ∉ s.blk.inBlock ∧
    ∀ x ∈ (s.vecPriority.erase front).map Prod.snd ++ s.waitPriMap.map Prod.fst,
      x ∉ s.blk.inBlock := by
  have hperm : s.keys.Perm
      (front.2 :: ((s.vecPriority.erase front).map Prod.snd ++ s.waitPriMap.map Prod.fst)) := by
    unfold PriorityState.keys
    have h1 := ((perm_cons_erase_pair _ _ hf).map Prod.snd).append_right
      (s.waitPriMap.map Prod.fst)
    simpa only [List.map_cons, List.cons_append] using h1
  have hnd := hperm.nodup_iff.1 hs.1
  rw [List.nodup_cons] at hnd
  refine ⟨hnd.2, hnd.1, ?_, ?_⟩
  · exact hs.2 _ (hperm.mem_iff.2 (List.mem_cons_self _ _))
  · intro x hx
    exact hs.2 _ (hperm.mem_iff.2 (List.mem_cons_of_mem _ hx))

theorem PriorityHeld_body (cfg : Config) (pool : CTxMemPool) (n : Nat) (s : PriorityState)
    (hs : PriorityHeld s) :
    PriorityHeld (addPriorityTxsBody cfg pool n s).state ∧
    ∀ s1, addPriorityTxsBody cfg pool n s ≠ LoopStep.assertFailed s1 := by
  rcases addPriorityTxsBody_cases cfg pool n s with h | ⟨front, hf, hcases⟩
  · rw [h]
    exact ⟨hs, fun s1 h1 => by cases h1⟩
  · obtain ⟨k1, k2, k3, k4⟩ := keys_after_pop s front hf hs
    have hadd : ∀ x ∈ (s.vecPriority.erase front).map Prod.snd ++ s.waitPriMap.map Prod.fst,
        x ∉ (AddToBlock pool s.blk front.2).inBlock := by
      intro x hx hmem
      simp only [AddToBlock, mem_setInsert] at hmem
      rcases hmem with h | h
      · subst h; exact k2 hx
      · exact k4 x hx h
    rcases hcases with ⟨hin, _⟩ | ⟨_, h⟩ | ⟨_, h⟩ | ⟨_, h⟩ | ⟨_, f, k, h⟩
    · exact absurd hin k3
    · rw [h]
      refine ⟨?_, fun s1 h1 => by cases h1⟩
      simp only [LoopStep.state]
      unfold waitInsert
      split
      · exact ⟨k1, k4⟩
      · unfold PriorityHeld PriorityState.keys
        simp only [List.map_append, List.map_cons, List.map_nil]
        have hperm : ((s.vecPriority.erase front).map Prod.snd ++
            (s.waitPriMap.map Prod.fst ++ [front.2])).Perm
            (front.2 :: ((s.vecPriority.erase front).map Prod.snd ++
              s.waitPriMap.map Prod.fst)) := by
          rw [← List.append_assoc]
          exact List.perm_append_singleton _ _
        refine ⟨hperm.nodup_iff.2 (List.nodup_cons.2 ⟨k2, k1⟩), ?_⟩
        intro x hx
        rcases List.mem_cons.1 (hperm.mem_iff.1 hx) with h2 | h2
        · rw [h2]; exact k3
        · exact k4 x h2
    · rw [h]
      exact ⟨⟨k1, hadd⟩, fun s1 h1 => by cases h1⟩
    · rw [h]
      refine ⟨?_, fun s1 h1 => by cases h1⟩
      have hp := foldl_promoteChild_keys (pool.GetMemPoolChildren front.2)
        (s.vecPriority.erase front, s.waitPriMap) k1
      exact ⟨hp.1, fun x hx => hadd x (hp.2 x hx)⟩
    · rw [h]
      exact ⟨⟨k1, k4⟩, fun s1 h1 => by cases h1⟩

theorem PriorityHeld_init (pool : CTxMemPool) (hmap : pool.mapTx.Nodup)
    (a : LegacyBlockAssembler) : PriorityHeld (addPriorityTxsInit pool (startBlock a)) := by
  have hk : (addPriorityTxsInit pool (startBlock a)).keys = pool.mapTx := by
    have hid : (Prod.snd ∘ fun mi => (pool.dPriority mi, mi)) = id := rfl
    simp only [PriorityState.keys, addPriorityTxsInit, List.map_map, List.map_nil,
      List.append_nil]
    rw [hid, List.map_id]
  have hb : (addPriorityTxsInit pool (startBlock a)).blk.inBlock = [] := by
    simp [addPriorityTxsInit, startBlock, resetBlock]
  unfold PriorityHeld
  rw [hk, hb]
  exact ⟨hmap, fun x _ h => by simp at h⟩

theorem markFailed_mapModifiedTx_sub (c : PackageChoice) (s : PackageState) :
    ∀ e ∈ (markFailed c s).mapModifiedTx, e ∈ s.mapModifiedTx := by
  intro e he
  unfold markFailed at he
  split at he
  · simp only [modErase, List.mem_filter] at he
    exact he.1
  · exact he

theorem OverlayDisjoint_body (cfg : Config) (pool : CTxMemPool)
    (hc : AncestorsConsistent pool) (hd : DescendantsConsistent pool)
    (s : PackageState) (hs : OverlayDisjoint pool s) :
    OverlayDisjoint pool (addPackageTxsBody cfg pool s).state ∧
    ∀ s1, addPackageTxsBody cfg pool s ≠ LoopStep.assertFailed s1 := by
  obtain ⟨hr, ho, hov⟩ := hs
  have heff := addPackageTxsBody_effect cfg pool s
  have hr1 := RecordInv_package cfg pool _ _ hr heff
  have ho1 := OrderInv_package cfg pool hc _ _ hr.1.1 ho heff
  have same : ∀ t : PackageState, t.blk = s.blk →
      (∀ e ∈ t.mapModifiedTx, e ∈ s.mapModifiedTx) →
      ∀ e ∈ t.mapModifiedTx, e.iter ∉ t.blk.inBlock := by
    intro t hb hsub e he
    rw [hb]
    exact hov e (hsub e he)
  rcases addPackageTxsBody_cases cfg pool s with ⟨it, rest, _, h⟩ | h | ⟨c, hch, hskip, h⟩
  · refine ⟨⟨hr1, ho1, ?_⟩, fun s1 h1 => by rw [h] at h1; cases h1⟩
    rw [h]
    exact same _ rfl (fun e he => he)
  · refine ⟨⟨hr1, ho1, ?_⟩, fun s1 h1 => by rw [h] at h1; cases h1⟩
    rw [h]
    exact same _ rfl (fun e he => he)
  · have hnot : c.iter ∉ s.blk.inBlock := by
      rcases choosePackage_cases cfg pool s c hch with ⟨m, hm, rfl⟩ | ⟨it, rest, hmi, rfl⟩
      · exact hov m hm
      · have := hskip it rest hmi
        unfold SkipMapTxEntry at this
        simp only [Bool.or_eq_false_iff, decide_eq_false_iff_not] at this
        exact this.1.2
    rcases processChoice_cases cfg pool s c with
      ⟨hin, _⟩ | ⟨_, h2⟩ | ⟨_, k, h2 | h2⟩ | ⟨_, h2⟩ | ⟨_, h2⟩
    · exact absurd hin hnot
    · rw [h2] at h
      refine ⟨⟨hr1, ho1, ?_⟩, fun s1 h1 => by rw [h] at h1; cases h1⟩
      rw [h]
      exact same _ rfl (fun e he => he)
    · rw [h2] at h
      refine ⟨⟨hr1, ho1, ?_⟩, fun s1 h1 => by rw [h] at h1; cases h1⟩
      rw [h]
      exact same _ (markFailed_blk c s) (markFailed_mapModifiedTx_sub c s)
    · rw [h2] at h
      refine ⟨⟨hr1, ho1, ?_⟩, fun s1 h1 => by rw [h] at h1; cases h1⟩
      rw [h]
      exact same _ (markFailed_blk c s) (markFailed_mapModifiedTx_sub c s)
    · rw [h2] at h
      refine ⟨⟨hr1, ho1, ?_⟩, fun s1 h1 => by rw [h] at h1; cases h1⟩
      rw [h]
      exact same _ (markFailed_blk c s) (markFailed_mapModifiedTx_sub c s)
    · rw [h2] at h
      refine ⟨⟨hr1, ho1, ?_⟩, fun s1 h1 => by rw [h] at h1; cases h1⟩
      rw [h]
      simp only [LoopStep.state]
      have hfresh : ∀ x ∈ packageOf pool s.blk c.iter, x ∉ s.blk.inBlock := by
        intro x hx
        rw [mem_packageOf] at hx
        rcases hx with rfl | ⟨_, hx⟩
        · exact hnot
        · exact hx
      have hQ := UpdatePackagesForAdded_iters pool (packageOf pool s.blk c.iter)
        (fun x => x ∉ (afterPackage pool s c).blk.inBlock)
        (by
          intro it hit d hdesc hdn
          rw [afterPackage_blk, foldl_AddToBlock_inBlock, mem_SortForBlock]
          rintro (hin | hin)
          · rcases hd it d hdesc with rfl | hanc
            · exact hdn hit
            · exact hfresh it hit (ho.2.1 d hin it hanc)
          · exact hdn hin)
        (s.mapModifiedTx.filter (fun e =>
          decide (e.iter ∉ SortForBlock pool (packageOf pool s.blk c.iter))))
        (by
          intro x hx
          rw [List.mem_map] at hx
          obtain ⟨e, he, rfl⟩ := hx
          rw [List.mem_filter] at he
          rw [afterPackage_blk, foldl_AddToBlock_inBlock]
          rintro (hin | hin)
          · exact hov e he.1 hin
          · exact (by simpa using he.2 : e.iter ∉ _) hin)
      intro e he
      rw [afterPackage_mapModifiedTx] at he
      exact hQ.1 e.iter (List.mem_map_of_mem _ he)

theorem OverlayDisjoint_init (pool : CTxMemPool) (a : LegacyBlockAssembler)
    (hr : RecordInv pool a) (ho : OrderInv pool a) :
    OverlayDisjoint pool (addPackageTxsInit pool a) := by
  refine ⟨hr, ho, ?_⟩
  intro e he
  have := UpdatePackagesForAdded_iters pool a.inBlock (fun x => x ∉ a.inBlock)
    (fun it _ d _ hdn => hdn) [] (by simp)
  exact this.1 e.iter (List.mem_map_of_mem _ he)

theorem addPriorityTxsPasses_held (cfg : Config) (pool : CTxMemPool) (n : Nat) :
    ∀ (k : Nat) (s s1 : PriorityState), PriorityHeld s →
      addPriorityTxsPasses cfg pool n k s = some s1 → PriorityHeld s1 := by
  intro k
  induction k with
  | zero =>
    intro s s1 hs h
    simp only [addPriorityTxsPasses, Option.some.injEq] at h
    rw [← h]; exact hs
  | succ k ih =>
    intro s s1 hs h
    simp only [addPriorityTxsPasses] at h
    split at h
    · have hb := (PriorityHeld_body cfg pool n s hs).1
      split at h
      · rename_i s2 heq
        rw [heq] at hb
        exact ih s2 s1 hb h
      · cases h
    · cases h

theorem addPackageTxsPasses_disjoint (cfg : Config) (pool : CTxMemPool)
    (hc : AncestorsConsistent pool) (hd : DescendantsConsistent pool) :
    ∀ (k : Nat) (s s1 : PackageState), OverlayDisjoint pool s →
      addPackageTxsPasses cfg pool k s = some s1 → OverlayDisjoint pool s1 := by
  intro k
  induction k with
  | zero =>
    intro s s1 hs h
    simp only [addPackageTxsPasses, Option.some.injEq] at h
    rw [← h]; exact hs
  | succ k ih =>
    intro s s1 hs h
    simp only [addPackageTxsPasses] at h
    split at h
    · have hb := (OverlayDisjoint_body cfg pool hc hd s hs).1
      split at h
      · rename_i s2 heq
        rw [heq] at hb
        exact ih s2 s1 hb h
      · cases h
    · cases h

theorem choice_not_inBlock (cfg : Config) (pool : CTxMemPool) (s : PackageState)
    (c : PackageChoice) (hov : ∀ e ∈ s.mapModifiedTx, e.iter ∉ s.blk.inBlock)
    (hskip : ∀ it rest, s.mi = it :: rest →
      SkipMapTxEntry s.blk it s.mapModifiedTx s.failedTx = false)
    (hch : choosePackage cfg pool s = some c) : c.iter ∉ s.blk.inBlock := by
  rcases choosePackage_cases cfg pool s c hch with ⟨m, hm, rfl⟩ | ⟨it, rest, hmi, rfl⟩
  · exact hov m hm
  · have := hskip it rest hmi
    unfold SkipMapTxEntry at this
    simp only [Bool.or_eq_false_iff, decide_eq_false_iff_not] at this
    exact this.1.2

theorem priority_invariants (cfg : Config) (pool : CTxMemPool)
    (hc : AncestorsConsistent pool) (fuel : Nat) (a : LegacyBlockAssembler) :
    RecordInv pool (addPriorityTxs cfg pool fuel (startBlock a)).2 ∧
    OrderInv pool (addPriorityTxs cfg pool fuel (startBlock a)).2 := by
  apply addPriorityTxs_inv cfg pool (fun b => RecordInv pool b ∧ OrderInv pool b)
  · intro b b1 hb he
    exact ⟨RecordInv_priority cfg pool b b1 hb.1 he,
      OrderInv_priority cfg pool hc b b1 hb.1.1.1 hb.2 he⟩
  · refine ⟨RecordInv_startBlock pool a, ?_⟩
    simp [OrderInv, startBlock, resetBlock, includedEntries]

theorem addPriorityTxs_no_assert (cfg : Config) (pool : CTxMemPool) (hmap : pool.mapTx.Nodup)
    (fuel : Nat) (a : LegacyBlockAssembler) :
    (addPriorityTxs cfg pool fuel (startBlock a)).1 ≠ Status.assertFailed := by
  by_cases hpct : cfg.GetBlockPriorityPercentage = 0
  · unfold addPriorityTxs
    rw [if_pos hpct]
    simp
  · rw [addPriorityTxs_eq_loop cfg pool fuel _ hpct]
    exact (addPriorityTxsLoop_state cfg pool _ PriorityHeld
      (fun s hs => (PriorityHeld_body cfg pool _ s hs).1)
      (fun s hs => (PriorityHeld_body cfg pool _ s hs).2) fuel _
      (PriorityHeld_init pool hmap a)).2

theorem addPackageTxs_no_assert (cfg : Config) (pool : CTxMemPool)
    (hc : AncestorsConsistent pool) (hd : DescendantsConsistent pool)
    (fuel : Nat) (a : LegacyBlockAssembler) (hr : RecordInv pool a) (ho : OrderInv pool a) :
    (addPackageTxs cfg pool fuel a).1 ≠ Status.assertFailed :=
  (addPackageTxsLoop_state cfg pool (OverlayDisjoint pool)
    (fun s hs => (OverlayDisjoint_body cfg pool hc hd s hs).1)
    (fun s hs => (OverlayDisjoint_body cfg pool hc hd s hs).2) fuel _
    (OverlayDisjoint_init pool a hr ho)).2

theorem selectTransactions_no_assert (cfg : Config) (pool : CTxMemPool)
    (hc : AncestorsConsistent pool) (hd : DescendantsConsistent pool)
    (hmap : pool.mapTx.Nodup) (fuel : Nat) (a : LegacyBlockAssembler) :
    (selectTransactions cfg pool fuel a).1 ≠ Status.assertFailed := by
  have h1 := addPriorityTxs_no_assert cfg pool hmap fuel a
  have h2 := priority_invariants cfg pool hc fuel a
  unfold selectTransactions
  split
  · rename_i a1 heq
    rw [heq] at h2
    exact addPackageTxs_no_assert cfg pool hc hd fuel a1 h2.1 h2.2
  · rename_i st a1 _ heq
    rw [heq] at h1
    exact h1

/-- C25: over a pool whose ancestor sets are consistent, whose descendant sets agree with
the ancestor sets and whose index lists every entry once, no assertion of the selection
loops fails in a build started by `resetBlock`, whatever the fuel: in every state the
priority loop reaches no heap entry is in the block and its pass does not take the
`assert(false)` branch; in every state the package loop reaches no overlay entry is in the
block, the package chosen there is not in the block and its pass does not fail the
assertion; so neither phase, nor the selection, nor `CreateNewBlock` ends in a failed
assertion. -/
theorem selection_assertions_hold (cfg : Config) (pool : CTxMemPool)
    (hc : AncestorsConsistent pool) (hd : DescendantsConsistent pool)
    (hmap : pool.mapTx.Nodup) (fuel : Nat) (a : LegacyBlockAssembler)
    (pindexPrevNew pindexPrev : Nat) :
    (∀ k s, addPriorityTxsPasses cfg pool (reservedPrioritySize cfg) k
        (addPriorityTxsInit pool (startBlock a)) = some s →
      (∀ x ∈ s.vecPriority, x.2 ∉ s.blk.inBlock) ∧
      ∀ s1, addPriorityTxsBody cfg pool (reservedPrioritySize cfg) s ≠
        LoopStep.assertFailed s1) ∧
    (addPriorityTxs cfg pool fuel (startBlock a)).1 ≠ Status.assertFailed ∧
    (∀ k s, addPackageTxsPasses cfg pool k
        (addPackageTxsInit pool (addPriorityTxs cfg pool fuel (startBlock a)).2) = some s →
      (∀ e ∈ s.mapModifiedTx, e.iter ∉ s.blk.inBlock) ∧
      (∀ c, (∀ it rest, s.mi = it :: rest →
          SkipMapTxEntry s.blk it s.mapModifiedTx s.failedTx = false) →
        choosePackage cfg pool s = some c → c.iter ∉ s.blk.inBlock) ∧
      ∀ s1, addPackageTxsBody cfg pool s ≠ LoopStep.assertFailed s1) ∧
    (addPackageTxs cfg pool fuel (addPriorityTxs cfg pool fuel (startBlock a)).2).1 ≠
      Status.assertFailed ∧
    (selectTransactions cfg pool fuel a).1 ≠ Status.assertFailed ∧
    (CreateNewBlock cfg pool fuel a pindexPrevNew pindexPrev).1 ≠
      BuildResult.assertFailed := by
  have hinv := priority_invariants cfg pool hc fuel a
  have hsel := selectTransactions_no_assert cfg pool hc hd hmap fuel a
  refine ⟨?_, addPriorityTxs_no_assert cfg pool hmap fuel a, ?_,
    addPackageTxs_no_assert cfg pool hc hd fuel _ hinv.1 hinv.2, hsel, ?_⟩
  · intro k s hreach
    have hs := addPriorityTxsPasses_held cfg pool _ k _ s (PriorityHeld_init pool hmap a) hreach
    refine ⟨?_, (PriorityHeld_body cfg pool _ s hs).2⟩
    intro x hx
    apply hs.2
    unfold PriorityState.keys
    exact List.mem_append_left _ (List.mem_map_of_mem _ hx)
  · intro k s hreach
    have hs := addPackageTxsPasses_disjoint cfg pool hc hd k _ s
      (OverlayDisjoint_init pool _ hinv.1 hinv.2) hreach
    exact ⟨hs.2.2, fun c hskip hch => choice_not_inBlock cfg pool s c hs.2.2 hskip hch,
      (OverlayDisjoint_body cfg pool hc hd s hs).2⟩
  · intro h
    apply hsel
    unfold CreateNewBlock at h
    split at h
    · simp only at h
      split at h <;> cases h
    · rename_i heq
      rw [heq]
    · cases h

theorem threePool_descendants : DescendantsConsistent threePool := by
  intro it d h
  simp only [threePool] at h ⊢
  split at h
  · rename_i h1
    simp only [List.mem_cons, List.mem_singleton, List.not_mem_nil, or_false] at h
    rcases h with rfl | rfl
    · exact Or.inl h1.symm
    · right; subst h1; decide
  · split at h
    · rename_i h2
      simp only [List.mem_cons, List.mem_singleton, List.not_mem_nil, or_false] at h
      rcases h with rfl | rfl
      · exact Or.inl h2.symm
      · right; subst h2; decide
    · simp only [List.mem_singleton] at h
      exact Or.inl h

theorem selection_assertions_hold_witness :
    AncestorsConsistent threePool ∧ DescendantsConsistent threePool ∧
    threePool.mapTx.Nodup ∧
    (selectTransactions twoMegabyteCfg threePool 9 freshAssembler).1 ≠ Status.assertFailed ∧
    (CreateNewBlock twoMegabyteCfg threePool 9 freshAssembler 7 0).1 ≠
      BuildResult.assertFailed :=
  ⟨threePool_consistent, threePool_descendants, by decide,
    (selection_assertions_hold twoMegabyteCfg threePool threePool_consistent
      threePool_descendants (by decide) 9 freshAssembler 7 0).2.2.2.2⟩

/-! ## Termination of the selection loops -/

theorem length_erase_pair (l : List (Int × TxIter)) (a : Int × TxIter) (h : a ∈ l) :
    (l.erase a).length + 1 = l.length := by
  have := (perm_cons_erase_pair l a h).length_eq
  simp only [List.length_cons] at this
  omega

theorem waitInsert_length (w : List (TxIter × Int)) (iter : TxIter) (priority : Int) :
    (waitInsert w iter priority).length ≤ w.length + 1 := by
  unfold waitInsert
  split
  · omega
  · simp

theorem promoteChild_length (acc : List (Int × TxIter) × List (TxIter × Int))
    (child : TxIter) :
    (promoteChild acc child).1.length + (promoteChild acc child).2.length ≤
      acc.1.length + acc.2.length := by
  unfold promoteChild
  cases hl : acc.2.lookup child with
  | none => exact Nat.le_refl _
  | some p =>
    simp only [List.length_append, List.length_cons, List.length_nil]
    have hchild := lookup_some_mem _ _ _ hl
    rw [List.mem_map] at hchild
    obtain ⟨q, hq, hq1⟩ := hchild
    have hlt : (acc.2.filter (fun p => decide (p.1 ≠ child))).length < acc.2.length := by
      rw [List.length_filter_lt_length_iff_exists]
      exact ⟨q, hq, by simp [hq1]⟩
    omega

theorem foldl_promoteChild_length (children : List TxIter) :
    ∀ acc : List (Int × TxIter) × List (TxIter × Int),
      (children.foldl promoteChild acc).1.length +
          (children.foldl promoteChild acc).2.length ≤
        acc.1.length + acc.2.length := by
  induction children with
  | nil => intro acc; exact Nat.le_refl _
  | cons c cs ih =>
    intro acc
    rw [List.foldl_cons]
    exact Nat.le_trans (ih _) (promoteChild_length acc c)

theorem lex_measure_lt (T1 V1 T V : Nat) (hv : V1 ≤ T1)
    (h : T1 < T ∨ (T1 ≤ T ∧ V1 < V)) :
    T1 * (T1 + 1) + V1 < T * (T + 1) + V := by
  rcases h with h | ⟨h1, h2⟩
  · have h3 : (T1 + 1) * (T1 + 1) ≤ T * T := Nat.mul_le_mul h h
    have h4 : (T1 + 1) * (T1 + 1) = T1 * (T1 + 1) + T1 + 1 := by ring
    have h5 : T * (T + 1) = T * T + T := by ring
    omega
  · have h3 : T1 * (T1 + 1) ≤ T * (T + 1) := Nat.mul_le_mul h1 (by omega)
    omega

/-- A pass of the priority loop that goes on to a further pass takes an entry off the heap
and leaves the block alone, or adds one entry that was not in the block. -/
theorem addPriorityTxsBody_progress (cfg : Config) (pool : CTxMemPool) (n : Nat)
    (s s1 : PriorityState) (h : addPriorityTxsBody cfg pool n s = LoopStep.next s1) :
    (s1.vecPriority.length + 1 = s.vecPriority.length ∧
      s1.blk.inBlock = s.blk.inBlock) ∨
    (∃ x, x ∉ s.blk.inBlock ∧ s1.blk = AddToBlock pool s.blk x) := by
  rcases addPriorityTxsBody_cases cfg pool n s with h1 | ⟨front, hf, hcases⟩
  · rw [h1] at h; cases h
  · have hlen := length_erase_pair _ _ hf
    rcases hcases with ⟨_, h1⟩ | ⟨_, h1⟩ | ⟨_, h1⟩ | ⟨hn, h1⟩ | ⟨_, f, k, h1⟩
    · rw [h1] at h; cases h
    · rw [h1] at h
      injection h with h
      subst h
      exact Or.inl ⟨hlen, rfl⟩
    · rw [h1] at h; cases h
    · rw [h1] at h
      injection h with h
      subst h
      exact Or.inr ⟨front.2, hn, rfl⟩
    · rw [h1] at h
      injection h with h
      subst h
      exact Or.inl ⟨hlen, rfl⟩

theorem priorityMeasure_decreases (cfg : Config) (pool : CTxMemPool) (n : Nat)
    (s s1 : PriorityState) (h : addPriorityTxsBody cfg pool n s = LoopStep.next s1) :
    priorityMeasure s1 < priorityMeasure s := by
  unfold priorityMeasure
  apply lex_measure_lt _ _ _ _ (Nat.le_add_right _ _)
  rcases addPriorityTxsBody_cases cfg pool n s with h1 | ⟨front, hf, hcases⟩
  · rw [h1] at h; cases h
  · have hlen := length_erase_pair _ _ hf
    rcases hcases with ⟨_, h1⟩ | ⟨_, h1⟩ | ⟨_, h1⟩ | ⟨hn, h1⟩ | ⟨_, f, k, h1⟩
    · rw [h1] at h; cases h
    · rw [h1] at h
      injection h with h
      subst h
      have := waitInsert_length s.waitPriMap front.2 front.1
      simp only
      right
      omega
    · rw [h1] at h; cases h
    · rw [h1] at h
      injection h with h
      subst h
      have := foldl_promoteChild_length (pool.GetMemPoolChildren front.2)
        (s.vecPriority.erase front, s.waitPriMap)
      simp only at this ⊢
      left
      omega
    · rw [h1] at h
      injection h with h
      subst h
      simp only
      left
      omega

theorem addPriorityTxs_terminates (cfg : Config) (pool : CTxMemPool) (fuel : Nat)
    (hfuel : (pool.mapTx.length + 1) * (pool.mapTx.length + 1) ≤ fuel)
    (a : LegacyBlockAssembler) :
    (addPriorityTxs cfg pool fuel a).1 ≠ Status.outOfFuel := by
  by_cases hpct : cfg.GetBlockPriorityPercentage = 0
  · unfold addPriorityTxs
    rw [if_pos hpct]
    simp
  · rw [addPriorityTxs_eq_loop cfg pool fuel _ hpct]
    apply addPriorityTxsLoop_fuel cfg pool _ priorityMeasure
      (priorityMeasure_decreases cfg pool _)
    have h1 : priorityMeasure (addPriorityTxsInit pool a) =
        pool.mapTx.length * (pool.mapTx.length + 1) + pool.mapTx.length := by
      simp [priorityMeasure, addPriorityTxsInit]
    have h2 : (pool.mapTx.length + 1) * (pool.mapTx.length + 1) =
        pool.mapTx.length * (pool.mapTx.length + 1) + pool.mapTx.length + 1 := by ring
    omega

/-- A pass of the package loop that goes on to a further pass advances the primary cursor
and leaves overlay and block alone, or erases an entry of the overlay and leaves cursor
and block alone, or adds the package of a chosen entry that was not in the block. -/
theorem addPackageTxsBody_progress (cfg : Config) (pool : CTxMemPool)
    (s s1 : PackageState) (h : addPackageTxsBody cfg pool s = LoopStep.next s1) :
    (∃ it, s.mi = it :: s1.mi ∧ s1.mapModifiedTx = s.mapModifiedTx ∧ s1.blk = s.blk) ∨
    (∃ m ∈ s.mapModifiedTx, s1.mapModifiedTx = modErase s.mapModifiedTx m.iter ∧
      s1.mi = s.mi ∧ s1.blk = s.blk) ∨
    (∃ c, choosePackage cfg pool s = some c ∧ c.iter ∉ s.blk.inBlock ∧
      s1 = afterPackage pool s c) := by
  have failed : ∀ c, choosePackage cfg pool s = some c → ∀ t : PackageState,
      t.mi = (markFailed c s).mi → t.mapModifiedTx = (markFailed c s).mapModifiedTx →
      t.blk = (markFailed c s).blk →
      (∃ it, s.mi = it :: t.mi ∧ t.mapModifiedTx = s.mapModifiedTx ∧ t.blk = s.blk) ∨
      (∃ m ∈ s.mapModifiedTx, t.mapModifiedTx = modErase s.mapModifiedTx m.iter ∧
        t.mi = s.mi ∧ t.blk = s.blk) := by
    intro c hch t h1 h2 h3
    rw [markFailed_blk] at h3
    rcases choosePackage_cases cfg pool s c hch with ⟨m, hm, rfl⟩ | ⟨it, rest, hmi, rfl⟩
    · right
      refine ⟨m, hm, ?_, ?_, h3⟩
      · rw [h2]; rfl
      · rw [h1]; rfl
    · left
      refine ⟨it, ?_, ?_, h3⟩
      · rw [h1, hmi]; rfl
      · rw [h2]; rfl
  rcases addPackageTxsBody_cases cfg pool s with ⟨it, rest, hmi, h1⟩ | h1 | ⟨c, hch, _, h1⟩
  · rw [h1] at h
    injection h with h
    subst h
    exact Or.inl ⟨it, hmi, rfl, rfl⟩
  · rw [h1] at h; cases h
  · rw [h1] at h
    rcases processChoice_cases cfg pool s c with
      ⟨_, h2⟩ | ⟨_, h2⟩ | ⟨_, k, h2 | h2⟩ | ⟨_, h2⟩ | ⟨hn, h2⟩
    · rw [h2] at h; cases h
    · rw [h2] at h; cases h
    · rw [h2] at h; cases h
    · rw [h2] at h
      injection h with h
      subst h
      rcases failed c hch _ rfl rfl rfl with h3 | h3
      · exact Or.inl h3
      · exact Or.inr (Or.inl h3)
    · rw [h2] at h
      injection h with h
      subst h
      rcases failed c hch _ rfl rfl rfl with h3 | h3
      · exact Or.inl h3
      · exact Or.inr (Or.inl h3)
    · rw [h2] at h
      injection h with h
      subst h
      exact Or.inr (Or.inr ⟨c, hch, hn, rfl⟩)

theorem OverlayFinite_next (cfg : Config) (pool : CTxMemPool) (hfin : PoolFinite pool)
    (s s1 : PackageState) (hs : OverlayFinite pool s)
    (h : addPackageTxsBody cfg pool s = LoopStep.next s1) : OverlayFinite pool s1 := by
  obtain ⟨hnd, hov, hmi, hlen⟩ := hs
  rcases addPackageTxsBody_progress cfg pool s s1 h with
    ⟨it, h1, h2, _⟩ | ⟨m, _, h1, h2, _⟩ | ⟨c, hch, _, rfl⟩
  · refine ⟨by rw [h2]; exact hnd, by rw [h2]; exact hov, ?_, ?_⟩
    · intro x hx
      exact hmi x (by rw [h1]; exact List.mem_cons_of_mem _ hx)
    · rw [h1] at hlen
      simp only [List.length_cons] at hlen
      omega
  · have hsub : (s1.mapModifiedTx.map CTxMemPoolModifiedEntry.iter).Sublist
        (s.mapModifiedTx.map CTxMemPoolModifiedEntry.iter) := by
      rw [h1]
      exact (List.filter_sublist _).map _
    refine ⟨hnd.sublist hsub, fun x hx => hov x (hsub.subset hx), ?_, ?_⟩
    · rw [h2]; exact hmi
    · rw [h2]; exact hlen
  · have hQ := UpdatePackagesForAdded_iters pool (packageOf pool s.blk c.iter)
      (fun x => x ∈ pool.mapTx)
      (fun it hit d hd hdn => hfin.desc_sub it d hd (fun e => hdn (e ▸ hit)))
      (s.mapModifiedTx.filter (fun e =>
        decide (e.iter ∉ SortForBlock pool (packageOf pool s.blk c.iter))))
      (fun x hx => hov x (((List.filter_sublist _).map _).subset hx))
    have hcmi : (∀ x ∈ c.mi, x ∈ s.mi) ∧ c.mi.length ≤ s.mi.length := by
      rcases choosePackage_cases cfg pool s c hch with ⟨m, _, rfl⟩ | ⟨it, rest, h1, rfl⟩
      · exact ⟨fun x hx => hx, Nat.le_refl _⟩
      · rw [h1]
        exact ⟨fun x hx => List.mem_cons_of_mem _ hx, by simp⟩
    rw [OverlayFinite, afterPackage_mapModifiedTx, afterPackage_mi]
    exact ⟨hQ.2 (hnd.sublist ((List.filter_sublist _).map _)), hQ.1,
      fun x hx => hmi x (hcmi.1 x hx), Nat.le_trans hcmi.2 hlen⟩

theorem OverlayFinite_init (pool : CTxMemPool) (hfin : PoolFinite pool)
    (a : LegacyBlockAssembler) : OverlayFinite pool (addPackageTxsInit pool a) := by
  have hQ := UpdatePackagesForAdded_iters pool a.inBlock (fun x => x ∈ pool.mapTx)
    (fun it hit d hd hdn => hfin.desc_sub it d hd (fun e => hdn (e ▸ hit))) [] (by simp)
  exact ⟨hQ.2 (by simp), hQ.1, hfin.score_sub, Nat.le_refl _⟩

theorem OverlayFinite_length (pool : CTxMemPool) (s : PackageState)
    (hs : OverlayFinite pool s) : s.mapModifiedTx.length ≤ pool.mapTx.length := by
  have := (List.subperm_of_subset hs.1 hs.2.1).length_le
  simpa using this

theorem packageMeasure_decreases (cfg : Config) (pool : CTxMemPool) (hfin : PoolFinite pool)
    (s s1 : PackageState) (hs : OverlayFinite pool s)
    (h : addPackageTxsBody cfg pool s = LoopStep.next s1) :
    packageMeasure pool s1 < packageMeasure pool s := by
  have hs1 := OverlayFinite_next cfg pool hfin s s1 hs h
  have hlen1 := OverlayFinite_length pool s1 hs1
  unfold packageMeasure
  rcases addPackageTxsBody_progress cfg pool s s1 h with
    ⟨it, h1, h2, h3⟩ | ⟨m, hm, h1, h2, h3⟩ | ⟨c, hch, hn, heq⟩
  · rw [h3, h2, h1]
    simp only [List.length_cons]
    omega
  · have hlt : s1.mapModifiedTx.length < s.mapModifiedTx.length := by
      rw [h1]
      unfold modErase
      rw [List.length_filter_lt_length_iff_exists]
      exact ⟨m, hm, by simp⟩
    rw [h3, h2]
    omega
  · have hmem : c.iter ∈ pool.mapTx := by
      rcases choosePackage_cases cfg pool s c hch with ⟨m, hm, rfl⟩ | ⟨it, rest, h1, rfl⟩
      · exact hs.2.1 _ (List.mem_map_of_mem _ hm)
      · exact hs.2.2.1 it (by rw [h1]; exact List.mem_cons_self _ _)
    have hin : ∀ x, x ∈ s1.blk.inBlock ↔
        x ∈ s.blk.inBlock ∨ x ∈ packageOf pool s.blk c.iter := by
      intro x
      rw [heq, afterPackage_blk, foldl_AddToBlock_inBlock, mem_SortForBlock]
    have hfilter : pool.mapTx.filter (fun x => decide (x ∉ s1.blk.inBlock)) =
        (pool.mapTx.filter (fun x => decide (x ∉ s.blk.inBlock))).filter
          (fun x => decide (x ∉ s1.blk.inBlock)) := by
      rw [List.filter_filter]
      apply List.filter_congr
      intro x _
      by_cases hx : x ∈ s1.blk.inBlock
      · simp [hx]
      · have : x ∉ s.blk.inBlock := fun h2 => hx ((hin x).2 (Or.inl h2))
        simp [hx, this]
    have hF : (pool.mapTx.filter (fun x => decide (x ∉ s1.blk.inBlock))).length <
        (pool.mapTx.filter (fun x => decide (x ∉ s.blk.inBlock))).length := by
      rw [hfilter, List.length_filter_lt_length_iff_exists]
      refine ⟨c.iter, ?_, ?_⟩
      · rw [List.mem_filter]
        exact ⟨hmem, by simpa using hn⟩
      · have : c.iter ∈ s1.blk.inBlock :=
          (hin c.iter).2 (Or.inr ((mem_packageOf pool s.blk c.iter c.iter).2 (Or.inl rfl)))
        simp [this]
    have hmul := Nat.mul_le_mul_right
      (pool.ancestorScore.length + pool.mapTx.length + 1) (Nat.succ_le_of_lt hF)
    rw [Nat.succ_mul] at hmul
    have := hs1.2.2.2
    omega

theorem addPackageTxs_terminates (cfg : Config) (pool : CTxMemPool) (hfin : PoolFinite pool)
    (fuel : Nat)
    (hfuel : (pool.mapTx.length + 1) *
      (pool.ancestorScore.length + pool.mapTx.length + 1) ≤ fuel)
    (a : LegacyBlockAssembler) :
    (addPackageTxs cfg pool fuel a).1 ≠ Status.outOfFuel := by
  unfold addPackageTxs
  apply addPackageTxsLoop_fuel cfg pool (OverlayFinite pool) (packageMeasure pool)
    (fun s s1 hs h => OverlayFinite_next cfg pool hfin s s1 hs h)
    (fun s s1 hs h => packageMeasure_decreases cfg pool hfin s s1 hs h) fuel _
    (OverlayFinite_init pool hfin a)
  have h0 := OverlayFinite_init pool hfin a
  have hlen := OverlayFinite_length pool _ h0
  have hF : (pool.mapTx.filter (fun x =>
      decide (x ∉ (addPackageTxsInit pool a).blk.inBlock))).length ≤ pool.mapTx.length :=
    List.length_filter_le _ _
  have hmul := Nat.mul_le_mul_right
    (pool.ancestorScore.length + pool.mapTx.length + 1) hF
  have hmi : (addPackageTxsInit pool a).mi.length = pool.ancestorScore.length := rfl
  unfold packageMeasure
  rw [Nat.succ_mul] at hfuel
  omega

theorem selectTransactions_terminates (cfg : Config) (pool : CTxMemPool)
    (hfin : PoolFinite pool) (fuel : Nat) (hfuel : selectionFuel pool ≤ fuel)
    (a : LegacyBlockAssembler) :
    (selectTransactions cfg pool fuel a).1 ≠ Status.outOfFuel := by
  unfold selectionFuel at hfuel
  have h1 := addPriorityTxs_terminates cfg pool fuel (by omega) (startBlock a)
  unfold selectTransactions
  split
  · rename_i a1 heq
    exact addPackageTxs_terminates cfg pool hfin fuel (by omega) a1
  · rename_i st a1 _ heq
    rw [heq] at h1
    exact h1

/-- C26: over a pool whose ancestor-score index and reported descendants lie within the
finitely many entries of `mapTx`, both selection loops end: with at least
`selectionFuel pool` passes allowed, neither `addPriorityTxs` nor `addPackageTxs` (from
any assembler), nor the selection, nor `CreateNewBlock` runs out of passes. Every pass of
the priority loop that goes on takes an entry off the heap or adds an entry that was not
in the block, and lowers `priorityMeasure`; every pass of the package loop that goes on
advances the primary cursor, erases an overlay entry or adds the package of an entry that
was not in the block, and in a state that satisfies `OverlayFinite` lowers
`packageMeasure`. -/
theorem selection_terminates (cfg : Config) (pool : CTxMemPool) (hfin : PoolFinite pool)
    (fuel : Nat) (hfuel : selectionFuel pool ≤ fuel) (a : LegacyBlockAssembler)
    (pindexPrevNew pindexPrev : Nat) :
    (∀ a1, (addPriorityTxs cfg pool fuel a1).1 ≠ Status.outOfFuel) ∧
    (∀ a1, (addPackageTxs cfg pool fuel a1).1 ≠ Status.outOfFuel) ∧
    (selectTransactions cfg pool fuel a).1 ≠ Status.outOfFuel ∧
    (CreateNewBlock cfg pool fuel a pindexPrevNew pindexPrev).1 ≠ BuildResult.outOfFuel ∧
    (∀ n s s1, addPriorityTxsBody cfg pool n s = LoopStep.next s1 →
      ((s1.vecPriority.length + 1 = s.vecPriority.length ∧
          s1.blk.inBlock = s.blk.inBlock) ∨
        (∃ x, x ∉ s.blk.inBlock ∧ s1.blk = AddToBlock pool s.blk x)) ∧
      priorityMeasure s1 < priorityMeasure s) ∧
    (∀ s s1, addPackageTxsBody cfg pool s = LoopStep.next s1 →
      ((∃ it, s.mi = it :: s1.mi ∧ s1.mapModifiedTx = s.mapModifiedTx ∧ s1.blk = s.blk) ∨
        (∃ m ∈ s.mapModifiedTx, s1.mapModifiedTx = modErase s.mapModifiedTx m.iter ∧
          s1.mi = s.mi ∧ s1.blk = s.blk) ∨
        (∃ c, choosePackage cfg pool s = some c ∧ c.iter ∉ s.blk.inBlock ∧
          s1 = afterPackage pool s c)) ∧
      (OverlayFinite pool s →
        OverlayFinite pool s1 ∧ packageMeasure pool s1 < packageMeasure pool s)) := by
  have hsel := selectTransactions_terminates cfg pool hfin fuel hfuel a
  have hf := hfuel
  unfold selectionFuel at hf
  refine ⟨fun a1 => addPriorityTxs_terminates cfg pool fuel (by omega) a1,
    fun a1 => addPackageTxs_terminates cfg pool hfin fuel (by omega) a1, hsel, ?_, ?_, ?_⟩
  · intro h
    apply hsel
    unfold CreateNewBlock at h
    split at h
    · simp only at h
      split at h <;> cases h
    · cases h
    · rename_i heq
      rw [heq]
  · intro n s s1 h
    exact ⟨addPriorityTxsBody_progress cfg pool n s s1 h,
      priorityMeasure_decreases cfg pool n s s1 h⟩
  · intro s s1 h
    exact ⟨addPackageTxsBody_progress cfg pool s s1 h, fun hs =>
      ⟨OverlayFinite_next cfg pool hfin s s1 hs h,
        packageMeasure_decreases cfg pool hfin s s1 hs h⟩⟩

theorem threePool_finite : PoolFinite threePool := by
  refine ⟨by decide, ?_⟩
  intro it d h hne
  simp only [threePool] at h ⊢
  split at h
  · simp only [List.mem_cons, List.mem_singleton, List.not_mem_nil, or_false] at h
    rcases h with h | h
    · subst_vars; exact absurd rfl hne
    · rw [h]; decide
  · split at h
    · simp only [List.mem_cons, List.mem_singleton, List.not_mem_nil, or_false] at h
      rcases h with h | h
      · subst_vars; exact absurd rfl hne
      · rw [h]; decide
    · simp only [List.mem_singleton] at h
      exact absurd h hne

theorem selection_terminates_witness :
    PoolFinite threePool ∧ selectionFuel threePool ≤ 44 ∧
    (selectTransactions twoMegabyteCfg threePool 44 freshAssembler).1 ≠ Status.outOfFuel ∧
    (CreateNewBlock twoMegabyteCfg threePool 44 freshAssembler 7 0).1 ≠
      BuildResult.outOfFuel :=
  ⟨threePool_finite, by decide,
    (selection_terminates twoMegabyteCfg threePool threePool_finite 44 (by decide)
      freshAssembler 7 0).2.2.1,
    (selection_terminates twoMegabyteCfg threePool threePool_finite 44 (by decide)
      freshAssembler 7 0).2.2.2.1⟩

end Mining
